import Mathlib

set_option maxRecDepth 10000

/-!
# Verification of the kona preimage-driven state access layer

Shallow embedding of the core of `succinctlabs/kona`: the Merkle-Patricia
trie engine (`crates/mpt/src/node.rs`), the zkVM in-memory oracle
(`bin/programs/zkvm-client/src/oracle.rs`), the boot loader
(`bin/client/src/boot.rs`) and the program epilogue
(`bin/programs/zkvm-client/src/main.rs`, `bin/client/src/main.rs`).

Bytes are modelled as `List Nat` (each entry a byte value), nibble paths as
`List Nat` (each entry a nibble value, well-formedness predicates restrict
entries to `< 16`), and 32-byte hashes as `List Nat` of length 32.  The
`keccak256` function of `alloy_primitives` is an external dependency of the
repository; the development is parameterized over it.  Rust panics
(out-of-bounds indexing, `assert!`, `todo!`, `unimplemented!`) are modelled
as a distinct `panic` outcome, different from `Result::Err` returns, because
in the client targets a panic aborts the program through the panic handler.
Rust methods that can diverge for adversarial preimage providers (repeated
`Blinded` fetches) take a fuel argument that is consumed only when a blinded
node is revealed; no claim below depends on the fuel value.
-/

namespace KonaMpt

/-- Trie node errors, from `crates/mpt/src/errors.rs` (the error enum itself
is not in the sources; its variants are those constructed in
`crates/mpt/src/node.rs`).  `panic` models a Rust panic (out-of-bounds
indexing), `outOfFuel` models divergence on adversarial providers. -/
inductive TrieErr where
  | keyNotFound : TrieErr
  | provider : String → TrieErr
  | rlpError : TrieErr
  | invalidNodeType : TrieErr
  | panic : TrieErr
  | outOfFuel : TrieErr
deriving Repr, DecidableEq

/-- A node of the sparse Merkle-Patricia trie, from `TrieNodeData` in
`crates/mpt/src/node.rs`.  The `cached_reference` field of the Rust
`TrieNode` wrapper never influences behaviour (`PartialEq` compares only
`data`) and is omitted. -/
inductive TrieNode where
  | empty : TrieNode
  | blinded (commitment : List Nat) : TrieNode
  | leaf (pfx : List Nat) (value : List Nat) : TrieNode
  | ext (pfx : List Nat) (node : TrieNode) : TrieNode
  | branch (stack : List TrieNode) : TrieNode

namespace TrieNode

/-- `matches!(self.data, TrieNodeData::Empty)`. -/
def isEmptyN : TrieNode → Bool
  | .empty => true
  | _ => false

/-- `matches!(self.data, TrieNodeData::Blinded { .. })`. -/
def isBlindedN : TrieNode → Bool
  | .blinded _ => true
  | _ => false

end TrieNode

/-- `alloy_trie::EMPTY_ROOT_HASH`, the keccak256 hash of the RLP encoding of
the empty string (`0x80`), as its 32 literal bytes. -/
def emptyRootHash : List Nat :=
  [0x56, 0xe8, 0x1f, 0x17, 0x1b, 0xcc, 0x55, 0xa6, 0xff, 0x83, 0x45, 0xe6,
   0x92, 0xc0, 0xf8, 0x6e, 0x5b, 0x48, 0xe0, 0x1b, 0x99, 0x6c, 0xad, 0xc0,
   0x01, 0x62, 0x2f, 0xb5, 0xe3, 0x63, 0xb4, 0x21]

/-- A `TrieProvider`: `trie_node_by_hash` fetches the preimage of a blinded
commitment.  Errors are strings, mapped to `TrieErr.provider` by callers. -/
def Fetcher : Type := List Nat → Except String TrieNode

/-- `TrieNode::unblind` (`crates/mpt/src/node.rs`): replaces a blinded node
with its fetched preimage; a blinded `EMPTY_ROOT_HASH` becomes `Empty`
without consulting the provider.  Non-blinded nodes are unchanged. -/
def unblind (fetcher : Fetcher) : TrieNode → Except TrieErr TrieNode
  | .blinded c =>
      if c = emptyRootHash then .ok .empty
      else
        match fetcher c with
        | .ok n => .ok n
        | .error e => .error (.provider e)
  | t => .ok t

/-- `Nibbles::common_prefix_length`. -/
def commonPfxLen : List Nat → List Nat → Nat
  | a :: as', b :: bs => if a = b then commonPfxLen as' bs + 1 else 0
  | _, _ => 0

/-- A stack of 17 `Empty` nodes: `vec![TrieNodeData::Empty.into(); 17]`. -/
def emptyStack : List TrieNode := List.replicate 17 .empty

/-- `TrieNode::open` (`crates/mpt/src/node.rs`): walks down the trie to the
leaf value at `path`.  A missing branch slot yields `Ok(None)`
(`unwrap_or(Ok(None))` in the source); `path[0]` on an empty path and
`path.slice(..n)` with `n > path.len()` are Rust panics.  The extension case
recurses directly into the child; the source first calls `node.unblind` and
then `node.open`, which performs the same provider calls because `open` on a
blinded node unblinds it. -/
def openNode (fetcher : Fetcher) : Nat → TrieNode → List Nat →
    Except TrieErr (Option (List Nat))
  | fuel, .branch stack, path =>
      match path with
      | [] => .error .panic
      | n :: rest =>
          match h : stack[n]? with
          | none => .ok none
          | some child => openNode fetcher fuel child rest
  | _, .leaf pfx value, path =>
      .ok (if path = pfx then some value else none)
  | fuel, .ext pfx node, path =>
      if pfx.length ≤ path.length then
        if path.take pfx.length = pfx then
          openNode fetcher fuel node (path.drop pfx.length)
        else .ok none
      else .error .panic
  | fuel, .blinded c, path =>
      match fuel with
      | 0 => .error .outOfFuel
      | fuel + 1 => do
          let n ← unblind fetcher (.blinded c)
          openNode fetcher fuel n path
  | _, .empty, _ => .ok none
termination_by fuel t _ => (fuel, sizeOf t)
decreasing_by
  · right
    have h := List.sizeOf_lt_of_mem (List.getElem?_mem (by assumption))
    simp only [TrieNode.branch.sizeOf_spec]
    omega
  · right
    simp only [TrieNode.ext.sizeOf_spec]
    omega
  · left
    omega

/-- `TrieNode::insert` (`crates/mpt/src/node.rs`): inserts `value` at `path`,
splitting leaves and extensions into branches as needed.  Out-of-range
indexing (`prefix[shared]`, `path[shared]`, `stack[nibble]`, `path[0]`) is a
Rust panic.  In the extension split, a residual child with an empty residual
path is inlined into the branch verbatim instead of being wrapped in a
zero-length extension. -/
def insertNode (fetcher : Fetcher) : Nat → TrieNode → List Nat → List Nat →
    Except TrieErr TrieNode
  | _, .empty, path, value => .ok (.leaf path value)
  | _, .leaf pfx leafValue, path, value =>
      if path = pfx then .ok (.leaf pfx value)
      else
        let shared := commonPfxLen path pfx
        match pfx[shared]?, path[shared]? with
        | some en, some bn =>
            if en < 17 ∧ bn < 17 then
              let stack :=
                (emptyStack.set en (.leaf (pfx.drop (shared + 1)) leafValue)).set bn
                  (.leaf (path.drop (shared + 1)) value)
              if shared = 0 then .ok (.branch stack)
              else .ok (.ext (path.take shared) (.branch stack))
            else .error .panic
        | _, _ => .error .panic
  | fuel, .ext pfx node, path, value =>
      let shared := commonPfxLen path pfx
      if shared = pfx.length then
        (insertNode fetcher fuel node (path.drop shared) value).map
          (fun n => .ext pfx n)
      else
        match pfx[shared]?, path[shared]? with
        | some en, some bn =>
            if en < 17 ∧ bn < 17 then
              let newPfx := pfx.drop (shared + 1)
              let childEntry := if newPfx.isEmpty then node else .ext newPfx node
              let stack := (emptyStack.set en childEntry).set bn
                  (.leaf (path.drop (shared + 1)) value)
              if shared = 0 then .ok (.branch stack)
              else .ok (.ext (path.take shared) (.branch stack))
            else .error .panic
        | _, _ => .error .panic
  | fuel, .branch stack, path, value =>
      match path with
      | [] => .error .panic
      | n :: rest =>
          match h : stack[n]? with
          | none => .error .panic
          | some child =>
              (insertNode fetcher fuel child rest value).map
                (fun c => .branch (stack.set n c))
  | fuel, .blinded c, path, value =>
      match fuel with
      | 0 => .error .outOfFuel
      | fuel + 1 => do
          let n ← unblind fetcher (.blinded c)
          insertNode fetcher fuel n path value
termination_by fuel t _ _ => (fuel, sizeOf t)
decreasing_by
  · right
    simp only [TrieNode.ext.sizeOf_spec]
    omega
  · right
    have h2 := List.sizeOf_lt_of_mem (List.getElem?_mem h)
    simp only [TrieNode.branch.sizeOf_spec]
    omega
  · left
    omega

/-- The non-empty slots of a branch stack together with their indices:
`stack.iter_mut().enumerate().filter(|(_, node)| !matches!(..Empty))`. -/
def nonEmptyIdx (stack : List TrieNode) : List (Nat × TrieNode) :=
  stack.enum.filter (fun p => !p.2.isEmptyN)

/-- `TrieNode::collapse_if_possible` (`crates/mpt/src/node.rs`): folds an
extension over an extension / leaf / empty node, and a branch with exactly
one non-empty slot into an extension or leaf.  When the single remaining
child is blinded, the engine emits a hint for its commitment (collected in
the returned list) and unblinds it through the provider before collapsing
again.  On an error the collected hints are discarded (the caller aborts).
The hinter itself is `NoopTrieHinter` or `TrieDBHintWriter`, both of which
always succeed. -/
def collapseIfPossible (fetcher : Fetcher) : Nat → TrieNode →
    Except TrieErr (TrieNode × List (List Nat))
  | fuel, .ext pfx node =>
      match node with
      | .ext cpfx cnode => .ok (.ext (pfx ++ cpfx) cnode, [])
      | .leaf cpfx cvalue => .ok (.leaf (pfx ++ cpfx) cvalue, [])
      | .empty => .ok (.empty, [])
      | n => .ok (.ext pfx n, [])
  | fuel, .branch stack =>
      match nonEmptyIdx stack with
      | [(i, c)] =>
          match c with
          | .leaf cpfx cvalue => .ok (.leaf (i :: cpfx) cvalue, [])
          | .ext cpfx cnode => .ok (.ext (i :: cpfx) cnode, [])
          | .branch bs => .ok (.ext [i] (.branch bs), [])
          | .blinded cm =>
              match fuel with
              | 0 => .error .outOfFuel
              | fuel + 1 => do
                  let n ← unblind fetcher (.blinded cm)
                  let (r, hs) ← collapseIfPossible fetcher fuel (.branch (stack.set i n))
                  .ok (r, cm :: hs)
          | .empty => .ok (.branch stack, [])
      | _ => .ok (.branch stack, [])
  | _, t => .ok (t, [])
termination_by fuel t => (fuel, sizeOf t)
decreasing_by
  left
  omega

/-- `TrieNode::delete` (`crates/mpt/src/node.rs`): removes the leaf at
`path`, collapsing the containing extension or branch afterwards.  Returns
the new node together with the hints emitted during collapsing. -/
def deleteNode (fetcher : Fetcher) : Nat → TrieNode → List Nat →
    Except TrieErr (TrieNode × List (List Nat))
  | _, .empty, _ => .error .keyNotFound
  | _, .leaf pfx _, path =>
      if path = pfx then .ok (.empty, []) else .error .keyNotFound
  | fuel, .ext pfx node, path =>
      let shared := commonPfxLen path pfx
      if shared < pfx.length then .error .keyNotFound
      else if shared = path.length then .ok (.empty, [])
      else do
        let (n, h1) ← deleteNode fetcher fuel node (path.drop pfx.length)
        let (r, h2) ← collapseIfPossible fetcher fuel (.ext pfx n)
        .ok (r, h1 ++ h2)
  | fuel, .branch stack, path =>
      match path with
      | [] => .error .panic
      | n :: rest =>
          match h : stack[n]? with
          | none => .error .panic
          | some child => do
              let (c, h1) ← deleteNode fetcher fuel child rest
              let (r, h2) ← collapseIfPossible fetcher fuel (.branch (stack.set n c))
              .ok (r, h1 ++ h2)
  | fuel, .blinded c, path =>
      match fuel with
      | 0 => .error .outOfFuel
      | fuel + 1 => do
          let n ← unblind fetcher (.blinded c)
          deleteNode fetcher fuel n path
termination_by fuel t _ => (fuel, sizeOf t)
decreasing_by
  · right
    simp only [TrieNode.ext.sizeOf_spec]
    omega
  · right
    have h2 := List.sizeOf_lt_of_mem (List.getElem?_mem h)
    simp only [TrieNode.branch.sizeOf_spec]
    omega
  · left
    omega

/-- `NoopTrieProvider` (`crates/mpt`): every fetch fails.  Used by the
repository's own insert/delete tests. -/
def noopFetcher : Fetcher := fun _ => .error "noop"

/-- Well-formed tries of uniform key length `L`: every leaf is reached by
exactly `L` nibbles, every nibble is in range, extensions have non-empty
prefixes that fit in the remaining length, branch stacks have 17 slots whose
17th (value) slot is empty.  This is the shape produced by the engine on
uniform-length keys (see the SAFETY note on `TrieNode` in
`crates/mpt/src/node.rs`). -/
inductive Wf : Nat → TrieNode → Prop
  | empty {L} : Wf L .empty
  | blinded {L c} : c.length = 32 → Wf L (.blinded c)
  | leaf {L p v} : p.length = L → (∀ x ∈ p, x < 16) → Wf L (.leaf p v)
  | ext {L p c} : p ≠ [] → p.length ≤ L → (∀ x ∈ p, x < 16) →
      Wf (L - p.length) c → Wf L (.ext p c)
  | branch {L stack} : stack.length = 17 → 1 ≤ L →
      (∀ c ∈ stack, Wf (L - 1) c) → stack[16]? = some .empty →
      Wf L (.branch stack)

/-- Tries with no blinded node anywhere (fully revealed tries). -/
inductive NB : TrieNode → Prop
  | empty : NB .empty
  | leaf {p v} : NB (.leaf p v)
  | ext {p c} : NB c → NB (.ext p c)
  | branch {stack} : (∀ c ∈ stack, NB c) → NB (.branch stack)

/-- No branch node anywhere in the trie has exactly one non-empty slot. -/
inductive NoSingle : TrieNode → Prop
  | empty : NoSingle .empty
  | blinded {c} : NoSingle (.blinded c)
  | leaf {p v} : NoSingle (.leaf p v)
  | ext {p c} : NoSingle c → NoSingle (.ext p c)
  | branch {stack} : (∀ c ∈ stack, NoSingle c) →
      (nonEmptyIdx stack).length ≠ 1 → NoSingle (.branch stack)

/-- The components one level below the root satisfy `NoSingle` (used to
state what `collapse_if_possible` needs of a node whose own slot count may
be temporarily broken by a deletion). -/
def ChildrenNS : TrieNode → Prop
  | .ext _ c => NoSingle c
  | .branch stack => ∀ c ∈ stack, NoSingle c
  | _ => True

/-- A provider that reveals every commitment as an `Empty` node (used to
exercise the branch-collapse hint path on a concrete input). -/
def okEmptyFetcher : Fetcher := fun _ => .ok .empty

/-- RLP decode errors: the `alloy_rlp::Error` variants produced on the
decode paths of `TrieNode`, together with `TrieNodeError::InvalidNodeType`
from `try_decode_leaf_or_extension_payload` and a `panic` outcome modelling
the Rust panic on `path[0]` when the decoded path is empty. -/
inductive RlpErr where
  | inputTooShort : RlpErr
  | nonCanonicalSingleByte : RlpErr
  | nonCanonicalSize : RlpErr
  | leadingZero : RlpErr
  | unexpectedString : RlpErr
  | unexpectedList : RlpErr
  | unexpectedLength : RlpErr
  | invalidNodeType : RlpErr
  | panic : RlpErr
deriving Repr, DecidableEq

/-- An RLP item header: list flag and payload length (`alloy_rlp::Header`). -/
structure RlpHeader where
  isList : Bool
  payloadLength : Nat
deriving Repr, DecidableEq

/-- Big-endian value of a byte string (`u64::from_be_bytes` style fold). -/
def bytesToNat (bs : List Nat) : Nat := bs.foldl (fun acc b => acc * 256 + b) 0

/-- `alloy_rlp::Header::decode`, on a peeked buffer.  Returns the header and
the number of bytes it occupies (0 for a single sub-`0x80` byte, whose
payload is the byte itself).  Checks the canonicity rules of `alloy_rlp`:
a 1-byte string must not encode a sub-`0x80` byte, a long length must not
have leading zeros and must be at least 56, and the remaining buffer must
hold the payload. -/
def headerDecode (buf : List Nat) : Except RlpErr (RlpHeader × Nat) :=
  match buf with
  | [] => .error .inputTooShort
  | b :: rest =>
      if b ≤ 0x7f then .ok (⟨false, 1⟩, 0)
      else if b ≤ 0xb7 then
        let pl := b - 0x80
        if pl = 1 then
          match rest with
          | [] => .error .inputTooShort
          | b2 :: _ =>
              if b2 < 0x80 then .error .nonCanonicalSingleByte
              else if rest.length < pl then .error .inputTooShort
              else .ok (⟨false, pl⟩, 1)
        else
          if rest.length < pl then .error .inputTooShort
          else .ok (⟨false, pl⟩, 1)
      else if b ≤ 0xbf then
        let lenOfLen := b - 0xb7
        if rest.length < lenOfLen then .error .inputTooShort
        else if (rest.take lenOfLen).headD 0 = 0 then .error .leadingZero
        else
          let pl := bytesToNat (rest.take lenOfLen)
          if pl < 56 then .error .nonCanonicalSize
          else if (rest.drop lenOfLen).length < pl then .error .inputTooShort
          else .ok (⟨false, pl⟩, 1 + lenOfLen)
      else if b ≤ 0xf7 then
        let pl := b - 0xc0
        if rest.length < pl then .error .inputTooShort
        else .ok (⟨true, pl⟩, 1)
      else
        let lenOfLen := b - 0xf7
        if rest.length < lenOfLen then .error .inputTooShort
        else if (rest.take lenOfLen).headD 0 = 0 then .error .leadingZero
        else
          let pl := bytesToNat (rest.take lenOfLen)
          if pl < 56 then .error .nonCanonicalSize
          else if (rest.drop lenOfLen).length < pl then .error .inputTooShort
          else .ok (⟨true, pl⟩, 1 + lenOfLen)

/-- `alloy_rlp` `Bytes::decode`: a string item; returns the payload bytes
and the remaining buffer. -/
def bytesDecode (buf : List Nat) : Except RlpErr (List Nat × List Nat) := do
  let (h, hlen) ← headerDecode buf
  if h.isList then .error .unexpectedList
  else
    let after := buf.drop hlen
    .ok (after.take h.payloadLength, after.drop (h.payloadLength))

/-- `alloy_rlp` `B256::decode`: a string item of exactly 32 bytes. -/
def b256Decode (buf : List Nat) : Except RlpErr (List Nat × List Nat) := do
  let (h, hlen) ← headerDecode buf
  if h.isList then .error .unexpectedList
  else if h.payloadLength ≠ 32 then .error .unexpectedLength
  else
    let after := buf.drop hlen
    .ok (after.take 32, after.drop 32)

/-- Modelled from the spec: the item-skipping loop of
`rlp_list_element_length` in `crates/mpt/src/util.rs`, which is not among
the sources -- each iteration decodes one item header and skips its
payload, counting items until the list payload is consumed.  `fuel` is the
initial buffer length; every iteration consumes at least one byte. -/
def countElems : Nat → List Nat → Nat → Except RlpErr Nat
  | 0, _, _ => .error .inputTooShort
  | fuel + 1, buf, target =>
      if buf.length ≤ target then .ok 0
      else do
        let (h, hlen) ← headerDecode buf
        let n ← countElems fuel (buf.drop (hlen + h.payloadLength)) target
        .ok (n + 1)

/-- Modelled from the spec: `rlp_list_element_length`
(`crates/mpt/src/util.rs`, not among the sources): peeks the list header
and counts the number of top-level items in the list payload. -/
def rlpListElementLength (buf : List Nat) : Except RlpErr Nat := do
  let (h, hlen) ← headerDecode buf
  if h.isList then
    countElems buf.length (buf.drop hlen)
      ((buf.drop hlen).length - h.payloadLength)
  else .error .unexpectedString

/-- Unpacks packed path bytes into nibbles (high nibble first). -/
def unpackNibbles : List Nat → List Nat
  | [] => []
  | b :: rest => b / 16 :: b % 16 :: unpackNibbles rest

/-- Modelled from the spec: `unpack_path_to_nibbles`
(`crates/mpt/src/util.rs`, not among the sources): an optional leading
nibble (present for odd-length paths) followed by the unpacked pairs. -/
def unpackPathToNibbles (first : Option Nat) (packed : List Nat) : List Nat :=
  (match first with
   | some f => [f]
   | none => []) ++ unpackNibbles packed

mutual

/-- `TrieNode::try_decode_leaf_or_extension_payload`
(`crates/mpt/src/node.rs`): decodes the path item, dispatches on the high
nibble of its first byte (0/1 extension, 2/3 leaf; 1/3 odd keep the low
nibble; anything else `InvalidNodeType`), then decodes the child node
(extension) or the value item (leaf).  `path[0]` on an empty decoded path
is a Rust panic. -/
def decodeLeafExt : Nat → List Nat → Except RlpErr (TrieNode × List Nat)
  | fuel, buf =>
    match bytesDecode buf with
    | .error e => .error e
    | .ok (path, buf1) =>
        match path with
        | [] => .error .panic
        | p0 :: ptail =>
            let firstNibble := p0 / 16
            if firstNibble = 1 ∨ firstNibble = 3 then
              if firstNibble = 1 then
                match decodeTrieNode fuel buf1 with
                | .error e => .error e
                | .ok (child, buf2) =>
                    .ok (.ext (unpackPathToNibbles (some (p0 % 16)) ptail)
                      child, buf2)
              else
                match bytesDecode buf1 with
                | .error e => .error e
                | .ok (value, buf2) =>
                    .ok (.leaf (unpackPathToNibbles (some (p0 % 16)) ptail)
                      value, buf2)
            else if firstNibble = 0 ∨ firstNibble = 2 then
              if firstNibble = 0 then
                match decodeTrieNode fuel buf1 with
                | .error e => .error e
                | .ok (child, buf2) =>
                    .ok (.ext (unpackPathToNibbles none ptail) child, buf2)
              else
                match bytesDecode buf1 with
                | .error e => .error e
                | .ok (value, buf2) =>
                    .ok (.leaf (unpackPathToNibbles none ptail) value, buf2)
            else .error .invalidNodeType
termination_by fuel _ => (fuel, 1)
decreasing_by
  all_goals first
    | (apply Prod.Lex.right; omega)
    | (apply Prod.Lex.left; omega)

/-- `impl Decodable for TrieNode` (`crates/mpt/src/node.rs`): peeks the
header; a list of 17 items decodes as a branch (`Vec::<TrieNode>::decode`),
a list of 2 items as a leaf or extension (any error of the payload decoder
is mapped to `UnexpectedList`, while a panic propagates), any other list
length is `UnexpectedLength`; a string of payload length 0 decodes as
`Empty`, of payload length 32 as `Blinded`, anything else is
`UnexpectedLength`.  `fuel` only bounds the recursion depth; it decreases
on every nested item. -/
def decodeTrieNode : Nat → List Nat → Except RlpErr (TrieNode × List Nat)
  | 0, _ => .error .inputTooShort
  | fuel + 1, buf =>
    match headerDecode buf with
    | .error e => .error e
    | .ok (h, hlen) =>
        if h.isList then
          match rlpListElementLength buf with
          | .error e => .error e
          | .ok count =>
              if count = 17 then
                match decodeVec fuel buf with
                | .error e => .error e
                | .ok (nodes, buf2) => .ok (.branch nodes, buf2)
              else if count = 2 then
                match decodeLeafExt fuel (buf.drop hlen) with
                | .ok r => .ok r
                | .error .panic => .error .panic
                | .error _ => .error .unexpectedList
              else .error .unexpectedLength
        else
          if h.payloadLength = 0 then .ok (.empty, buf.drop hlen)
          else if h.payloadLength = 32 then
            match b256Decode buf with
            | .error e => .error e
            | .ok (c, buf2) => .ok (.blinded c, buf2)
          else .error .unexpectedLength
termination_by fuel _ => (fuel, 0)
decreasing_by
  all_goals first
    | (apply Prod.Lex.right; omega)
    | (apply Prod.Lex.left; omega)

/-- `alloy_rlp` `Vec::<TrieNode>::decode`: decodes the list header and then
decodes `TrieNode`s from the payload slice until it is exhausted. -/
def decodeVec : Nat → List Nat → Except RlpErr (List TrieNode × List Nat)
  | fuel, buf =>
    match headerDecode buf with
    | .error e => .error e
    | .ok (h, hlen) =>
        if h.isList then
          match decodeItems fuel ((buf.drop hlen).take h.payloadLength) with
          | .error e => .error e
          | .ok nodes => .ok (nodes, (buf.drop hlen).drop h.payloadLength)
        else .error .unexpectedString
termination_by fuel _ => (fuel, 1)
decreasing_by
  all_goals first
    | (apply Prod.Lex.right; omega)
    | (apply Prod.Lex.left; omega)

/-- The item loop of `Vec::<TrieNode>::decode`. -/
def decodeItems : Nat → List Nat → Except RlpErr (List TrieNode)
  | _, [] => .ok []
  | 0, _ :: _ => .error .inputTooShort
  | fuel + 1, b :: bs =>
      match decodeTrieNode fuel (b :: bs) with
      | .error e => .error e
      | .ok (n, buf2) =>
          match decodeItems fuel buf2 with
          | .error e => .error e
          | .ok rest => .ok (n :: rest)
termination_by fuel _ => (fuel, 0)
decreasing_by
  all_goals first
    | (apply Prod.Lex.right; omega)
    | (apply Prod.Lex.left; omega)

end

/-- `TrieNode::decode` at the top level. -/
def decodeTN (buf : List Nat) : Except RlpErr (TrieNode × List Nat) :=
  decodeTrieNode (buf.length + 1) buf

/-! ### Reference hash-builder and `blind` (C1) -/

/-- Modelled from the spec: strict lexicographic order on nibble keys, the
order in which the reference hash-builder receives its key-value set. -/
def lexLt : List Nat → List Nat → Bool
  | [], [] => false
  | [], _ :: _ => true
  | _ :: _, [] => false
  | a :: as', b :: bs => if a < b then true else if b < a then false else lexLt as' bs

/-- Modelled from the spec: insertion into the sorted key-value list fed to
the reference hash-builder; an existing key has its value replaced. -/
def insertSorted : List (List Nat × List Nat) → List Nat → List Nat →
    List (List Nat × List Nat)
  | [], p, v => [(p, v)]
  | (k, w) :: rest, p, v =>
      if p = k then (p, v) :: rest
      else if lexLt p k then (p, v) :: (k, w) :: rest
      else (k, w) :: insertSorted rest p v

/-- Modelled from the spec: removal of a key from the key-value list. -/
def removeKey (S : List (List Nat × List Nat)) (p : List Nat) :
    List (List Nat × List Nat) :=
  S.filter (fun e => decide (e.1 ≠ p))

/-- The longest common prefix of a list of keys. -/
def lcpList : List (List Nat) → List Nat
  | [] => []
  | [k] => k
  | k :: k2 :: ks => k.take (commonPfxLen k (lcpList (k2 :: ks)))

/-- The entries whose key starts with nibble `i`, with that nibble
stripped. -/
def group (S : List (List Nat × List Nat)) (i : Nat) :
    List (List Nat × List Nat) :=
  (S.filter (fun e => decide (e.1.headD 17 = i))).map (fun e => (e.1.tail, e.2))

/-- Strips `j` leading nibbles from every key. -/
def stripKeys (j : Nat) (S : List (List Nat × List Nat)) :
    List (List Nat × List Nat) :=
  S.map (fun e => (e.1.drop j, e.2))

mutual
/-- Modelled from the spec: the canonical Merkle-Patricia trie of a
key-value set with uniform key length -- the reference hash-builder hashes
exactly this shape.  An empty set is the empty node, a singleton a leaf,
and a larger set a 17-slot branch over the head nibbles below the longest
shared key prefix, wrapped in an extension when that prefix is
non-empty.  The first argument is one less than the key length in the
branch case. -/
def canon : Nat → List (List Nat × List Nat) → TrieNode
  | _, [] => .empty
  | _, [e] => .leaf e.1 e.2
  | 0, _ :: _ :: _ => .empty
  | m + 1, e1 :: e2 :: es =>
      if lcpList ((e1 :: e2 :: es).map Prod.fst) = [] then
        canonB m (e1 :: e2 :: es)
      else
        .ext (lcpList ((e1 :: e2 :: es).map Prod.fst))
          (canonB (m - (lcpList ((e1 :: e2 :: es).map Prod.fst)).length)
            (stripKeys (lcpList ((e1 :: e2 :: es).map Prod.fst)).length
              (e1 :: e2 :: es)))
termination_by m _ => (m, 0)

/-- The canonical 17-slot branch over head nibbles; `mc` is the key length
of the children. -/
def canonB (mc : Nat) (S : List (List Nat × List Nat)) : TrieNode :=
  .branch ((List.range 17).map (fun i => canon mc (group S i)))
termination_by (mc, 1)
end

/-- Modelled from the spec: the big-endian bytes of a payload length with
no leading zeros, as `alloy_rlp` writes length-of-length headers. -/
def beBytes : Nat → List Nat
  | 0 => []
  | n + 1 => beBytes ((n + 1) / 256) ++ [(n + 1) % 256]
termination_by n => n
decreasing_by omega

/-- Modelled from the spec: `alloy_rlp::length_of_length`, the size of the
header in front of a payload of the given length. -/
def lengthOfLength (pl : Nat) : Nat :=
  if pl < 56 then 1 else 1 + (beBytes pl).length

/-- Modelled from the spec: `alloy_rlp::Header::encode`. -/
def headerEnc (isList : Bool) (pl : Nat) : List Nat :=
  if pl < 56 then [(if isList then 0xc0 else 0x80) + pl]
  else ((if isList then 0xf7 else 0xb7) + (beBytes pl).length) :: beBytes pl

/-- Modelled from the spec: the RLP encoding of a byte string; a single
byte below `0x80` is its own encoding. -/
def rlpStr (s : List Nat) : List Nat :=
  if s.length = 1 ∧ s.headD 0 < 0x80 then s else headerEnc false s.length ++ s

/-- Modelled from the spec: the encoded length of an RLP byte string
(`Encodable::length` for byte slices). -/
def rlpStrLen (s : List Nat) : Nat :=
  if s.length = 1 ∧ s.headD 0 < 0x80 then 1
  else lengthOfLength s.length + s.length

/-- Packs nibble pairs into bytes (the tail of `encode_path_leaf`). -/
def packPairs : List Nat → List Nat
  | a :: b :: rest => (a * 16 + b) :: packPairs rest
  | _ => []

/-- Modelled from the spec: `Nibbles::encode_path_leaf`, the compact path
encoding with the leaf flag and the odd first nibble folded into the first
byte. -/
def encodePathLeaf (isLeaf : Bool) (p : List Nat) : List Nat :=
  if p.length % 2 = 1 then
    ((if isLeaf then 0x20 else 0) + 0x10 + p.headD 0) :: packPairs p.tail
  else (if isLeaf then 0x20 else 0) :: packPairs p

/-- The `encoded_key_len` computation of `TrieNode::payload_length`
(`crates/mpt/src/node.rs`). -/
def keyEncLen (p : List Nat) : Nat :=
  if p.length / 2 + 1 ≠ 1 then
    p.length / 2 + 1 + lengthOfLength (p.length / 2 + 1)
  else p.length / 2 + 1

mutual
/-- `TrieNode::payload_length` (`crates/mpt/src/node.rs`). -/
def payloadLength : TrieNode → Nat
  | .empty => 0
  | .blinded c => c.length
  | .leaf p v => keyEncLen p + rlpStrLen v
  | .ext p n => keyEncLen p + blindedLength n
  | .branch stack => (stack.attach.map (fun c => blindedLength c.1)).sum
termination_by t => (sizeOf t, 0)
decreasing_by
  all_goals first
    | (apply Prod.Lex.right; omega)
    | (apply Prod.Lex.left
       simp only [TrieNode.ext.sizeOf_spec]
       omega)
    | (apply Prod.Lex.left
       have h2 := List.sizeOf_lt_of_mem c.2
       simp only [TrieNode.branch.sizeOf_spec]
       omega)

/-- The `Encodable::length` implementation for `TrieNode`
(`crates/mpt/src/node.rs`). -/
def encLength : TrieNode → Nat
  | .empty => 1
  | .blinded c => rlpStrLen c
  | .leaf p v => lengthOfLength (payloadLength (.leaf p v)) +
      payloadLength (.leaf p v)
  | .ext p n => lengthOfLength (payloadLength (.ext p n)) +
      payloadLength (.ext p n)
  | .branch stack => lengthOfLength (payloadLength (.branch stack)) +
      payloadLength (.branch stack)
termination_by t => (sizeOf t, 1)
decreasing_by
  all_goals first
    | (apply Prod.Lex.right; omega)
    | (apply Prod.Lex.left
       simp only [TrieNode.ext.sizeOf_spec]
       omega)
    | (apply Prod.Lex.left
       have h2 := List.sizeOf_lt_of_mem c.2
       simp only [TrieNode.branch.sizeOf_spec]
       omega)

/-- `TrieNode::blinded_length` (`crates/mpt/src/node.rs`): the encoded
length of a child after blinding -- `33` when the raw encoding reaches 32
bytes and the node is not already blinded. -/
def blindedLength (t : TrieNode) : Nat :=
  if 32 ≤ encLength t ∧ ¬ t.isBlindedN = true then 33 else encLength t
termination_by (sizeOf t, 2)
decreasing_by
  all_goals first
    | (apply Prod.Lex.right; omega)
    | (apply Prod.Lex.left
       simp only [TrieNode.ext.sizeOf_spec]
       omega)
    | (apply Prod.Lex.left
       have h2 := List.sizeOf_lt_of_mem c.2
       simp only [TrieNode.branch.sizeOf_spec]
       omega)
end

section Keccak

variable (keccak : List Nat → List Nat)

mutual
/-- `TrieNode::encode_in_place` (`crates/mpt/src/node.rs`) with the
`keccak256` hash as a parameter: children of extensions and branches are
blinded as they are encoded. -/
def encodeIP : TrieNode → List Nat
  | .empty => [0x80]
  | .blinded c => rlpStr c
  | .leaf p v =>
      headerEnc true (payloadLength (.leaf p v)) ++
        rlpStr (encodePathLeaf true p) ++ rlpStr v
  | .ext p n =>
      headerEnc true (payloadLength (.ext p n)) ++
        rlpStr (encodePathLeaf false p) ++ encBlinded n
  | .branch stack =>
      headerEnc true (payloadLength (.branch stack)) ++
        (stack.attach.map (fun c => encBlinded c.1)).join
termination_by t => (sizeOf t, 0)
decreasing_by
  all_goals first
    | (apply Prod.Lex.right; omega)
    | (apply Prod.Lex.left
       simp only [TrieNode.ext.sizeOf_spec]
       omega)
    | (apply Prod.Lex.left
       have h2 := List.sizeOf_lt_of_mem c.2
       simp only [TrieNode.branch.sizeOf_spec]
       omega)

/-- The encoding a child contributes after `node.blind()`: the RLP string
of its keccak commitment when its raw encoding reaches 32 bytes and it is
not already blinded, its raw encoding otherwise. -/
def encBlinded (t : TrieNode) : List Nat :=
  if 32 ≤ encLength t ∧ ¬ t.isBlindedN = true then
    rlpStr (keccak (encodeIP t))
  else encodeIP t
termination_by (sizeOf t, 1)
decreasing_by
  all_goals first
    | (apply Prod.Lex.right; omega)
    | (apply Prod.Lex.left
       simp only [TrieNode.ext.sizeOf_spec]
       omega)
    | (apply Prod.Lex.left
       have h2 := List.sizeOf_lt_of_mem c.2
       simp only [TrieNode.branch.sizeOf_spec]
       omega)
end

/-- `TrieNode::blind` (`crates/mpt/src/node.rs`): replaces the node by the
keccak commitment of its encoding only when that encoding is at least 32
bytes long and the node is not already blinded. -/
def blindNode (t : TrieNode) : TrieNode :=
  if 32 ≤ encLength t ∧ ¬ t.isBlindedN = true then
    .blinded (keccak (encodeIP keccak t))
  else t

/-- Modelled from the spec: the root a reference Merkle-Patricia
hash-builder computes for a key-value set of uniform key length `L`: the
empty-trie hash for an empty set, otherwise the keccak hash of the RLP
encoding of the canonical trie of the set. -/
def refRoot (L : Nat) (kvs : List (List Nat × List Nat)) : List Nat :=
  if kvs = [] then emptyRootHash
  else keccak (encodeIP keccak (canon L kvs))

end Keccak

/-- `TrieNode::blinded_commitment` (`crates/mpt/src/node.rs`). -/
def blindedCommitment : TrieNode → Option (List Nat)
  | .blinded c => some c
  | .empty => some emptyRootHash
  | _ => none

/-- Folding `TrieNode::insert` over a list of key-value insertions. -/
def runInserts (fetcher : Fetcher) (fuel : Nat) :
    TrieNode → List (List Nat × List Nat) → Except TrieErr TrieNode
  | t, [] => .ok t
  | t, (p, v) :: rest => do
      let u ← insertNode fetcher fuel t p v
      runInserts fetcher fuel u rest

/-- Folding `TrieNode::delete` over a list of deleted keys (the emitted
hints are discarded, as by the zkvm client hinter). -/
def runDeletes (fetcher : Fetcher) (fuel : Nat) :
    TrieNode → List (List Nat) → Except TrieErr TrieNode
  | t, [] => .ok t
  | t, p :: rest => do
      let u ← deleteNode fetcher fuel t p
      runDeletes fetcher fuel u.1 rest

/-- The sorted key-value list after the insertions. -/
def insMap (ins : List (List Nat × List Nat)) :
    List (List Nat × List Nat) :=
  ins.foldl (fun s e => insertSorted s e.1 e.2) []

/-- The surviving sorted key-value set after the insertions and the
deletions. -/
def survivors (ins : List (List Nat × List Nat)) (dels : List (List Nat)) :
    List (List Nat × List Nat) :=
  dels.foldl removeKey (insMap ins)

/-- Keys of uniform length `m` with all nibbles in range. -/
def UKeys (m : Nat) (S : List (List Nat × List Nat)) : Prop :=
  ∀ e ∈ S, e.1.length = m ∧ ∀ x ∈ e.1, x < 16

/-- Keys in strictly increasing lexicographic order. -/
def SKeys (S : List (List Nat × List Nat)) : Prop :=
  List.Pairwise (fun a b => lexLt a b = true) (S.map Prod.fst)

/-- A concrete stand-in hash used by counterexamples and witnesses. -/
def keccakZero : List Nat → List Nat := fun _ => List.replicate 32 0


end KonaMpt

namespace KonaOracle

/-- The six preimage key types, from the spec §3 table (the defining
`crates/preimage/src/key.rs` is not among the sources; tags 1..6 are Local,
Keccak256, GlobalGeneric, Sha256, Blob, Precompile). -/
inductive PreimageKeyType where
  | localType : PreimageKeyType
  | keccak256 : PreimageKeyType
  | globalGeneric : PreimageKeyType
  | sha256 : PreimageKeyType
  | blob : PreimageKeyType
  | precompile : PreimageKeyType
deriving Repr, DecidableEq

/-- Modelled from the spec: a 32-byte preimage key `[type_tag:1 |
commitment:31]` (§6); `PreimageKey::new` replaces the top byte of a 32-byte
value with the type tag, so a key is a type together with its remaining 31
bytes.  `crates/preimage/src/key.rs` is not among the sources. -/
structure PreimageKey where
  keyType : PreimageKeyType
  payload : List Nat
deriving Repr, DecidableEq

/-- `PreimageKey::new(value, key_type)`: the value's top byte is discarded
and replaced by the type tag. -/
def PreimageKey.new (value : List Nat) (t : PreimageKeyType) : PreimageKey :=
  ⟨t, value.drop 1⟩

/-- `HashMap::get` over the oracle's key-value table, modelled as an
association list. -/
def lookupKey (table : List (PreimageKey × List Nat)) (k : PreimageKey) :
    Option (List Nat) :=
  (table.find? (fun e => decide (e.1 = k))).map (fun e => e.2)

/-- The outcome of a verification step: a clean `Ok(())`, or a Rust panic
(`assert_eq!`, `unimplemented!`, `todo!`, a failed `unwrap`), which aborts
the zkVM program rather than returning an error. -/
inductive VerifyOutcome where
  | ok : VerifyOutcome
  | panic (msg : String) : VerifyOutcome
deriving Repr, DecidableEq

/-- `Precompile::from_bytes` followed by `execute`
(`bin/programs/zkvm-client/src/precompile.rs`).  `split_at(20)` panics when
the hint data is shorter than 20 bytes.  Otherwise
`u128::from_be_bytes(addr.try_into().unwrap())` panics unconditionally: the
20-byte address slice can never convert into a `[u8; 16]` array.  (Even if
it could, `execute` is `unimplemented!()`.)  So the combination always
panics. -/
def precompileRun (hintData : List Nat) : VerifyOutcome :=
  if hintData.length < 20 then .panic "split_at out of bounds"
  else .panic "u128::from_be_bytes try_into unwrap"

/-- Verification of a single oracle entry, from the `match key.key_type()`
arms of `InMemoryOracle::verify` (`bin/programs/zkvm-client/src/oracle.rs`).
In the `Precompile` arm with a missing companion Keccak entry the source
evaluates `anyhow!("precompile hint data not found")`, which only
constructs an error value and immediately discards it - there is no
`return`, so verification continues as if the entry were fine; the model
reproduces that by yielding `ok`. -/
def verifyEntry (keccak sha : List Nat → List Nat)
    (table : List (PreimageKey × List Nat)) (k : PreimageKey)
    (v : List Nat) : VerifyOutcome :=
  match k.keyType with
  | .localType => .ok
  | .keccak256 =>
      if PreimageKey.new (keccak v) .keccak256 = k then .ok
      else .panic "zkvm keccak constraint failed!"
  | .globalGeneric => .panic "unimplemented!"
  | .sha256 =>
      if PreimageKey.new (sha v) .sha256 = k then .ok
      else .panic "zkvm sha256 constraint failed!"
  | .blob => .panic "todo!"
  | .precompile =>
      match lookupKey table ⟨.keccak256, k.payload⟩ with
      | some hintData => precompileRun hintData
      | none => .ok

/-- `InMemoryOracle::verify` (`bin/programs/zkvm-client/src/oracle.rs`):
verifies every entry of the table in order; the first panic aborts the
program, otherwise `Ok(())` is returned. -/
def verify (keccak sha : List Nat → List Nat)
    (table : List (PreimageKey × List Nat)) : VerifyOutcome :=
  go table
where
  go : List (PreimageKey × List Nat) → VerifyOutcome
  | [] => .ok
  | (k, v) :: rest =>
      match verifyEntry keccak sha table k v with
      | .ok => go rest
      | .panic m => .panic m

/-- The outcome of `InMemoryOracle::get_exact`: a successful fill of the
caller's buffer, an error return (missing key), or a Rust panic. -/
inductive GetExactOutcome where
  | filled (buf : List Nat) : GetExactOutcome
  | errKeyNotFound : GetExactOutcome
  | panic : GetExactOutcome
deriving Repr, DecidableEq

/-- `InMemoryOracle::get_exact` (`bin/programs/zkvm-client/src/oracle.rs`
lines 60-64 and `oracle/mem_oracle.rs` lines 32-36, identical bodies): a
missing key returns an `anyhow` error; for a present key,
`buf.copy_from_slice(value.as_slice())` panics unless the two lengths are
equal, and on success the caller's buffer holds exactly the stored
preimage. -/
def getExact (cache : List (PreimageKey × List Nat)) (key : PreimageKey)
    (buf : List Nat) : GetExactOutcome :=
  match lookupKey cache key with
  | none => .errKeyNotFound
  | some v => if v.length = buf.length then .filled v else .panic

end KonaOracle

namespace KonaClient

/-- The exit code of the client panic handler: `io::exit(2)` in
`bin/client/src/main.rs` lines 50-56.  Every crash path funnels through
this handler. -/
def panicExitCode : Nat := 2

/-- The epilogue of `bin/programs/zkvm-client/src/main.rs` (lines 120-121):
`assert_eq!(number, boot_info.l2_claim_block); assert_eq!(output_root,
boot_info.l2_claim)`.  A failed assertion panics, and a panic terminates
the program through the panic handler with `panicExitCode`; if both
assertions hold the program runs to completion and exits with status 0. -/
def epilogueExitCode (number l2ClaimBlock : Nat)
    (outputRoot l2Claim : List Nat) : Nat :=
  if number = l2ClaimBlock then
    if outputRoot = l2Claim then 0 else panicExitCode
  else panicExitCode

/-- The boot record of `bin/client/src/boot.rs`. -/
structure BootInfo where
  l1Head : List Nat
  startingL2OutputRoot : List Nat
  claimedL2OutputRoot : List Nat
  claimedL2OutputRootBlockNumber : Nat
  l2ChainId : Nat
deriving Repr, DecidableEq

/-- Boot errors: a failed oracle read, or a value whose length does not fit
the target type (`anyhow!("Failed to convert ...")` in
`bin/client/src/boot.rs`). -/
inductive BootErr where
  | oracleErr (msg : String) : BootErr
  | badLength (field : String) : BootErr
deriving Repr, DecidableEq

/-- `u64::from_be_bytes` over an 8-byte big-endian list. -/
def u64be (bs : List Nat) : Nat := bs.foldl (fun acc b => acc * 256 + b) 0

/-- `BootInfo::try_boot` (`bin/client/src/boot.rs` lines 44-94): reads the
local-key preimages with indices 1..5 (`LocalKeyIndex`), converts the first
three into 32-byte hashes (`try_into` to `B256` fails on any other length)
and the last two into big-endian `u64`s (`try_into` to `[u8; 8]` fails on
any other length).  The oracle is modelled as a map from local-key index to
the preimage read (a read itself can fail, e.g. on transport errors). -/
def tryBoot (oracle : Nat → Except String (List Nat)) :
    Except BootErr BootInfo := do
  let v1 ← (oracle 1).mapError BootErr.oracleErr
  let _ ← if v1.length = 32 then pure () else throw (BootErr.badLength "l1 head")
  let v2 ← (oracle 2).mapError BootErr.oracleErr
  let _ ← if v2.length = 32 then pure () else
    throw (BootErr.badLength "starting L2 output root")
  let v3 ← (oracle 3).mapError BootErr.oracleErr
  let _ ← if v3.length = 32 then pure () else
    throw (BootErr.badLength "claimed L2 output root")
  let v4 ← (oracle 4).mapError BootErr.oracleErr
  let _ ← if v4.length = 8 then pure () else
    throw (BootErr.badLength "claimed L2 output root block number")
  let v5 ← (oracle 5).mapError BootErr.oracleErr
  let _ ← if v5.length = 8 then pure () else throw (BootErr.badLength "L2 chain ID")
  pure ⟨v1, v2, v3, u64be v4, u64be v5⟩

/-- Modelled from the spec: derivation of a rollup configuration from a
chain id, which is absent from `bin/client/src/boot.rs` (its
`rollup_config` field is commented out).  Spec §4.7 and §8 scenario 5 make
a config derivable for chain id 10 (OP mainnet) and the repository contains
no other supported id. -/
def rollupConfigFromChainId (chainId : Nat) : Option Unit :=
  if chainId = 10 then some () else none

/-- A concrete oracle assignment for the boot claim: 32-byte zero hashes on
indices 1..3 and the 8-byte big-endian integer 99 on indices 4 and 5. -/
def bootOracle99 : Nat → Except String (List Nat) := fun i =>
  if i = 4 ∨ i = 5 then .ok (List.replicate 7 0 ++ [99])
  else .ok (List.replicate 32 0)

/-- A concrete oracle assignment whose index-5 preimage (the chain id) has
the wrong length: a single byte instead of eight. -/
def bootOracleShort5 : Nat → Except String (List Nat) := fun i =>
  if i = 4 then .ok (List.replicate 7 0 ++ [99])
  else if i = 5 then .ok [99]
  else .ok (List.replicate 32 0)

end KonaClient

/-! ## General lemmas -/

namespace KonaMpt

theorem commonPfxLen_self (p : List Nat) : commonPfxLen p p = p.length := by
  induction p with
  | nil => rfl
  | cons a as ih => simp [commonPfxLen, ih]

theorem commonPfxLen_le_left :
    ∀ a b : List Nat, commonPfxLen a b ≤ a.length
  | [], _ => by simp [commonPfxLen]
  | _ :: _, [] => by simp [commonPfxLen]
  | a :: as', b :: bs => by
      by_cases h : a = b <;>
        simp [commonPfxLen, h, Nat.succ_le_succ (commonPfxLen_le_left as' bs)]

theorem commonPfxLen_le_right :
    ∀ a b : List Nat, commonPfxLen a b ≤ b.length
  | [], _ => by simp [commonPfxLen]
  | _ :: _, [] => by simp [commonPfxLen]
  | a :: as', b :: bs => by
      by_cases h : a = b <;>
        simp [commonPfxLen, h, Nat.succ_le_succ (commonPfxLen_le_right as' bs)]

theorem eq_of_commonPfxLen_full :
    ∀ a b : List Nat, a.length = b.length → commonPfxLen a b = a.length →
      a = b
  | [], [], _, _ => rfl
  | [], _ :: _, h, _ => by simp at h
  | _ :: _, [], h, _ => by simp at h
  | a :: as', b :: bs, h, hc => by
      by_cases hab : a = b
      · subst hab
        simp only [commonPfxLen, if_pos rfl, if_true, List.length_cons,
          Nat.add_right_cancel_iff] at hc
        simp only [List.length_cons, Nat.add_right_cancel_iff] at h
        rw [eq_of_commonPfxLen_full as' bs h hc]
      · simp [commonPfxLen, hab] at hc

theorem commonPfxLen_lt_of_ne (a b : List Nat) (hlen : a.length = b.length)
    (hne : a ≠ b) : commonPfxLen a b < a.length :=
  lt_of_le_of_ne (commonPfxLen_le_left a b)
    (fun h => hne (eq_of_commonPfxLen_full a b hlen h))

theorem getElem?_ne_of_commonPfxLen :
    ∀ (a b : List Nat) (x y : Nat), a[commonPfxLen a b]? = some x →
      b[commonPfxLen a b]? = some y → x ≠ y
  | [], _, _, _, ha, _ => by simp at ha
  | _ :: _, [], _, _, _, hb => by simp at hb
  | a :: as', b :: bs, x, y, ha, hb => by
      by_cases hab : a = b
      · simp only [commonPfxLen, if_pos hab, List.getElem?_cons_succ] at ha hb
        exact getElem?_ne_of_commonPfxLen as' bs x y ha hb
      · simp only [commonPfxLen, if_neg hab, List.getElem?_cons_zero,
          Option.some_inj] at ha hb
        omega

theorem take_eq_of_commonPfxLen_right :
    ∀ a b : List Nat, commonPfxLen a b = b.length → a.take b.length = b
  | _, [], _ => by simp
  | [], _ :: _, h => by simp [commonPfxLen] at h
  | a :: as', b :: bs, h => by
      by_cases hab : a = b
      · subst hab
        simp only [commonPfxLen, if_pos rfl, if_true, List.length_cons,
          Nat.add_right_cancel_iff] at h
        simp [take_eq_of_commonPfxLen_right as' bs h]
      · simp [commonPfxLen, hab] at h

theorem commonPfxLen_eq_of_take :
    ∀ a b : List Nat, b.length ≤ a.length → a.take b.length = b →
      commonPfxLen a b = b.length
  | _, [], _, _ => by cases ‹List Nat› <;> simp [commonPfxLen]
  | [], _ :: _, h, _ => by simp at h
  | a :: as', b :: bs, h, ht => by
      simp only [List.length_cons, List.take_succ_cons, List.cons.injEq] at ht
      simp only [List.length_cons] at h
      simp [commonPfxLen, ht.1,
        commonPfxLen_eq_of_take as' bs (by omega) ht.2]

theorem isEmptyN_eq_false_iff (t : TrieNode) :
    t.isEmptyN = false ↔ t ≠ .empty := by
  cases t <;> simp [TrieNode.isEmptyN]

theorem nonEmptyIdx_singleton (stack : List TrieNode) (i : Nat)
    (c : TrieNode) (h : nonEmptyIdx stack = [(i, c)]) :
    stack[i]? = some c ∧ c ≠ .empty ∧
      ∀ j d, stack[j]? = some d → j ≠ i → d = .empty := by
  have hmem : (i, c) ∈ nonEmptyIdx stack := by rw [h]; exact List.mem_singleton.2 rfl
  have h1 : (i, c) ∈ stack.enum := List.mem_of_mem_filter hmem
  have h2 : stack[i]? = some c := (List.mk_mem_enum_iff_getElem?).1 h1
  have h3 : c ≠ .empty := by
    have := List.of_mem_filter hmem
    simpa [isEmptyN_eq_false_iff] using this
  refine ⟨h2, h3, fun j d hj hne => ?_⟩
  by_contra hd
  have : (j, d) ∈ nonEmptyIdx stack := by
    refine List.mem_filter.2 ⟨(List.mk_mem_enum_iff_getElem?).2 hj, ?_⟩
    simpa [isEmptyN_eq_false_iff] using hd
  rw [h] at this
  simp only [List.mem_singleton, Prod.mk.injEq] at this
  exact hne this.1

theorem openNode_empty (f : Fetcher) (fl : Nat) (path : List Nat) :
    openNode f fl .empty path = .ok none := by
  simp [openNode]

theorem openNode_leaf (f : Fetcher) (fl : Nat) (pfx v path : List Nat) :
    openNode f fl (.leaf pfx v) path =
      .ok (if path = pfx then some v else none) := by
  simp [openNode]

theorem openNode_ext (f : Fetcher) (fl : Nat) (pfx : List Nat)
    (node : TrieNode) (path : List Nat) (hlen : pfx.length ≤ path.length) :
    openNode f fl (.ext pfx node) path =
      if path.take pfx.length = pfx then
        openNode f fl node (path.drop pfx.length)
      else .ok none := by
  rw [openNode]
  simp [hlen]

theorem openNode_branch_some (f : Fetcher) (fl : Nat)
    (stack : List TrieNode) (n : Nat) (rest : List Nat) (child : TrieNode)
    (h : stack[n]? = some child) :
    openNode f fl (.branch stack) (n :: rest) = openNode f fl child rest := by
  rw [openNode]
  split
  · rename_i heq
    rw [heq] at h
    cases h
  · rename_i c2 heq
    rw [heq] at h
    cases h
    rfl

theorem openNode_branch_none (f : Fetcher) (fl : Nat)
    (stack : List TrieNode) (n : Nat) (rest : List Nat)
    (h : stack[n]? = none) :
    openNode f fl (.branch stack) (n :: rest) = .ok none := by
  rw [openNode]
  split
  · rfl
  · rename_i c2 heq
    rw [heq] at h
    cases h

theorem length_set2 (en bn : Nat) (a b : TrieNode) :
    ((emptyStack.set en a).set bn b).length = 17 := by
  simp [emptyStack]

theorem mem_set2_cases (en bn : Nat) (a b c : TrieNode)
    (h : c ∈ (emptyStack.set en a).set bn b) : c = a ∨ c = b ∨ c = .empty := by
  rcases List.mem_or_eq_of_mem_set h with h1 | h1
  · rcases List.mem_or_eq_of_mem_set h1 with h2 | h2
    · right; right; exact List.eq_of_mem_replicate h2
    · left; exact h2
  · right; left; exact h1

theorem getElem?_set2_bn (en bn : Nat) (a b : TrieNode) (hbn : bn < 17) :
    ((emptyStack.set en a).set bn b)[bn]? = some b := by
  apply List.getElem?_set_eq
  simp [emptyStack, hbn]

theorem getElem?_set2_other (en bn j : Nat) (a b : TrieNode)
    (hj1 : j ≠ en) (hj2 : j ≠ bn) (hj : j < 17) :
    ((emptyStack.set en a).set bn b)[j]? = some .empty := by
  rw [List.getElem?_set_ne (by omega), List.getElem?_set_ne (by omega)]
  exact List.getElem?_replicate_of_lt hj

theorem insert_ok (fetcher : Fetcher) :
    ∀ L (t : TrieNode) (p v : List Nat) (fuel : Nat),
      Wf L t → NB t → (∀ x ∈ p, x < 16) → p.length = L →
      ∃ t', insertNode fetcher fuel t p v = .ok t' ∧ Wf L t' ∧ NB t' ∧
        ∀ fl, openNode fetcher fl t' p = .ok (some v) := by
  intro L
  induction L using Nat.strong_induction_on with
  | _ L IH =>
  intro t p v fuel hwf hnb hnib hlen
  cases hwf with
  | empty =>
      refine ⟨.leaf p v, by simp [insertNode], Wf.leaf hlen hnib, NB.leaf,
        fun fl => ?_⟩
      simp [openNode_leaf]
  | blinded hc => cases hnb
  | @leaf _ pfx v0 hp hnibp =>
      by_cases heq : p = pfx
      · subst heq
        refine ⟨.leaf p v, by simp [insertNode], Wf.leaf hlen hnib, NB.leaf,
          fun fl => ?_⟩
        simp [openNode_leaf]
      · have hlenp : p.length = pfx.length := by omega
        have hsh := commonPfxLen_lt_of_ne p pfx hlenp heq
        set sh := commonPfxLen p pfx with hshdef
        have hshp : sh < p.length := hsh
        have hshpfx : sh < pfx.length := by omega
        obtain ⟨en, hen⟩ : ∃ x, pfx[sh]? = some x :=
          ⟨_, List.getElem?_eq_getElem hshpfx⟩
        obtain ⟨bn, hbn⟩ : ∃ x, p[sh]? = some x :=
          ⟨_, List.getElem?_eq_getElem hshp⟩
        have henbn : en ≠ bn := by
          have := getElem?_ne_of_commonPfxLen p pfx bn en hbn hen
          omega
        have hen16 : en < 16 := hnibp _ (List.getElem?_mem hen)
        have hbn16 : bn < 16 := hnib _ (List.getElem?_mem hbn)
        set stack := (emptyStack.set en (.leaf (pfx.drop (sh + 1)) v0)).set bn
          (.leaf (p.drop (sh + 1)) v) with hstack
        have hwfb : Wf (L - sh) (.branch stack) := by
          refine Wf.branch (length_set2 _ _ _ _) (by omega) ?_ ?_
          · intro c hc
            rcases mem_set2_cases _ _ _ _ _ hc with h | h | h <;> subst h
            · exact Wf.leaf (by rw [List.length_drop]; omega)
                (fun x hx => hnibp x (List.mem_of_mem_drop hx))
            · exact Wf.leaf (by rw [List.length_drop]; omega)
                (fun x hx => hnib x (List.mem_of_mem_drop hx))
            · exact Wf.empty
          · exact getElem?_set2_other en bn 16 _ _ (by omega) (by omega)
              (by omega)
        have hnbb : NB (.branch stack) := by
          refine NB.branch ?_
          intro c hc
          rcases mem_set2_cases _ _ _ _ _ hc with h | h | h <;> subst h <;>
            first | exact NB.leaf | exact NB.empty
        have hopenb : ∀ fl, openNode fetcher fl (.branch stack) (p.drop sh) =
            .ok (some v) := by
          intro fl
          rw [List.drop_eq_getElem_cons hshp]
          obtain ⟨hb1, hb2⟩ := List.getElem?_eq_some_iff.1 hbn
          rw [hb2, openNode_branch_some _ _ _ _ _ _
            (getElem?_set2_bn en bn _ _ (by omega))]
          simp [openNode_leaf]
        have hres : insertNode fetcher fuel (.leaf pfx v0) p v =
            .ok (if sh = 0 then .branch stack
                 else .ext (p.take sh) (.branch stack)) := by
          rw [insertNode]
          simp only [if_neg heq, ← hshdef, hen, hbn]
          rw [if_pos ⟨by omega, by omega⟩]
          split <;> simp [hstack]
        by_cases hz : sh = 0
        · refine ⟨.branch stack, by simpa [hz] using hres, ?_, hnbb,
            fun fl => ?_⟩
          · have : L - sh = L := by omega
            exact this ▸ hwfb
          · have := hopenb fl
            rwa [hz, List.drop_zero] at this
        · refine ⟨.ext (p.take sh) (.branch stack), by simpa [hz] using hres,
            ?_, NB.ext hnbb, fun fl => ?_⟩
          · have hlt : (p.take sh).length = sh := by
              rw [List.length_take]; omega
            refine Wf.ext (by apply List.ne_nil_of_length_pos; rw [hlt]; omega)
              (by rw [hlt]; omega)
              (fun x hx => hnib x (List.mem_of_mem_take hx)) ?_
            rw [hlt]
            exact hwfb
          · have hlt : (p.take sh).length = sh := by
              rw [List.length_take]; omega
            rw [openNode_ext _ _ _ _ _ (by rw [hlt]; omega), hlt]
            simpa using hopenb fl
  | @ext _ pfx node hpne hple hnibp hwfc =>
      cases hnb with | ext hnbc =>
      have hpfxpos : 0 < pfx.length := List.length_pos.2 hpne
      have hLpos : 0 < L := by omega
      set sh := commonPfxLen p pfx with hshdef
      by_cases hfull : sh = pfx.length
      · have htake : p.take pfx.length = pfx :=
          take_eq_of_commonPfxLen_right p pfx (hshdef ▸ hfull)
        obtain ⟨n', hn', hwf', hnb', hopen'⟩ :=
          IH (L - pfx.length) (by omega) node (p.drop pfx.length) v fuel hwfc
            hnbc (fun x hx => hnib x (List.mem_of_mem_drop hx))
            (by rw [List.length_drop]; omega)
        refine ⟨.ext pfx n', ?_, Wf.ext hpne hple hnibp hwf', NB.ext hnb',
          fun fl => ?_⟩
        · rw [insertNode]
          simp only [← hshdef, hfull, eq_self_iff_true, if_true, hn',
            Except.map]
        · rw [openNode_ext _ _ _ _ _ (by omega), if_pos htake]
          exact hopen' fl
      · have hshle := hshdef ▸ commonPfxLen_le_right p pfx
        have hshlt : sh < pfx.length := lt_of_le_of_ne hshle hfull
        have hshp : sh < p.length := by omega
        obtain ⟨en, hen⟩ : ∃ x, pfx[sh]? = some x :=
          ⟨_, List.getElem?_eq_getElem hshlt⟩
        obtain ⟨bn, hbn⟩ : ∃ x, p[sh]? = some x :=
          ⟨_, List.getElem?_eq_getElem hshp⟩
        have henbn : en ≠ bn := by
          have := getElem?_ne_of_commonPfxLen p pfx bn en hbn hen
          omega
        have hen16 : en < 16 := hnibp _ (List.getElem?_mem hen)
        have hbn16 : bn < 16 := hnib _ (List.getElem?_mem hbn)
        set childE := if (pfx.drop (sh + 1)).isEmpty then node
          else .ext (pfx.drop (sh + 1)) node with hchildE
        set stack := (emptyStack.set en childE).set bn
          (.leaf (p.drop (sh + 1)) v) with hstack
        have hwfce : Wf (L - sh - 1) childE := by
          rw [hchildE]
          split
          · have hemp : pfx.drop (sh + 1) = [] := by
              rename_i hfa
              rwa [List.isEmpty_iff] at hfa
            have hplen : pfx.length = sh + 1 := by
              have := List.length_drop (sh + 1) pfx
              rw [hemp] at this
              simp at this
              omega
            have : L - pfx.length = L - sh - 1 := by omega
            exact this ▸ hwfc
          · have hne2 : pfx.drop (sh + 1) ≠ [] := by
              rename_i hfa
              simpa [List.isEmpty_iff] using hfa
            refine Wf.ext hne2 (by rw [List.length_drop]; omega)
              (fun x hx => hnibp x (List.mem_of_mem_drop hx)) ?_
            have : L - sh - 1 - (pfx.drop (sh + 1)).length =
                L - pfx.length := by
              rw [List.length_drop]; omega
            exact this ▸ hwfc
        have hnbce : NB childE := by
          rw [hchildE]
          split
          · exact hnbc
          · exact NB.ext hnbc
        have hwfb : Wf (L - sh) (.branch stack) := by
          refine Wf.branch (length_set2 _ _ _ _) (by omega) ?_ ?_
          · intro c hc
            rcases mem_set2_cases _ _ _ _ _ hc with h | h | h <;> subst h
            · exact hwfce
            · exact Wf.leaf (by rw [List.length_drop]; omega)
                (fun x hx => hnib x (List.mem_of_mem_drop hx))
            · exact Wf.empty
          · exact getElem?_set2_other en bn 16 _ _ (by omega) (by omega)
              (by omega)
        have hnbb : NB (.branch stack) := by
          refine NB.branch ?_
          intro c hc
          rcases mem_set2_cases _ _ _ _ _ hc with h | h | h <;> subst h
          · exact hnbce
          · exact NB.leaf
          · exact NB.empty
        have hopenb : ∀ fl, openNode fetcher fl (.branch stack) (p.drop sh) =
            .ok (some v) := by
          intro fl
          rw [List.drop_eq_getElem_cons hshp]
          obtain ⟨hb1, hb2⟩ := List.getElem?_eq_some_iff.1 hbn
          rw [hb2, openNode_branch_some _ _ _ _ _ _
            (getElem?_set2_bn en bn _ _ (by omega))]
          simp [openNode_leaf]
        have hres : insertNode fetcher fuel (.ext pfx node) p v =
            .ok (if sh = 0 then .branch stack
                 else .ext (p.take sh) (.branch stack)) := by
          rw [insertNode]
          simp only [← hshdef, if_neg hfull, hen, hbn]
          rw [if_pos ⟨by omega, by omega⟩]
          split <;> simp [hstack, hchildE]
        by_cases hz : sh = 0
        · refine ⟨.branch stack, by simpa [hz] using hres, ?_, hnbb,
            fun fl => ?_⟩
          · have : L - sh = L := by omega
            exact this ▸ hwfb
          · have := hopenb fl
            rwa [hz, List.drop_zero] at this
        · refine ⟨.ext (p.take sh) (.branch stack), by simpa [hz] using hres,
            ?_, NB.ext hnbb, fun fl => ?_⟩
          · have hlt : (p.take sh).length = sh := by
              rw [List.length_take]; omega
            refine Wf.ext (by apply List.ne_nil_of_length_pos; rw [hlt]; omega)
              (by rw [hlt]; omega)
              (fun x hx => hnib x (List.mem_of_mem_take hx)) ?_
            rw [hlt]
            exact hwfb
          · have hlt : (p.take sh).length = sh := by
              rw [List.length_take]; omega
            rw [openNode_ext _ _ _ _ _ (by rw [hlt]; omega), hlt]
            simpa using hopenb fl
  | @branch _ stack h17 hL1 hch h16 =>
      cases hnb with | branch hnbs =>
      cases p with
      | nil => simp at hlen; omega
      | cons n rest =>
      have hn16 : n < 16 := hnib n (by simp)
      have hnlt : n < stack.length := by omega
      obtain ⟨child, hchild⟩ : ∃ x, stack[n]? = some x :=
        ⟨_, List.getElem?_eq_getElem hnlt⟩
      have hmem := List.getElem?_mem hchild
      obtain ⟨n', hn', hwf', hnb', hopen'⟩ :=
        IH (L - 1) (by omega) child rest v fuel (hch child hmem)
          (hnbs child hmem) (fun x hx => hnib x (by simp [hx]))
          (by simp at hlen; omega)
      refine ⟨.branch (stack.set n n'), ?_, ?_, ?_, fun fl => ?_⟩
      · rw [insertNode]
        split
        · rename_i heq
          rw [heq] at hchild
          cases hchild
        · rename_i c2 heq
          rw [heq] at hchild
          cases hchild
          rw [hn']
          rfl
      · refine Wf.branch (by simpa using h17) hL1 ?_ ?_
        · intro c hc
          rcases List.mem_or_eq_of_mem_set hc with h | h
          · exact hch c h
          · subst h; exact hwf'
        · rw [List.getElem?_set_ne (by omega)]
          exact h16
      · refine NB.branch ?_
        intro c hc
        rcases List.mem_or_eq_of_mem_set hc with h | h
        · exact hnbs c h
        · subst h; exact hnb'
      · rw [openNode_branch_some _ _ _ _ _ _ (List.getElem?_set_eq hnlt)]
        exact hopen' fl

theorem collapse_spec (fetcher : Fetcher) (fuel : Nat) :
    ∀ L (t : TrieNode), Wf L t → NB t →
      ∃ t', collapseIfPossible fetcher fuel t = .ok (t', []) ∧ Wf L t' ∧
        NB t' ∧ ∀ fl q, (∀ x ∈ q, x < 16) → q.length = L →
          openNode fetcher fl t' q = openNode fetcher fl t q := by
  intro L t hwf hnb
  cases hwf with
  | empty =>
      exact ⟨.empty, by simp [collapseIfPossible], Wf.empty, NB.empty,
        fun _ _ _ _ => rfl⟩
  | blinded hc => cases hnb
  | leaf hp hnibp =>
      exact ⟨_, by simp [collapseIfPossible], Wf.leaf hp hnibp, NB.leaf,
        fun _ _ _ _ => rfl⟩
  | @ext _ pfx node hpne hple hnibp hwfc =>
      cases hnb with | ext hnbc =>
      cases node with
      | blinded c => cases hnbc
      | empty =>
          refine ⟨.empty, by simp [collapseIfPossible], Wf.empty, NB.empty,
            fun fl q hnib hlen => ?_⟩
          rw [openNode_empty, openNode_ext _ _ _ _ _ (by omega)]
          split
          · rw [openNode_empty]
          · rfl
      | branch bs =>
          exact ⟨.ext pfx (.branch bs), by simp [collapseIfPossible],
            Wf.ext hpne hple hnibp hwfc, NB.ext hnbc, fun _ _ _ _ => rfl⟩
      | leaf cp cv =>
          cases hwfc with | leaf hcp hnibcp =>
          refine ⟨.leaf (pfx ++ cp) cv, by simp [collapseIfPossible], ?_,
            NB.leaf, fun fl q hnib hlen => ?_⟩
          · refine Wf.leaf (by simp at hcp ⊢; omega) ?_
            intro x hx
            rcases List.mem_append.1 hx with h | h
            · exact hnibp x h
            · exact hnibcp x h
          · rw [openNode_leaf, openNode_ext _ _ _ _ _ (by omega)]
            by_cases h1 : q.take pfx.length = pfx
            · rw [if_pos h1, openNode_leaf]
              have hiff : (q = pfx ++ cp) ↔ (q.drop pfx.length = cp) := by
                constructor
                · intro h
                  rw [h, List.drop_left]
                · intro h
                  conv_lhs => rw [← List.take_append_drop pfx.length q]
                  rw [h1, h]
              simp only [hiff]
            · rw [if_neg h1]
              have hne2 : q ≠ pfx ++ cp := by
                intro h
                exact h1 (by rw [h, List.take_left])
              simp [hne2]
      | ext cpfx cnode =>
          cases hwfc with | ext hcpne hcple hnibcp hwfcc =>
          cases hnbc with | ext hnbcc =>
          have hlen2 : (pfx ++ cpfx).length = pfx.length + cpfx.length := by
            simp
          refine ⟨.ext (pfx ++ cpfx) cnode, by simp [collapseIfPossible], ?_,
            NB.ext hnbcc, fun fl q hnib hlen => ?_⟩
          · refine Wf.ext (by simp [hpne]) (by simp at hcple ⊢; omega) ?_ ?_
            · intro x hx
              rcases List.mem_append.1 hx with h | h
              · exact hnibp x h
              · exact hnibcp x h
            · have harith : L - (pfx ++ cpfx).length =
                  L - pfx.length - cpfx.length := by
                simp; omega
              rw [harith]
              exact hwfcc
          · rw [openNode_ext _ _ _ _ _ (by rw [hlen2]; omega),
              openNode_ext _ _ _ _ _ (by omega)]
            have htklen : (q.take pfx.length).length = pfx.length := by
              rw [List.length_take]; omega
            by_cases h1 : q.take pfx.length = pfx
            · rw [if_pos h1,
                openNode_ext _ _ _ _ _ (by rw [List.length_drop]; omega)]
              by_cases h2 : (q.drop pfx.length).take cpfx.length = cpfx
              · rw [if_pos h2]
                have htk : q.take (pfx ++ cpfx).length = pfx ++ cpfx := by
                  rw [hlen2, List.take_add, h1, h2]
                rw [if_pos htk, hlen2, ← List.drop_drop]
              · rw [if_neg h2]
                have hne3 : q.take (pfx ++ cpfx).length ≠ pfx ++ cpfx := by
                  rw [hlen2, List.take_add]
                  intro h
                  exact h2 (List.append_inj h (by rw [htklen])).2
                rw [if_neg hne3]
            · rw [if_neg h1]
              have hne3 : q.take (pfx ++ cpfx).length ≠ pfx ++ cpfx := by
                rw [hlen2, List.take_add]
                intro h
                exact h1 (List.append_inj h (by rw [htklen])).1
              rw [if_neg hne3]
  | @branch _ stack h17 hL1 hch h16 =>
      cases hnb with | branch hnbs =>
      rcases hne : nonEmptyIdx stack with _ | ⟨⟨i, c⟩, rest2⟩
      · exact ⟨.branch stack, by simp [collapseIfPossible, hne],
          Wf.branch h17 hL1 hch h16, NB.branch hnbs, fun _ _ _ _ => rfl⟩
      · cases rest2 with
        | cons y ys =>
            exact ⟨.branch stack, by simp [collapseIfPossible, hne],
              Wf.branch h17 hL1 hch h16, NB.branch hnbs, fun _ _ _ _ => rfl⟩
        | nil =>
        obtain ⟨hic, hcne, hothers⟩ := nonEmptyIdx_singleton stack i c hne
        have hmem := List.getElem?_mem hic
        have hilt : i < stack.length := by
          by_contra hcon
          rw [List.getElem?_eq_none (by omega)] at hic
          cases hic
        have hi16 : i ≠ 16 := by
          intro h
          subst h
          rw [h16] at hic
          injection hic with h2
          exact hcne h2.symm
        have hi15 : i < 16 := by omega
        have hwfcc := hch c hmem
        have hnbcc := hnbs c hmem
        cases c with
        | empty => exact absurd rfl hcne
        | blinded cm => cases hnbcc
        | leaf cp cv =>
            cases hwfcc with | leaf hcp hnibcp =>
            refine ⟨.leaf (i :: cp) cv, by simp [collapseIfPossible, hne],
              Wf.leaf (by simp; omega) ?_, NB.leaf, fun fl q hnib hlen => ?_⟩
            · intro x hx
              rcases List.mem_cons.1 hx with h | h
              · omega
              · exact hnibcp x h
            · cases q with
              | nil => simp at hlen; omega
              | cons n rest =>
                have hn16 : n < 16 := hnib n (by simp)
                by_cases hni : n = i
                · subst hni
                  rw [openNode_branch_some _ _ _ _ _ _ hic, openNode_leaf,
                    openNode_leaf]
                  simp only [List.cons.injEq, true_and]
                · obtain ⟨d, hd0⟩ : ∃ x, stack[n]? = some x :=
                    ⟨_, List.getElem?_eq_getElem (by omega)⟩
                  have hd : stack[n]? = some .empty := by
                    rw [hd0, hothers n d hd0 hni]
                  rw [openNode_branch_some _ _ _ _ _ _ hd, openNode_empty,
                    openNode_leaf]
                  have hne4 : (n :: rest) ≠ i :: cp := by
                    intro h
                    injection h with h5 h6
                    exact hni h5
                  simp [hne4]
        | ext cp cn =>
            cases hwfcc with | ext hcpne hcple hnibcp hwfc2 =>
            cases hnbcc with | ext hnbc2 =>
            refine ⟨.ext (i :: cp) cn, by simp [collapseIfPossible, hne],
              ?_, NB.ext hnbc2, fun fl q hnib hlen => ?_⟩
            · refine Wf.ext (by simp) (by simp; omega) ?_ ?_
              · intro x hx
                rcases List.mem_cons.1 hx with h | h
                · omega
                · exact hnibcp x h
              · have harith : L - (i :: cp).length = L - 1 - cp.length := by
                  simp; omega
                rw [harith]
                exact hwfc2
            · cases q with
              | nil => simp at hlen; omega
              | cons n rest =>
                have hn16 : n < 16 := hnib n (by simp)
                have hrl : rest.length = L - 1 := by simp at hlen; omega
                rw [openNode_ext _ _ _ _ _ (by simp; omega)]
                by_cases hni : n = i
                · subst hni
                  rw [openNode_branch_some _ _ _ _ _ _ hic,
                    openNode_ext _ _ _ _ _ (by omega)]
                  simp only [List.length_cons, List.take_succ_cons,
                    List.drop_succ_cons, List.cons.injEq, true_and]
                · obtain ⟨d, hd0⟩ : ∃ x, stack[n]? = some x :=
                    ⟨_, List.getElem?_eq_getElem (by omega)⟩
                  have hd : stack[n]? = some .empty := by
                    rw [hd0, hothers n d hd0 hni]
                  rw [openNode_branch_some _ _ _ _ _ _ hd, openNode_empty]
                  have hne4 : (n :: rest).take (i :: cp).length ≠ i :: cp := by
                    simp only [List.length_cons, List.take_succ_cons]
                    intro h
                    injection h with h5 h6
                    exact hni h5
                  rw [if_neg hne4]
        | branch bs =>
            refine ⟨.ext [i] (.branch bs),
              by simp [collapseIfPossible, hne], ?_, NB.ext hnbcc,
              fun fl q hnib hlen => ?_⟩
            · refine Wf.ext (by simp) (by simp; omega)
                (by intro x hx; simp at hx; omega) ?_
              have harith : L - ([i] : List Nat).length = L - 1 := by simp
              rw [harith]
              exact hwfcc
            · cases q with
              | nil => simp at hlen; omega
              | cons n rest =>
                have hn16 : n < 16 := hnib n (by simp)
                rw [openNode_ext _ _ _ _ _ (by simp)]
                by_cases hni : n = i
                · subst hni
                  rw [openNode_branch_some _ _ _ _ _ _ hic]
                  simp
                · obtain ⟨d, hd0⟩ : ∃ x, stack[n]? = some x :=
                    ⟨_, List.getElem?_eq_getElem (by omega)⟩
                  have hd : stack[n]? = some .empty := by
                    rw [hd0, hothers n d hd0 hni]
                  rw [openNode_branch_some _ _ _ _ _ _ hd, openNode_empty]
                  have hne4 : (n :: rest).take ([i] : List Nat).length ≠
                      [i] := by
                    simp only [List.length_cons, List.length_nil,
                      Nat.zero_add, List.take_succ_cons, List.take_zero]
                    intro h
                    injection h with h5 h6
                    exact hni h5
                  rw [if_neg hne4]

theorem deleteNode_branch_some (fetcher : Fetcher) (fuel : Nat)
    (stack : List TrieNode) (n : Nat) (rest : List Nat) (child : TrieNode)
    (h : stack[n]? = some child) :
    deleteNode fetcher fuel (.branch stack) (n :: rest) = (do
      let (c, hs1) ← deleteNode fetcher fuel child rest
      let (r, hs2) ← collapseIfPossible fetcher fuel (.branch (stack.set n c))
      .ok (r, hs1 ++ hs2)) := by
  rw [deleteNode]
  split
  · rename_i heq
    rw [heq] at h
    cases h
  · rename_i c2 heq
    rw [heq] at h
    cases h
    rfl

theorem deleteNode_ext_step (fetcher : Fetcher) (fuel : Nat)
    (pfx : List Nat) (node : TrieNode) (p : List Nat)
    (h1 : ¬ commonPfxLen p pfx < pfx.length)
    (h2 : commonPfxLen p pfx ≠ p.length) :
    deleteNode fetcher fuel (.ext pfx node) p = (do
      let (n, hs1) ← deleteNode fetcher fuel node (p.drop pfx.length)
      let (r, hs2) ← collapseIfPossible fetcher fuel (.ext pfx n)
      .ok (r, hs1 ++ hs2)) := by
  rw [deleteNode]
  rw [if_neg h1, if_neg h2]

theorem delete_spec (fetcher : Fetcher) :
    ∀ L (t : TrieNode) (p w : List Nat) (fuel f2 : Nat),
      Wf L t → NB t → (∀ x ∈ p, x < 16) → p.length = L →
      openNode fetcher f2 t p = .ok (some w) →
      ∃ t', deleteNode fetcher fuel t p = .ok (t', []) ∧ Wf L t' ∧ NB t' ∧
        ∀ fl, openNode fetcher fl t' p = .ok none := by
  intro L
  induction L using Nat.strong_induction_on with
  | _ L IH =>
  intro t p w fuel f2 hwf hnb hnib hlen hop
  cases hwf with
  | empty =>
      rw [openNode_empty] at hop
      cases hop
  | blinded hc => cases hnb
  | @leaf _ pfx v0 hp hnibp =>
      rw [openNode_leaf] at hop
      by_cases heq : p = pfx
      · refine ⟨.empty, by simp [deleteNode, heq], Wf.empty, NB.empty,
          fun fl => ?_⟩
        rw [openNode_empty]
      · rw [if_neg heq] at hop
        cases hop
  | @ext _ pfx node hpne hple hnibp hwfc =>
      cases hnb with | ext hnbc =>
      rw [openNode_ext _ _ _ _ _ (by omega)] at hop
      by_cases h1 : p.take pfx.length = pfx
      · rw [if_pos h1] at hop
        have hsh : commonPfxLen p pfx = pfx.length :=
          commonPfxLen_eq_of_take p pfx (by omega) h1
        by_cases hfull : pfx.length = p.length
        · refine ⟨.empty, ?_, Wf.empty, NB.empty, fun fl => ?_⟩
          · rw [deleteNode]
            rw [if_neg (by omega), if_pos (by omega)]
          · rw [openNode_empty]
        · have hpfxpos : 0 < pfx.length := List.length_pos.2 hpne
          obtain ⟨node', hdel, hwf', hnb', hop'⟩ :=
            IH (L - pfx.length) (by omega) node (p.drop pfx.length) w fuel f2
              hwfc hnbc (fun x hx => hnib x (List.mem_of_mem_drop hx))
              (by rw [List.length_drop]; omega) hop
          obtain ⟨t', hcol, hwft', hnbt', hopent'⟩ :=
            collapse_spec fetcher fuel L (.ext pfx node')
              (Wf.ext hpne hple hnibp hwf') (NB.ext hnb')
          refine ⟨t', ?_, hwft', hnbt', fun fl => ?_⟩
          · rw [deleteNode_ext_step fetcher fuel pfx node p (by omega)
              (by omega), hdel]
            simp only [bind, Except.bind]
            rw [hcol]
            rfl
          · rw [hopent' fl p hnib hlen,
              openNode_ext _ _ _ _ _ (by omega), if_pos h1]
            exact hop' fl
      · rw [if_neg h1] at hop
        cases hop
  | @branch _ stack h17 hL1 hch h16 =>
      cases hnb with | branch hnbs =>
      cases p with
      | nil => simp at hlen; omega
      | cons n rest =>
      have hn16 : n < 16 := hnib n (by simp)
      have hnlt : n < stack.length := by omega
      obtain ⟨child, hchild⟩ : ∃ x, stack[n]? = some x :=
        ⟨_, List.getElem?_eq_getElem hnlt⟩
      have hmem := List.getElem?_mem hchild
      rw [openNode_branch_some _ _ _ _ _ _ hchild] at hop
      obtain ⟨child', hdel, hwf', hnb', hop'⟩ :=
        IH (L - 1) (by omega) child rest w fuel f2 (hch child hmem)
          (hnbs child hmem) (fun x hx => hnib x (by simp [hx]))
          (by simp at hlen; omega) hop
      have hwfb : Wf L (.branch (stack.set n child')) := by
        refine Wf.branch (by simpa using h17) hL1 ?_ ?_
        · intro c hc
          rcases List.mem_or_eq_of_mem_set hc with h | h
          · exact hch c h
          · subst h; exact hwf'
        · rw [List.getElem?_set_ne (by omega)]
          exact h16
      have hnbb : NB (.branch (stack.set n child')) := by
        refine NB.branch ?_
        intro c hc
        rcases List.mem_or_eq_of_mem_set hc with h | h
        · exact hnbs c h
        · subst h; exact hnb'
      obtain ⟨t', hcol, hwft', hnbt', hopent'⟩ :=
        collapse_spec fetcher fuel L (.branch (stack.set n child')) hwfb hnbb
      refine ⟨t', ?_, hwft', hnbt', fun fl => ?_⟩
      · rw [deleteNode_branch_some fetcher fuel stack n rest child hchild,
          hdel]
        simp only [bind, Except.bind]
        rw [hcol]
        rfl
      · rw [hopent' fl (n :: rest) hnib hlen,
          openNode_branch_some _ _ _ _ _ _ (List.getElem?_set_eq hnlt)]
        exact hop' fl

theorem deleteNode_branch_none (fetcher : Fetcher) (fuel : Nat)
    (stack : List TrieNode) (n : Nat) (rest : List Nat)
    (h : stack[n]? = none) :
    deleteNode fetcher fuel (.branch stack) (n :: rest) = .error .panic := by
  rw [deleteNode]
  split
  · rfl
  · rename_i c2 heq
    rw [heq] at h
    cases h

theorem collapse_noop (fetcher : Fetcher) (fuel : Nat) :
    collapseIfPossible fetcher fuel .empty = .ok (.empty, []) ∧
    (∀ c, collapseIfPossible fetcher fuel (.blinded c) =
      .ok (.blinded c, [])) ∧
    (∀ p v, collapseIfPossible fetcher fuel (.leaf p v) =
      .ok (.leaf p v, [])) := by
  refine ⟨?_, ?_, ?_⟩ <;> intros <;> simp [collapseIfPossible]

theorem collapse_ext_branch (fetcher : Fetcher) (fuel : Nat) (pfx : List Nat)
    (bs : List TrieNode) :
    collapseIfPossible fetcher fuel (.ext pfx (.branch bs)) =
      .ok (.ext pfx (.branch bs), []) := by
  simp [collapseIfPossible]

theorem collapse_ns (fetcher : Fetcher) (fuel : Nat) :
    ∀ (t t' : TrieNode) (hs : List (List Nat)), NB t → ChildrenNS t →
      collapseIfPossible fetcher fuel t = .ok (t', hs) → NoSingle t' := by
  intro t t' hs hnb hcs hcol
  cases t with
  | empty =>
      rw [(collapse_noop fetcher fuel).1] at hcol
      cases hcol
      exact NoSingle.empty
  | blinded c =>
      rw [(collapse_noop fetcher fuel).2.1 c] at hcol
      cases hcol
      exact NoSingle.blinded
  | leaf p v =>
      rw [(collapse_noop fetcher fuel).2.2 p v] at hcol
      cases hcol
      exact NoSingle.leaf
  | ext pfx child =>
      cases hnb with | ext hnbc =>
      have hcs2 : NoSingle child := hcs
      cases child with
      | blinded c => cases hnbc
      | empty =>
          rw [collapseIfPossible] at hcol
          cases hcol
          exact NoSingle.empty
      | leaf cp cv =>
          rw [collapseIfPossible] at hcol
          cases hcol
          exact NoSingle.leaf
      | ext cp cn =>
          rw [collapseIfPossible] at hcol
          cases hcol
          cases hcs2 with | ext h => exact NoSingle.ext h
      | branch bs =>
          rw [collapse_ext_branch] at hcol
          cases hcol
          exact NoSingle.ext hcs2
  | branch stack =>
      cases hnb with | branch hnbs =>
      rcases hne : nonEmptyIdx stack with _ | ⟨⟨i, c⟩, rest2⟩
      · rw [collapseIfPossible, hne] at hcol
        cases hcol
        exact NoSingle.branch hcs (by rw [hne]; simp)
      · cases rest2 with
        | cons y ys =>
            rw [collapseIfPossible, hne] at hcol
            cases hcol
            exact NoSingle.branch hcs (by rw [hne]; simp)
        | nil =>
          obtain ⟨hic, hcne, hothers⟩ := nonEmptyIdx_singleton stack i c hne
          have hmem := List.getElem?_mem hic
          have hnsc := hcs c hmem
          have hnbc := hnbs c hmem
          cases c with
          | empty => exact absurd rfl hcne
          | blinded cm => cases hnbc
          | leaf cp cv =>
              rw [collapseIfPossible, hne] at hcol
              cases hcol
              exact NoSingle.leaf
          | ext cp cn =>
              rw [collapseIfPossible, hne] at hcol
              cases hcol
              cases hnsc with | ext h => exact NoSingle.ext h
          | branch bs =>
              rw [collapseIfPossible, hne] at hcol
              cases hcol
              exact NoSingle.ext hnsc

theorem delete_ns (fetcher : Fetcher) :
    ∀ L (t : TrieNode) (p : List Nat) (t' : TrieNode)
        (hs : List (List Nat)) (fuel : Nat),
      Wf L t → NB t → NoSingle t →
      deleteNode fetcher fuel t p = .ok (t', hs) →
      NoSingle t' ∧ Wf L t' ∧ NB t' := by
  intro L
  induction L using Nat.strong_induction_on with
  | _ L IH =>
  intro t p t' hs fuel hwf hnb hns hdel
  cases hwf with
  | empty =>
      rw [deleteNode] at hdel
      cases hdel
  | blinded hc => cases hnb
  | @leaf _ pfx v0 hp hnibp =>
      rw [deleteNode] at hdel
      by_cases heq : p = pfx
      · rw [if_pos heq] at hdel
        cases hdel
        exact ⟨NoSingle.empty, Wf.empty, NB.empty⟩
      · rw [if_neg heq] at hdel
        cases hdel
  | @ext _ pfx node hpne hple hnibp hwfc =>
      cases hnb with | ext hnbc =>
      cases hns with | ext hnsc =>
      have hpfxpos : 0 < pfx.length := List.length_pos.2 hpne
      by_cases hlt : commonPfxLen p pfx < pfx.length
      · rw [deleteNode, if_pos hlt] at hdel
        cases hdel
      · by_cases hfull : commonPfxLen p pfx = p.length
        · rw [deleteNode, if_neg hlt, if_pos hfull] at hdel
          cases hdel
          exact ⟨NoSingle.empty, Wf.empty, NB.empty⟩
        · rw [deleteNode_ext_step fetcher fuel pfx node p hlt hfull] at hdel
          rcases hd : deleteNode fetcher fuel node (p.drop pfx.length)
            with e | ⟨node', hs1⟩
          · rw [hd] at hdel
            simp only [bind, Except.bind] at hdel
            cases hdel
          · rw [hd] at hdel
            simp only [bind, Except.bind] at hdel
            rcases hc : collapseIfPossible fetcher fuel (.ext pfx node')
              with e2 | ⟨t2, hs2⟩
            · rw [hc] at hdel
              cases hdel
            · rw [hc] at hdel
              cases hdel
              obtain ⟨hns', hwf', hnb'⟩ :=
                IH (L - pfx.length) (by omega) node (p.drop pfx.length)
                  node' hs1 fuel hwfc hnbc hnsc hd
              obtain ⟨t3, hc3, hwf3, hnb3, _⟩ :=
                collapse_spec fetcher fuel L (.ext pfx node')
                  (Wf.ext hpne hple hnibp hwf') (NB.ext hnb')
              rw [hc] at hc3
              cases hc3
              exact ⟨collapse_ns fetcher fuel (.ext pfx node') t2 _
                (NB.ext hnb') hns' hc, hwf3, hnb3⟩
  | @branch _ stack h17 hL1 hch h16 =>
      cases hnb with | branch hnbs =>
      cases hns with | branch hnss hcount =>
      cases p with
      | nil =>
          rw [deleteNode] at hdel
          cases hdel
      | cons n rest =>
        rcases hsn : stack[n]? with _ | child
        · rw [deleteNode_branch_none _ _ _ _ _ hsn] at hdel
          cases hdel
        · have hmem := List.getElem?_mem hsn
          rw [deleteNode_branch_some _ _ _ _ _ _ hsn] at hdel
          rcases hd : deleteNode fetcher fuel child rest
            with e | ⟨child', hs1⟩
          · rw [hd] at hdel
            simp only [bind, Except.bind] at hdel
            cases hdel
          · rw [hd] at hdel
            simp only [bind, Except.bind] at hdel
            rcases hc : collapseIfPossible fetcher fuel
              (.branch (stack.set n child')) with e2 | ⟨t2, hs2⟩
            · rw [hc] at hdel
              cases hdel
            · rw [hc] at hdel
              cases hdel
              obtain ⟨hns', hwf', hnb'⟩ :=
                IH (L - 1) (by omega) child rest child' hs1 fuel
                  (hch child hmem) (hnbs child hmem) (hnss child hmem) hd
              have hwfb : Wf L (.branch (stack.set n child')) := by
                refine Wf.branch (by simpa using h17) hL1 ?_ ?_
                · intro c hc2
                  rcases List.mem_or_eq_of_mem_set hc2 with h | h
                  · exact hch c h
                  · subst h; exact hwf'
                · have hn16 : n ≠ 16 := by
                    intro hco
                    subst hco
                    rw [h16] at hsn
                    injection hsn with h5
                    rw [← h5] at hd
                    rw [deleteNode] at hd
                    cases hd
                  rw [List.getElem?_set_ne (by omega)]
                  exact h16
              have hnbb : NB (.branch (stack.set n child')) := by
                refine NB.branch ?_
                intro c hc2
                rcases List.mem_or_eq_of_mem_set hc2 with h | h
                · exact hnbs c h
                · subst h; exact hnb'
              have hcsb : ChildrenNS (.branch (stack.set n child')) := by
                intro c hc2
                rcases List.mem_or_eq_of_mem_set hc2 with h | h
                · exact hnss c h
                · subst h; exact hns'
              obtain ⟨t3, hc3, hwf3, hnb3, _⟩ :=
                collapse_spec fetcher fuel L (.branch (stack.set n child'))
                  hwfb hnbb
              rw [hc] at hc3
              cases hc3
              exact ⟨collapse_ns fetcher fuel _ t2 _ hnbb hcsb hc,
                hwf3, hnb3⟩

theorem unpackNibbles_length (bs : List Nat) :
    (unpackNibbles bs).length = 2 * bs.length := by
  induction bs with
  | nil => rfl
  | cons b rest ih => simp [unpackNibbles, ih]; omega

theorem decodeLeafExt_shape (fuel : Nat) (buf : List Nat) (node : TrieNode)
    (r : List Nat) (h : decodeLeafExt fuel buf = .ok (node, r)) :
    (∃ p c, node = .ext p c) ∨ (∃ p v, node = .leaf p v) := by
  rw [decodeLeafExt] at h
  rcases hbd : bytesDecode buf with e | ⟨path, buf1⟩ <;> rw [hbd] at h
  · cases h
  · cases path with
    | nil => cases h
    | cons p0 ptail =>
      simp only at h
      by_cases h13 : p0 / 16 = 1 ∨ p0 / 16 = 3
      · rw [if_pos h13] at h
        by_cases h1 : p0 / 16 = 1
        · rw [if_pos h1] at h
          rcases hd : decodeTrieNode fuel buf1 with e | ⟨child, b2⟩ <;>
            rw [hd] at h
          · cases h
          · cases h
            exact Or.inl ⟨_, _, rfl⟩
        · rw [if_neg h1] at h
          rcases hd : bytesDecode buf1 with e | ⟨v, b2⟩ <;> rw [hd] at h
          · cases h
          · cases h
            exact Or.inr ⟨_, _, rfl⟩
      · rw [if_neg h13] at h
        by_cases h02 : p0 / 16 = 0 ∨ p0 / 16 = 2
        · rw [if_pos h02] at h
          by_cases h0 : p0 / 16 = 0
          · rw [if_pos h0] at h
            rcases hd : decodeTrieNode fuel buf1 with e | ⟨child, b2⟩ <;>
              rw [hd] at h
            · cases h
            · cases h
              exact Or.inl ⟨_, _, rfl⟩
          · rw [if_neg h0] at h
            rcases hd : bytesDecode buf1 with e | ⟨v, b2⟩ <;> rw [hd] at h
            · cases h
            · cases h
              exact Or.inr ⟨_, _, rfl⟩
        · rw [if_neg h02] at h
          cases h

theorem headerDecode_string_inv (b : Nat) (rest : List Nat) (pl hlen : Nat)
    (hh : headerDecode (b :: rest) = .ok (⟨false, pl⟩, hlen)) :
    (pl = 0 → b = 0x80 ∧ hlen = 1) ∧
    (pl = 32 → b = 0xa0 ∧ hlen = 1 ∧ 32 ≤ rest.length) := by
  rw [headerDecode] at hh
  by_cases h7 : b ≤ 0x7f
  · rw [if_pos h7] at hh
    cases hh
    exact ⟨fun h => by omega, fun h => by omega⟩
  · rw [if_neg h7] at hh
    by_cases hb7 : b ≤ 0xb7
    · rw [if_pos hb7] at hh
      simp only at hh
      by_cases hpl1 : b - 0x80 = 1
      · rw [if_pos hpl1] at hh
        cases rest with
        | nil => cases hh
        | cons b2 tl =>
          simp only at hh
          by_cases hb2 : b2 < 0x80
          · rw [if_pos hb2] at hh
            cases hh
          · rw [if_neg hb2] at hh
            split at hh
            · cases hh
            · cases hh
              constructor
              · intro h; omega
              · intro h; omega
      · rw [if_neg hpl1] at hh
        split at hh
        · cases hh
        · cases hh
          constructor
          · intro h
            refine ⟨by omega, rfl⟩
          · intro h
            refine ⟨by omega, rfl, ?_⟩
            rename_i hrem
            omega
    · rw [if_neg hb7] at hh
      by_cases hbf : b ≤ 0xbf
      · rw [if_pos hbf] at hh
        simp only at hh
        split at hh
        · cases hh
        · split at hh
          · cases hh
          · split at hh
            · cases hh
            · split at hh
              · cases hh
              · cases hh
                rename_i hlt _
                constructor
                · intro h; omega
                · intro h; omega
      · rw [if_neg hbf] at hh
        by_cases hf7 : b ≤ 0xf7
        · rw [if_pos hf7] at hh
          simp only at hh
          split at hh <;> simp at hh
        · rw [if_neg hf7] at hh
          simp only at hh
          split at hh
          · simp at hh
          · split at hh
            · simp at hh
            · split at hh
              · simp at hh
              · split at hh <;> simp at hh

theorem headerDecode_mid (b : Nat) (rest : List Nat) (h1 : 0x80 < b)
    (h2 : b ≤ 0xbf) (h3 : b ≠ 0xa0) :
    (∃ e, headerDecode (b :: rest) = .error e ∧ e ≠ RlpErr.panic) ∨
    (∃ pl hlen, headerDecode (b :: rest) = .ok (⟨false, pl⟩, hlen) ∧
      pl ≠ 0 ∧ pl ≠ 32) := by
  rw [headerDecode]
  rw [if_neg (by omega)]
  by_cases hb7 : b ≤ 0xb7
  · rw [if_pos hb7]
    simp only
    by_cases hpl1 : b - 0x80 = 1
    · rw [if_pos hpl1]
      cases rest with
      | nil => exact Or.inl ⟨.inputTooShort, rfl, by decide⟩
      | cons b2 tl =>
        simp only
        by_cases hb2 : b2 < 0x80
        · rw [if_pos hb2]
          exact Or.inl ⟨.nonCanonicalSingleByte, rfl, by decide⟩
        · rw [if_neg hb2, if_neg (by simp; omega)]
          exact Or.inr ⟨b - 0x80, 1, rfl, by omega, by omega⟩
    · rw [if_neg hpl1]
      by_cases hrem : rest.length < b - 0x80
      · rw [if_pos hrem]
        exact Or.inl ⟨.inputTooShort, rfl, by decide⟩
      · rw [if_neg hrem]
        exact Or.inr ⟨b - 0x80, 1, rfl, by omega, by omega⟩
  · rw [if_neg hb7, if_pos (by omega)]
    simp only
    by_cases hr1 : rest.length < b - 0xb7
    · rw [if_pos hr1]
      exact Or.inl ⟨.inputTooShort, rfl, by decide⟩
    · rw [if_neg hr1]
      by_cases hz : (rest.take (b - 0xb7)).headD 0 = 0
      · rw [if_pos hz]
        exact Or.inl ⟨.leadingZero, rfl, by decide⟩
      · rw [if_neg hz]
        by_cases hsz : bytesToNat (rest.take (b - 0xb7)) < 56
        · rw [if_pos hsz]
          exact Or.inl ⟨.nonCanonicalSize, rfl, by decide⟩
        · rw [if_neg hsz]
          by_cases hr2 : (rest.drop (b - 0xb7)).length <
              bytesToNat (rest.take (b - 0xb7))
          · rw [if_pos hr2]
            exact Or.inl ⟨.inputTooShort, rfl, by decide⟩
          · rw [if_neg hr2]
            exact Or.inr ⟨_, _, rfl, by omega, by omega⟩

theorem decode_blinded_32 (c rest : List Nat) (hc : c.length = 32) :
    decodeTN (0xa0 :: (c ++ rest)) = .ok (.blinded c, rest) := by
  have hbuf : headerDecode (0xa0 :: (c ++ rest)) = .ok (⟨false, 32⟩, 1) := by
    rw [headerDecode]
    rw [if_neg (by omega), if_pos (by omega)]
    simp only
    rw [if_neg (by omega), if_neg (by simp [hc])]
  have hb256 : b256Decode (0xa0 :: (c ++ rest)) = .ok (c, rest) := by
    rw [b256Decode]
    simp only [hbuf, bind, Except.bind]
    norm_num
    constructor
    · rw [← hc]
      exact List.take_left c rest
    · rw [← hc]
      exact List.drop_left c rest
  unfold decodeTN
  rw [decodeTrieNode]
  simp only [hbuf, hb256]
  norm_num

theorem decode_empty_byte (rest : List Nat) :
    decodeTN (0x80 :: rest) = .ok (.empty, rest) := by
  have hbuf : headerDecode (0x80 :: rest) = .ok (⟨false, 0⟩, 1) := by
    rw [headerDecode]
    norm_num
  unfold decodeTN
  rw [decodeTrieNode]
  simp only [hbuf]
  norm_num

theorem decode_single_byte (b : Nat) (rest : List Nat) (hb : b < 0x80) :
    decodeTN (b :: rest) = .error .unexpectedLength := by
  have hbuf : headerDecode (b :: rest) = .ok (⟨false, 1⟩, 0) := by
    rw [headerDecode]
    rw [if_pos (by omega)]
  unfold decodeTN
  rw [decodeTrieNode]
  simp only [hbuf]
  norm_num

theorem decode_other_string (b : Nat) (rest : List Nat) (h1 : 0x80 < b)
    (h2 : b ≤ 0xbf) (h3 : b ≠ 0xa0) :
    ∃ e, decodeTN (b :: rest) = .error e ∧ e ≠ RlpErr.panic := by
  rcases headerDecode_mid b rest h1 h2 h3 with ⟨e, he, hep⟩ |
    ⟨pl, hlen, hok, hpl0, hpl32⟩
  · refine ⟨e, ?_, hep⟩
    unfold decodeTN
    rw [decodeTrieNode]
    simp only [he]
  · refine ⟨.unexpectedLength, ?_, by decide⟩
    unfold decodeTN
    rw [decodeTrieNode]
    simp only [hok]
    rw [if_neg (by simp)]
    rw [if_neg hpl0, if_neg hpl32]

theorem decodeLeafExt_bad_nibble (fuel : Nat) (buf : List Nat) (p0 : Nat)
    (ptail buf1 : List Nat)
    (hbd : bytesDecode buf = .ok (p0 :: ptail, buf1)) (h4 : 4 ≤ p0 / 16) :
    decodeLeafExt fuel buf = .error .invalidNodeType := by
  rw [decodeLeafExt, hbd]
  simp only
  rw [if_neg (by omega), if_neg (by omega)]

theorem decodeLeafExt_dispatch (fuel : Nat) (buf : List Nat) (p0 : Nat)
    (ptail buf1 : List Nat) (node : TrieNode) (rest2 : List Nat)
    (hbd : bytesDecode buf = .ok (p0 :: ptail, buf1))
    (hde : decodeLeafExt fuel buf = .ok (node, rest2)) :
    p0 / 16 < 4 ∧
    ((p0 / 16 = 0 ∨ p0 / 16 = 1) ↔ ∃ pfx child, node = .ext pfx child) ∧
    ((p0 / 16 = 2 ∨ p0 / 16 = 3) ↔ ∃ pfx value, node = .leaf pfx value) ∧
    (∀ pfx child, node = .ext pfx child → pfx.length % 2 = p0 / 16 % 2) ∧
    (∀ pfx value, node = .leaf pfx value → pfx.length % 2 = p0 / 16 % 2) := by
  rw [decodeLeafExt, hbd] at hde
  simp only at hde
  by_cases h13 : p0 / 16 = 1 ∨ p0 / 16 = 3
  · rw [if_pos h13] at hde
    by_cases h1 : p0 / 16 = 1
    · rw [if_pos h1] at hde
      rcases hd : decodeTrieNode fuel buf1 with e | ⟨child, b2⟩ <;>
        rw [hd] at hde
      · cases hde
      · cases hde
        refine ⟨by omega, ?_, ?_, ?_, ?_⟩
        · exact ⟨fun _ => ⟨_, _, rfl⟩, fun _ => Or.inr h1⟩
        · constructor
          · intro hor; omega
          · rintro ⟨pfx, v, hn⟩; cases hn
        · rintro pfx child2 hn
          injection hn with h5 h6
          subst h5
          simp [unpackPathToNibbles, unpackNibbles_length, h1]
          omega
        · rintro pfx v hn; cases hn
    · have h3 : p0 / 16 = 3 := by
        rcases h13 with h | h
        · exact absurd h h1
        · exact h
      rw [if_neg h1] at hde
      rcases hd : bytesDecode buf1 with e | ⟨v, b2⟩ <;> rw [hd] at hde
      · cases hde
      · cases hde
        refine ⟨by omega, ?_, ?_, ?_, ?_⟩
        · constructor
          · intro hor; omega
          · rintro ⟨pfx, c, hn⟩; cases hn
        · exact ⟨fun _ => ⟨_, _, rfl⟩, fun _ => Or.inr h3⟩
        · rintro pfx c hn; cases hn
        · rintro pfx v2 hn
          injection hn with h5 h6
          subst h5
          simp [unpackPathToNibbles, unpackNibbles_length, h3]
          omega
  · rw [if_neg h13] at hde
    by_cases h02 : p0 / 16 = 0 ∨ p0 / 16 = 2
    · rw [if_pos h02] at hde
      by_cases h0 : p0 / 16 = 0
      · rw [if_pos h0] at hde
        rcases hd : decodeTrieNode fuel buf1 with e | ⟨child, b2⟩ <;>
          rw [hd] at hde
        · cases hde
        · cases hde
          refine ⟨by omega, ?_, ?_, ?_, ?_⟩
          · exact ⟨fun _ => ⟨_, _, rfl⟩, fun _ => Or.inl h0⟩
          · constructor
            · intro hor; omega
            · rintro ⟨pfx, v, hn⟩; cases hn
          · rintro pfx child2 hn
            injection hn with h5 h6
            subst h5
            simp [unpackPathToNibbles, unpackNibbles_length, h0]
          · rintro pfx v hn; cases hn
      · have h2 : p0 / 16 = 2 := by
          rcases h02 with h | h
          · exact absurd h h0
          · exact h
        rw [if_neg h0] at hde
        rcases hd : bytesDecode buf1 with e | ⟨v, b2⟩ <;> rw [hd] at hde
        · cases hde
        · cases hde
          refine ⟨by omega, ?_, ?_, ?_, ?_⟩
          · constructor
            · intro hor; omega
            · rintro ⟨pfx, c, hn⟩; cases hn
          · exact ⟨fun _ => ⟨_, _, rfl⟩, fun _ => Or.inl h2⟩
          · rintro pfx c hn; cases hn
          · rintro pfx v2 hn
            injection hn with h5 h6
            subst h5
            simp [unpackPathToNibbles, unpackNibbles_length, h2]
    · rw [if_neg h02] at hde
      cases hde

theorem decodeTN_inv (buf : List Nat) (node : TrieNode) (rest2 : List Nat)
    (h : decodeTN buf = .ok (node, rest2)) :
    match node with
    | .branch _ => rlpListElementLength buf = .ok 17
    | .leaf _ _ => rlpListElementLength buf = .ok 2
    | .ext _ _ => rlpListElementLength buf = .ok 2
    | .blinded c => c.length = 32 ∧ buf.take 33 = 0xa0 :: c
    | .empty => buf.take 1 = [0x80] := by
  unfold decodeTN at h
  rw [decodeTrieNode] at h
  split at h
  · cases h
  · rename_i hd hlen hh
    split at h
    · rename_i hisl
      split at h
      · cases h
      · rename_i count hcount
        split at h
        · rename_i c17
          split at h
          · cases h
          · rename_i nodes b2 hvec
            cases h
            simp only
            rw [hcount, c17]
        · rename_i c17
          split at h
          · rename_i c2
            split at h
            · rename_i r hde
              obtain ⟨n1, r1⟩ := r
              cases h
              rcases decodeLeafExt_shape _ _ _ _ hde with ⟨p, c, hn⟩ |
                ⟨p, v, hn⟩ <;> subst hn <;> simp only <;> rw [hcount, c2]
            · cases h
            · cases h
          · cases h
    · rename_i hisl
      split at h
      · rename_i p0
        cases h
        simp only
        cases buf with
        | nil => rw [headerDecode] at hh; cases hh
        | cons b tl =>
          obtain ⟨isl, pl⟩ := hd
          simp only at hisl
          simp only [hisl] at hh p0
          obtain ⟨hb0, hl1⟩ := (headerDecode_string_inv b tl pl hlen hh).1 p0
          subst hb0
          rfl
      · rename_i p0
        split at h
        · rename_i p32
          split at h
          · cases h
          · rename_i c b2 hb
            cases h
            simp only
            cases buf with
            | nil => rw [headerDecode] at hh; cases hh
            | cons b tl =>
              obtain ⟨isl, pl⟩ := hd
              simp only at hisl p32
              simp only [hisl] at hh
              obtain ⟨hb0, hl1, h32⟩ :=
                (headerDecode_string_inv b tl pl hlen hh).2 p32
              subst hb0
              subst hl1
              rw [b256Decode] at hb
              simp only [hh, bind, Except.bind, p32] at hb
              norm_num at hb
              obtain ⟨hc, _⟩ := hb
              subst hc
              constructor
              · rw [List.length_take]
                omega
              · simp only [List.take_succ_cons, List.drop_one]
        · cases h

/-! ### C1: order and sorted-list lemmas -/

theorem lexLt_irrefl : ∀ a : List Nat, lexLt a a = false
  | [] => rfl
  | x :: xs => by simp [lexLt, lexLt_irrefl xs]

theorem lexLt_ne {a b : List Nat} (h : lexLt a b = true) : a ≠ b := by
  intro he
  subst he
  rw [lexLt_irrefl] at h
  cases h

theorem lexLt_cons (x : Nat) (a b : List Nat) :
    lexLt (x :: a) (x :: b) = lexLt a b := by
  simp [lexLt]

theorem lexLt_append : ∀ (c a b : List Nat),
    lexLt (c ++ a) (c ++ b) = lexLt a b
  | [], _, _ => rfl
  | x :: cs, a, b => by simp [lexLt, lexLt_append cs a b]

theorem lexLt_trichotomy : ∀ a b : List Nat,
    a = b ∨ lexLt a b = true ∨ lexLt b a = true
  | [], [] => Or.inl rfl
  | [], _ :: _ => Or.inr (Or.inl rfl)
  | _ :: _, [] => Or.inr (Or.inr rfl)
  | a :: as', b :: bs => by
      rcases Nat.lt_trichotomy a b with h | h | h
      · right; left; simp [lexLt, h]
      · subst h
        rcases lexLt_trichotomy as' bs with h2 | h2 | h2
        · left; rw [h2]
        · right; left; rw [lexLt_cons]; exact h2
        · right; right; rw [lexLt_cons]; exact h2
      · right; right; simp [lexLt, h]

theorem lexLt_trans : ∀ (a b c : List Nat), lexLt a b = true →
    lexLt b c = true → lexLt a c = true
  | [], [], _, h1, _ => by cases h1
  | [], _ :: _, [], _, h2 => by cases h2
  | [], _ :: _, _ :: _, _, _ => rfl
  | _ :: _, [], _, h1, _ => by cases h1
  | _ :: _, _ :: _, [], _, h2 => by cases h2
  | a :: as', b :: bs, c :: cs, h1, h2 => by
      simp only [lexLt] at h1 h2 ⊢
      split at h1
      · rename_i hab
        split at h2
        · rename_i hbc
          rw [if_pos (by omega)]
        · split at h2
          · cases h2
          · rename_i hbc hcb
            have hbc2 : b = c := by omega
            subst hbc2
            rw [if_pos hab]
      · split at h1
        · cases h1
        · rename_i hab hba
          have hab2 : a = b := by omega
          subst hab2
          split at h2
          · rename_i hac
            rw [if_pos hac]
          · split at h2
            · cases h2
            · rename_i hac hca
              have hac2 : a = c := by omega
              subst hac2
              rw [if_neg (by omega), if_neg (by omega)]
              exact lexLt_trans as' bs cs h1 h2

theorem mem_insertSorted : ∀ (S : List (List Nat × List Nat)) (p v e),
    e ∈ insertSorted S p v → e = (p, v) ∨ e ∈ S
  | [], p, v, e, h => by
      simp only [insertSorted, List.mem_singleton] at h
      exact Or.inl h
  | (k, w) :: rest, p, v, e, h => by
      simp only [insertSorted] at h
      by_cases hpk : p = k
      · rw [if_pos hpk] at h
        rcases List.mem_cons.1 h with h | h
        · exact Or.inl h
        · exact Or.inr (List.mem_cons_of_mem _ h)
      · rw [if_neg hpk] at h
        by_cases hlt : lexLt p k = true
        · rw [if_pos hlt] at h
          rcases List.mem_cons.1 h with h | h
          · exact Or.inl h
          · exact Or.inr h
        · rw [if_neg hlt] at h
          rcases List.mem_cons.1 h with h | h
          · exact Or.inr (by simp [h])
          · rcases mem_insertSorted rest p v e h with h | h
            · exact Or.inl h
            · exact Or.inr (List.mem_cons_of_mem _ h)

theorem keys_insertSorted : ∀ (S : List (List Nat × List Nat)) (p v q),
    q ∈ (insertSorted S p v).map Prod.fst ↔ q = p ∨ q ∈ S.map Prod.fst
  | [], p, v, q => by simp [insertSorted]
  | (k, w) :: rest, p, v, q => by
      simp only [insertSorted]
      by_cases hpk : p = k
      · subst hpk
        rw [if_pos rfl]
        simp only [List.map_cons, List.mem_cons]
        constructor
        · rintro (h | h)
          · exact Or.inl h
          · exact Or.inr (Or.inr h)
        · rintro (h | h | h)
          · exact Or.inl h
          · exact Or.inl h
          · exact Or.inr h
      · rw [if_neg hpk]
        by_cases hlt : lexLt p k = true
        · rw [if_pos hlt]
          simp only [List.map_cons, List.mem_cons]
        · rw [if_neg hlt]
          simp only [List.map_cons, List.mem_cons]
          rw [keys_insertSorted rest p v q]
          tauto

theorem ukeys_insertSorted (m : Nat) (S : List (List Nat × List Nat))
    (p v : List Nat) (hU : UKeys m S) (hp : p.length = m)
    (hpn : ∀ x ∈ p, x < 16) : UKeys m (insertSorted S p v) := by
  intro e he
  rcases mem_insertSorted S p v e he with h | h
  · subst h
    exact ⟨hp, hpn⟩
  · exact hU e h

theorem skeys_insertSorted : ∀ (S : List (List Nat × List Nat)) (p v),
    SKeys S → SKeys (insertSorted S p v)
  | [], p, v, _ => by simp [SKeys, insertSorted]
  | (k, w) :: rest, p, v, hS => by
      simp only [SKeys, List.map_cons, List.pairwise_cons] at hS
      simp only [insertSorted]
      by_cases hpk : p = k
      · subst hpk
        rw [if_pos rfl]
        simp only [SKeys, List.map_cons, List.pairwise_cons]
        exact hS
      · rw [if_neg hpk]
        by_cases hlt : lexLt p k = true
        · rw [if_pos hlt]
          simp only [SKeys, List.map_cons, List.pairwise_cons]
          refine ⟨?_, hS⟩
          intro q hq
          rcases List.mem_cons.1 hq with h | h
          · subst h
            exact hlt
          · exact lexLt_trans p k q hlt (hS.1 q h)
        · rw [if_neg hlt]
          simp only [SKeys, List.map_cons, List.pairwise_cons]
          constructor
          · intro q hq
            rw [List.mem_map] at hq
            obtain ⟨e, he, hqe⟩ := hq
            subst hqe
            rcases mem_insertSorted rest p v e he with h | h
            · subst h
              rcases lexLt_trichotomy p k with h | h | h
              · exact absurd h hpk
              · exact absurd h hlt
              · exact h
            · exact hS.1 e.1 (List.mem_map_of_mem Prod.fst h)
          · exact skeys_insertSorted rest p v hS.2

theorem keys_removeKey (S : List (List Nat × List Nat)) (p q : List Nat) :
    q ∈ (removeKey S p).map Prod.fst ↔ q ∈ S.map Prod.fst ∧ q ≠ p := by
  simp only [removeKey, List.mem_map]
  constructor
  · rintro ⟨e, he, hq⟩
    subst hq
    have h1 := List.mem_of_mem_filter he
    have h2 := List.of_mem_filter he
    simp only [decide_eq_true_eq] at h2
    exact ⟨⟨e, h1, rfl⟩, h2⟩
  · rintro ⟨⟨e, he, hq⟩, hne⟩
    subst hq
    exact ⟨e, List.mem_filter.2 ⟨he, by simpa using hne⟩, rfl⟩

theorem mem_removeKey (S : List (List Nat × List Nat)) (p : List Nat) (e)
    (h : e ∈ removeKey S p) : e ∈ S ∧ e.1 ≠ p :=
  ⟨List.mem_of_mem_filter h, by simpa using List.of_mem_filter h⟩

theorem ukeys_removeKey (m : Nat) (S : List (List Nat × List Nat))
    (p : List Nat) (hU : UKeys m S) : UKeys m (removeKey S p) :=
  fun e he => hU e (mem_removeKey S p e he).1

theorem skeys_removeKey (S : List (List Nat × List Nat)) (p : List Nat)
    (hS : SKeys S) : SKeys (removeKey S p) := by
  have hsub : (removeKey S p).map Prod.fst |>.Sublist (S.map Prod.fst) :=
    (List.filter_sublist S).map Prod.fst
  exact List.Pairwise.sublist hsub hS

theorem take_commonPfxLen_eq : ∀ a b : List Nat,
    a.take (commonPfxLen a b) = b.take (commonPfxLen a b)
  | [], _ => by simp [commonPfxLen]
  | _ :: _, [] => by simp [commonPfxLen]
  | a :: as', b :: bs => by
      by_cases h : a = b
      · subst h
        simp [commonPfxLen, take_commonPfxLen_eq as' bs]
      · simp [commonPfxLen, h]

theorem le_commonPfxLen_of_take : ∀ (a b : List Nat) (j : Nat),
    a.take j = b.take j → j ≤ a.length → j ≤ commonPfxLen a b
  | _, _, 0, _, _ => Nat.zero_le _
  | [], _, j + 1, _, hj => by simp at hj
  | _ :: _, [], j + 1, ht, hj => by simp at ht
  | a :: as', b :: bs, j + 1, ht, hj => by
      simp only [List.take_succ_cons, List.cons.injEq] at ht
      simp only [List.length_cons] at hj
      rw [commonPfxLen, if_pos ht.1]
      exact Nat.succ_le_succ
        (le_commonPfxLen_of_take as' bs j ht.2 (by omega))

theorem length_le_of_take_eq {k c : List Nat}
    (h : k.take c.length = c) : c.length ≤ k.length := by
  have h2 := congrArg List.length h
  simp only [List.length_take] at h2
  omega

theorem take_add_of_take_eq {k c : List Nat}
    (h : k.take c.length = c) (n : Nat) :
    k.take (c.length + n) = c ++ (k.drop c.length).take n := by
  conv_lhs => rw [← List.take_append_drop c.length k]
  rw [List.take_append_eq_append_take, h, List.take_all_of_le (by omega)]
  congr 2
  have h2 := congrArg List.length h
  simp only [List.length_take] at h2
  omega

theorem drop_of_take_eq {k c : List Nat}
    (h : k.take c.length = c) : k = c ++ k.drop c.length := by
  conv_lhs => rw [← List.take_append_drop c.length k]
  rw [h]

theorem lcpList_isPref : ∀ (ks : List (List Nat)), ∀ k ∈ ks,
    k.take (lcpList ks).length = lcpList ks
  | [], k, hk => absurd hk (List.not_mem_nil k)
  | [k0], k, hk => by
      rcases List.mem_singleton.1 hk with rfl
      simp [lcpList]
  | k0 :: k1 :: ks, k, hk => by
      rw [lcpList]
      have hR := lcpList_isPref (k1 :: ks)
      set R := lcpList (k1 :: ks) with hRdef
      set j := commonPfxLen k0 R with hjdef
      have hjk : j ≤ k0.length := commonPfxLen_le_left k0 R
      have hjR : j ≤ R.length := commonPfxLen_le_right k0 R
      have hlen : (k0.take j).length = j := by
        simp [List.length_take]
        omega
      rw [hlen]
      rcases List.mem_cons.1 hk with rfl | hk2
      · simp [List.take_take]
      · have hkR : k.take R.length = R := hR k hk2
        have h1 : k.take j = R.take j := by
          have h2 : (k.take R.length).take j = k.take j := by
            rw [List.take_take]
            congr 1
            omega
          rw [hkR] at h2
          exact h2.symm
        rw [h1, ← take_commonPfxLen_eq k0 R]

theorem lcpList_maximal : ∀ (ks : List (List Nat)) (c : List Nat),
    ks ≠ [] → (∀ k ∈ ks, k.take c.length = c) →
    c.length ≤ (lcpList ks).length
  | [], _, hne, _ => absurd rfl hne
  | [k0], c, _, hc => by
      rw [lcpList]
      exact length_le_of_take_eq (hc k0 (List.mem_singleton.2 rfl))
  | k0 :: k1 :: ks, c, _, hc => by
      rw [lcpList]
      have hR := lcpList_isPref (k1 :: ks)
      set R := lcpList (k1 :: ks) with hRdef
      have hcR : c.length ≤ R.length :=
        lcpList_maximal (k1 :: ks) c (by simp)
          (fun k hk => hc k (List.mem_cons_of_mem _ hk))
      have hck0 : k0.take c.length = c := hc k0 (List.mem_cons_self _ _)
      have hcRp : R.take c.length = c := by
        have h1 : k1.take R.length = R := hR k1 (List.mem_cons_self _ _)
        have h2 : k1.take c.length = c := hc k1 (by simp)
        rw [← h1, List.take_take, Nat.min_eq_left hcR, h2]
      have hj : c.length ≤ commonPfxLen k0 R := by
        apply le_commonPfxLen_of_take
        · rw [hck0, hcRp]
        · exact length_le_of_take_eq hck0
      have hjk : commonPfxLen k0 R ≤ k0.length := commonPfxLen_le_left k0 R
      simp [List.length_take]
      omega

theorem lcpList_eq (ks : List (List Nat)) (c : List Nat) (hne : ks ≠ [])
    (hpre : ∀ k ∈ ks, k.take c.length = c)
    (hmax : ∀ c2 : List Nat, (∀ k ∈ ks, k.take c2.length = c2) →
      c2.length ≤ c.length) :
    lcpList ks = c := by
  have h1 : c.length ≤ (lcpList ks).length := lcpList_maximal ks c hne hpre
  have h2 : (lcpList ks).length ≤ c.length :=
    hmax (lcpList ks) (lcpList_isPref ks)
  obtain ⟨k0, hk0⟩ := List.exists_mem_of_ne_nil ks hne
  have e1 := lcpList_isPref ks k0 hk0
  have e2 := hpre k0 hk0
  have h3 : (lcpList ks).length = c.length := le_antisymm h2 h1
  rw [← e1, ← e2, h3]

theorem lcpList_shared (ks : List (List Nat)) (c : List Nat) (hne : ks ≠ [])
    (hc : ∀ k ∈ ks, k.take c.length = c) :
    lcpList ks = c ++ lcpList (ks.map (List.drop c.length)) := by
  have hmne : ks.map (List.drop c.length) ≠ [] := by
    simpa using hne
  set D := lcpList (ks.map (List.drop c.length)) with hD
  apply lcpList_eq ks _ hne
  · intro k hk
    have h1 : (k.drop c.length).take D.length = D :=
      lcpList_isPref _ _ (List.mem_map_of_mem _ hk)
    have h2 := take_add_of_take_eq (hc k hk) D.length
    rw [h1] at h2
    simpa [List.length_append] using h2
  · intro c2 hc2
    by_cases hlen : c2.length ≤ c.length
    · simp only [List.length_append]
      omega
    · have hstep : ∀ k ∈ ks, (k.drop c.length).take (c2.length - c.length) =
          c2.drop c.length := by
        intro k hk
        rw [← List.drop_take c2.length c.length k, hc2 k hk]
      have hD2 : c2.length - c.length ≤ D.length := by
        have := lcpList_maximal (ks.map (List.drop c.length))
          (c2.drop c.length) hmne ?_
        · simpa using this
        · intro d hd
          rw [List.mem_map] at hd
          obtain ⟨k, hk, rfl⟩ := hd
          have h3 := hstep k hk
          have hle : c2.length - c.length = (c2.drop c.length).length := by
            simp
          rwa [← hle]
      simp only [List.length_append]
      omega

theorem lcpList_nil_of_head_ne (ks : List (List Nat)) (k1 k2 : List Nat)
    (h1 : k1 ∈ ks) (h2 : k2 ∈ ks)
    (hne : k1.headD 17 ≠ k2.headD 17) : lcpList ks = [] := by
  by_contra h
  obtain ⟨x, xs, hl⟩ := List.exists_cons_of_ne_nil h
  have e1 := lcpList_isPref ks k1 h1
  have e2 := lcpList_isPref ks k2 h2
  rw [hl] at e1 e2
  cases k1 with
  | nil => simp at e1
  | cons a t =>
      cases k2 with
      | nil => simp at e2
      | cons b u =>
          simp only [List.length_cons, List.take_succ_cons,
            List.cons.injEq] at e1 e2
          apply hne
          simp [e1.1, e2.1]

theorem lexLt_asymm {a b : List Nat} (h : lexLt a b = true) :
    lexLt b a = false := by
  by_contra h2
  rw [Bool.not_eq_false] at h2
  have h3 := lexLt_trans a b a h h2
  rw [lexLt_irrefl] at h3
  cases h3

theorem insertSorted_prepend : ∀ (G : List (List Nat × List Nat))
    (p v : List Nat), (∀ e ∈ G, lexLt p e.1 = true) →
    insertSorted G p v = (p, v) :: G
  | [], _, _, _ => rfl
  | (k, w) :: rest, p, v, h => by
      have h1 : lexLt p k = true := h (k, w) (by simp)
      rw [insertSorted, if_neg (lexLt_ne h1), if_pos h1]

theorem lexLt_tail_of_head_eq {a b : List Nat} (ha : a ≠ []) (hb : b ≠ [])
    (hh : a.headD 17 = b.headD 17) (h : lexLt a b = true) :
    lexLt a.tail b.tail = true := by
  cases a with
  | nil => exact absurd rfl ha
  | cons x xs =>
      cases b with
      | nil => exact absurd rfl hb
      | cons y ys =>
          simp only [List.headD_cons] at hh
          subst hh
          rwa [lexLt_cons] at h

theorem tail_ne_of_ne {a b : List Nat} (ha : a ≠ []) (hb : b ≠ [])
    (hh : a.headD 17 = b.headD 17) (h : a ≠ b) : a.tail ≠ b.tail := by
  cases a with
  | nil => exact absurd rfl ha
  | cons x xs =>
      cases b with
      | nil => exact absurd rfl hb
      | cons y ys =>
          simp only [List.headD_cons] at hh
          subst hh
          simp only [List.tail_cons]
          intro he
          exact h (by rw [he])

theorem group_nil (i : Nat) : group [] i = [] := rfl

theorem group_cons (e : List Nat × List Nat)
    (S : List (List Nat × List Nat)) (i : Nat) :
    group (e :: S) i =
      if e.1.headD 17 = i then (e.1.tail, e.2) :: group S i
      else group S i := by
  simp only [group, List.filter_cons]
  by_cases hd : e.1.headD 17 = i
  · rw [if_pos (by simpa using hd), if_pos hd]
    rfl
  · rw [if_neg (by simpa using hd), if_neg hd]

theorem removeKey_nil (p : List Nat) : removeKey [] p = [] := rfl

theorem removeKey_cons (e : List Nat × List Nat)
    (S : List (List Nat × List Nat)) (p : List Nat) :
    removeKey (e :: S) p =
      if e.1 = p then removeKey S p else e :: removeKey S p := by
  simp only [removeKey, List.filter_cons]
  by_cases h : e.1 = p
  · rw [if_neg (by simp [h]), if_pos h]
  · rw [if_pos (by simpa using h), if_neg h]

theorem stripKeys_nil (j : Nat) : stripKeys j [] = [] := rfl

theorem stripKeys_cons (j : Nat) (e : List Nat × List Nat)
    (S : List (List Nat × List Nat)) :
    stripKeys j (e :: S) = (e.1.drop j, e.2) :: stripKeys j S := rfl

theorem mem_group (S : List (List Nat × List Nat)) (i : Nat) (e2) :
    e2 ∈ group S i ↔
      ∃ e ∈ S, e.1.headD 17 = i ∧ e2 = (e.1.tail, e.2) := by
  simp only [group, List.mem_map, List.mem_filter, decide_eq_true_eq]
  constructor
  · rintro ⟨e, ⟨he, hh⟩, rfl⟩
    exact ⟨e, he, hh, rfl⟩
  · rintro ⟨e, he, hh, rfl⟩
    exact ⟨e, ⟨he, hh⟩, rfl⟩

theorem group_eq_nil (S : List (List Nat × List Nat)) (i : Nat) :
    group S i = [] ↔ ∀ e ∈ S, e.1.headD 17 ≠ i := by
  constructor
  · intro h e he hh
    have hm : (e.1.tail, e.2) ∈ group S i :=
      (mem_group S i _).2 ⟨e, he, hh, rfl⟩
    rw [h] at hm
    cases hm
  · intro h
    rcases hg : group S i with g0 | ⟨e2, rest⟩
    · rfl
    · have hm : e2 ∈ group S i := by rw [hg]; simp
      obtain ⟨e, he, hh, _⟩ := (mem_group S i e2).1 hm
      exact absurd hh (h e he)

theorem keys_group (S : List (List Nat × List Nat)) (i : Nat) (q : List Nat) :
    q ∈ (group S i).map Prod.fst ↔
      ∃ k ∈ S.map Prod.fst, k.headD 17 = i ∧ q = k.tail := by
  simp only [List.mem_map]
  constructor
  · rintro ⟨e2, hm, rfl⟩
    obtain ⟨e, he, hh, rfl⟩ := (mem_group S i e2).1 hm
    exact ⟨e.1, ⟨e, he, rfl⟩, hh, rfl⟩
  · rintro ⟨k, ⟨e, he, rfl⟩, hh, rfl⟩
    exact ⟨(e.1.tail, e.2), (mem_group S i _).2 ⟨e, he, hh, rfl⟩, rfl⟩

theorem ukeys_group (m : Nat) (S : List (List Nat × List Nat)) (i : Nat)
    (hU : UKeys (m + 1) S) : UKeys m (group S i) := by
  intro e2 he2
  obtain ⟨e, he, _, rfl⟩ := (mem_group S i e2).1 he2
  obtain ⟨hlen, hnib⟩ := hU e he
  constructor
  · cases he1 : e.1 with
    | nil => rw [he1] at hlen; simp at hlen
    | cons x xs =>
        rw [he1] at hlen
        simp only [List.length_cons] at hlen
        simp [he1]
        omega
  · intro x hx
    exact hnib x (List.mem_of_mem_tail hx)

theorem skeys_group : ∀ (S : List (List Nat × List Nat)) (i : Nat),
    (∀ e ∈ S, e.1 ≠ []) → SKeys S → SKeys (group S i)
  | [], _, _, _ => by simp [SKeys, group]
  | (k, w) :: rest, i, hne, hS => by
      have hSrest : SKeys rest := by
        simp only [SKeys, List.map_cons, List.pairwise_cons] at hS
        exact hS.2
      have hSk : ∀ q ∈ rest.map Prod.fst, lexLt k q = true := by
        simp only [SKeys, List.map_cons, List.pairwise_cons] at hS
        exact hS.1
      have ihg := skeys_group rest i (fun e he => hne e (by simp [he])) hSrest
      rw [group_cons]
      by_cases hd : k.headD 17 = i
      · rw [if_pos hd]
        simp only [SKeys, List.map_cons, List.pairwise_cons]
        constructor
        · intro q hq
          rw [List.mem_map] at hq
          obtain ⟨e2, hm, rfl⟩ := hq
          obtain ⟨e, he, hh, rfl⟩ := (mem_group rest i e2).1 hm
          exact lexLt_tail_of_head_eq (hne (k, w) (by simp))
            (hne e (by simp [he])) (by rw [hd, hh])
            (hSk e.1 (List.mem_map_of_mem Prod.fst he))
        · exact ihg
      · rw [if_neg hd]
        exact ihg

theorem group_insertSorted : ∀ (S : List (List Nat × List Nat))
    (p v : List Nat) (i : Nat), (∀ e ∈ S, e.1 ≠ []) → p ≠ [] → SKeys S →
    group (insertSorted S p v) i =
      if p.headD 17 = i then insertSorted (group S i) p.tail v
      else group S i
  | [], p, v, i, _, hp, _ => by
      rw [insertSorted, group_cons, group_nil]
      by_cases hd : p.headD 17 = i
      · rw [if_pos hd, if_pos hd]
        rfl
      · rw [if_neg hd, if_neg hd]
  | (k, w) :: rest, p, v, i, hne, hp, hS => by
      have hkne : k ≠ [] := hne (k, w) (by simp)
      have hSrest : SKeys rest := by
        simp only [SKeys, List.map_cons, List.pairwise_cons] at hS
        exact hS.2
      have hSk : ∀ q ∈ rest.map Prod.fst, lexLt k q = true := by
        simp only [SKeys, List.map_cons, List.pairwise_cons] at hS
        exact hS.1
      rw [insertSorted]
      by_cases hpk : p = k
      · subst hpk
        rw [if_pos rfl]
        rw [group_cons, group_cons]
        by_cases hd : p.headD 17 = i
        · rw [if_pos hd, if_pos hd, if_pos hd]
          rw [insertSorted, if_pos rfl]
        · rw [if_neg hd, if_neg hd, if_neg hd]
      · rw [if_neg hpk]
        by_cases hlt : lexLt p k = true
        · rw [if_pos hlt]
          rw [group_cons]
          by_cases hd : p.headD 17 = i
          · rw [if_pos hd, if_pos hd]
            rw [insertSorted_prepend]
            intro e2 hm
            obtain ⟨e, he, hh, rfl⟩ :=
              (mem_group ((k, w) :: rest) i e2).1 hm
            have hlt2 : lexLt p e.1 = true := by
              rcases List.mem_cons.1 he with rfl | he2
              · exact hlt
              · exact lexLt_trans p k e.1 hlt
                  (hSk e.1 (List.mem_map_of_mem Prod.fst he2))
            exact lexLt_tail_of_head_eq hp (hne e he)
              (by rw [hd, hh]) hlt2
          · rw [if_neg hd, if_neg hd]
        · rw [if_neg hlt]
          have ih := group_insertSorted rest p v i
            (fun e he => hne e (by simp [he])) hp hSrest
          rw [group_cons, group_cons]
          by_cases hd : p.headD 17 = i
          · rw [if_pos hd] at ih ⊢
            by_cases hkd : k.headD 17 = i
            · rw [if_pos hkd, if_pos hkd, ih]
              have hlt2 : lexLt k p = true := by
                rcases lexLt_trichotomy p k with h | h | h
                · exact absurd h hpk
                · exact absurd h hlt
                · exact h
              conv_rhs => rw [insertSorted]
              rw [if_neg (Ne.symm (tail_ne_of_ne hkne hp
                (by rw [hkd, hd]) (fun he => hpk he.symm)))]
              rw [if_neg (by
                rw [lexLt_asymm (lexLt_tail_of_head_eq hkne hp
                  (by rw [hkd, hd]) hlt2)]
                simp)]
            · rw [if_neg hkd, if_neg hkd, ih]
          · rw [if_neg hd] at ih ⊢
            by_cases hkd : k.headD 17 = i
            · rw [if_pos hkd, if_pos hkd, ih]
            · rw [if_neg hkd, if_neg hkd, ih]

theorem group_removeKey : ∀ (S : List (List Nat × List Nat))
    (p : List Nat) (i : Nat), (∀ e ∈ S, e.1 ≠ []) → p ≠ [] →
    group (removeKey S p) i =
      if p.headD 17 = i then removeKey (group S i) p.tail else group S i
  | [], p, i, _, _ => by
      rw [removeKey_nil, group_nil]
      by_cases hd : p.headD 17 = i
      · rw [if_pos hd]
        rfl
      · rw [if_neg hd]
  | (k, w) :: rest, p, i, hne, hp => by
      have hkne : k ≠ [] := hne (k, w) (by simp)
      have ih := group_removeKey rest p i
        (fun e he => hne e (by simp [he])) hp
      rw [removeKey_cons, group_cons]
      by_cases hpk : k = p
      · rw [if_pos hpk]
        by_cases hd : p.headD 17 = i
        · rw [if_pos hd] at ih ⊢
          rw [if_pos (by rw [hpk, hd]), removeKey_cons]
          rw [if_pos (by rw [hpk]), ih]
        · rw [if_neg hd] at ih ⊢
          rw [if_neg (by rw [hpk]; exact hd), ih]
      · rw [if_neg hpk]
        by_cases hd : p.headD 17 = i
        · rw [if_pos hd] at ih ⊢
          by_cases hkd : k.headD 17 = i
          · rw [if_pos hkd, group_cons, if_pos hkd, removeKey_cons]
            rw [if_neg (tail_ne_of_ne hkne hp (by rw [hkd, hd]) hpk), ih]
          · rw [if_neg hkd, group_cons, if_neg hkd, ih]
        · rw [if_neg hd] at ih ⊢
          by_cases hkd : k.headD 17 = i
          · rw [if_pos hkd, group_cons, if_pos hkd, ih]
          · rw [if_neg hkd, group_cons, if_neg hkd, ih]

theorem stripKeys_zero (S : List (List Nat × List Nat)) :
    stripKeys 0 S = S := by
  simp [stripKeys]

theorem stripKeys_stripKeys (i j : Nat) (S : List (List Nat × List Nat)) :
    stripKeys j (stripKeys i S) = stripKeys (i + j) S := by
  simp only [stripKeys, List.map_map]
  apply List.map_congr_left
  intro e _
  simp only [Function.comp_apply, List.drop_drop, Nat.add_comm]

theorem group_of_all_head (S : List (List Nat × List Nat)) (i : Nat)
    (h : ∀ e ∈ S, e.1.headD 17 = i) : group S i = stripKeys 1 S := by
  unfold group stripKeys
  rw [List.filter_eq_self.2 (by
    intro e he
    simpa using h e he)]
  apply List.map_congr_left
  intro e _
  rw [← List.drop_one]

theorem lexLt_drop (a b : List Nat) (j : Nat) (h : a.take j = b.take j) :
    lexLt (a.drop j) (b.drop j) = lexLt a b := by
  conv_rhs => rw [← List.take_append_drop j a, ← List.take_append_drop j b]
  rw [h, lexLt_append]

theorem eq_of_drop_eq {a b : List Nat} {j : Nat} (h : a.take j = b.take j)
    (h2 : a.drop j = b.drop j) : a = b := by
  rw [← List.take_append_drop j a, ← List.take_append_drop j b, h, h2]

theorem strip_insertSorted : ∀ (S : List (List Nat × List Nat))
    (p v : List Nat) (j : Nat), (∀ e ∈ S, e.1.take j = p.take j) →
    stripKeys j (insertSorted S p v) =
      insertSorted (stripKeys j S) (p.drop j) v
  | [], p, v, j, _ => by
      rw [insertSorted, stripKeys_nil, stripKeys_cons, stripKeys_nil,
        insertSorted]
  | (k, w) :: rest, p, v, j, hc => by
      have hck : k.take j = p.take j := hc (k, w) (by simp)
      have hdropeq : ¬ p = k → ¬ (p.drop j = k.drop j) := by
        intro hpk he
        exact hpk (eq_of_drop_eq hck.symm he)
      rw [insertSorted, stripKeys_cons]
      conv_rhs => rw [insertSorted]
      by_cases hpk : p = k
      · rw [if_pos hpk, if_pos (by rw [hpk]), stripKeys_cons]
      · rw [if_neg hpk, if_neg (hdropeq hpk)]
        by_cases hlt : lexLt p k = true
        · rw [if_pos hlt,
            if_pos (by rw [lexLt_drop p k j hck.symm]; exact hlt)]
          rw [stripKeys_cons, stripKeys_cons]
        · rw [if_neg hlt,
            if_neg (by rw [lexLt_drop p k j hck.symm]; exact hlt)]
          rw [stripKeys_cons]
          rw [strip_insertSorted rest p v j (fun e he => hc e (by simp [he]))]

theorem strip_removeKey : ∀ (S : List (List Nat × List Nat))
    (p : List Nat) (j : Nat), (∀ e ∈ S, e.1.take j = p.take j) →
    stripKeys j (removeKey S p) = removeKey (stripKeys j S) (p.drop j)
  | [], p, j, _ => by
      rw [removeKey_nil, stripKeys_nil, removeKey_nil]
  | (k, w) :: rest, p, j, hc => by
      have hck : k.take j = p.take j := hc (k, w) (by simp)
      have ih := strip_removeKey rest p j (fun e he => hc e (by simp [he]))
      rw [removeKey_cons, stripKeys_cons, removeKey_cons]
      by_cases hpk : k = p
      · rw [if_pos hpk, if_pos (by rw [hpk]), ih]
      · rw [if_neg hpk,
          if_neg (show ¬ (k.drop j = p.drop j) from
            fun he => hpk (eq_of_drop_eq hck he))]
        rw [stripKeys_cons, ih]

theorem ukeys_stripKeys (m j : Nat) (S : List (List Nat × List Nat))
    (hU : UKeys m S) : UKeys (m - j) (stripKeys j S) := by
  intro e2 he2
  simp only [stripKeys, List.mem_map] at he2
  obtain ⟨e, he, rfl⟩ := he2
  obtain ⟨hlen, hnib⟩ := hU e he
  refine ⟨by simp [hlen], ?_⟩
  intro x hx
  exact hnib x (List.mem_of_mem_drop hx)

theorem skeys_stripKeys : ∀ (S : List (List Nat × List Nat)) (j : Nat)
    (p : List Nat), (∀ e ∈ S, e.1.take j = p.take j) → SKeys S →
    SKeys (stripKeys j S)
  | [], _, _, _, _ => by simp [SKeys, stripKeys]
  | (k, w) :: rest, j, p, hc, hS => by
      have hSrest : SKeys rest := by
        simp only [SKeys, List.map_cons, List.pairwise_cons] at hS
        exact hS.2
      have hSk : ∀ q ∈ rest.map Prod.fst, lexLt k q = true := by
        simp only [SKeys, List.map_cons, List.pairwise_cons] at hS
        exact hS.1
      have ih := skeys_stripKeys rest j p
        (fun e he => hc e (by simp [he])) hSrest
      rw [stripKeys_cons]
      simp only [SKeys, List.map_cons, List.pairwise_cons]
      constructor
      · intro q hq
        simp only [stripKeys, List.map_map, List.mem_map,
          Function.comp_apply] at hq
        obtain ⟨e, he, rfl⟩ := hq
        rw [lexLt_drop k e.1 j (by
          rw [hc (k, w) (by simp), hc e (by simp [he])])]
        exact hSk e.1 (List.mem_map_of_mem Prod.fst he)
      · exact ih

theorem mem_stripKeys (j : Nat) (S : List (List Nat × List Nat)) (e2) :
    e2 ∈ stripKeys j S ↔ ∃ e ∈ S, e2 = (e.1.drop j, e.2) := by
  simp only [stripKeys, List.mem_map]
  constructor
  · rintro ⟨e, he, rfl⟩
    exact ⟨e, he, rfl⟩
  · rintro ⟨e, he, rfl⟩
    exact ⟨e, he, rfl⟩


theorem canon_nil (m : Nat) : canon m [] = .empty := by
  rw [canon]

theorem canon_singleton (m : Nat) (e : List Nat × List Nat) :
    canon m [e] = .leaf e.1 e.2 := by
  rw [canon]

theorem canonB_def (mc : Nat) (S : List (List Nat × List Nat)) :
    canonB mc S =
      .branch ((List.range 17).map (fun i => canon mc (group S i))) := by
  rw [canonB]

theorem canon_ge2 (m : Nat) (S : List (List Nat × List Nat))
    (h2 : 2 ≤ S.length) :
    canon (m + 1) S =
      if lcpList (S.map Prod.fst) = [] then canonB m S
      else
        .ext (lcpList (S.map Prod.fst))
          (canonB (m - (lcpList (S.map Prod.fst)).length)
            (stripKeys (lcpList (S.map Prod.fst)).length S)) := by
  rcases S with _ | ⟨e1, S1⟩
  · simp at h2
  rcases S1 with _ | ⟨e2, S2⟩
  · simp at h2
  rw [canon]

theorem two_keys_of_ge2 (S : List (List Nat × List Nat)) (hS : SKeys S)
    (h2 : 2 ≤ S.length) :
    ∃ k1 k2, k1 ∈ S.map Prod.fst ∧ k2 ∈ S.map Prod.fst ∧ k1 ≠ k2 := by
  rcases S with _ | ⟨e1, _ | ⟨e2, S2⟩⟩
  · simp at h2
  · simp at h2
  · refine ⟨e1.1, e2.1, by simp, by simp, ?_⟩
    simp only [SKeys, List.map_cons, List.pairwise_cons] at hS
    exact lexLt_ne (hS.1 e2.1 (by simp))

theorem ukeys_pos (m : Nat) (S : List (List Nat × List Nat))
    (hU : UKeys m S) (hS : SKeys S) (h2 : 2 ≤ S.length) : 1 ≤ m := by
  obtain ⟨k1, k2, h1, h2m, hne⟩ := two_keys_of_ge2 S hS h2
  rw [List.mem_map] at h1 h2m
  obtain ⟨e1, he1, rfl⟩ := h1
  obtain ⟨e2, he2, rfl⟩ := h2m
  by_contra h
  have hl1 := (hU e1 he1).1
  have hl2 := (hU e2 he2).1
  have hz : m = 0 := by omega
  rw [hz] at hl1 hl2
  rw [List.length_eq_zero] at hl1 hl2
  rw [hl1, hl2] at hne
  exact hne rfl

theorem canon_not_blinded (m : Nat) (S : List (List Nat × List Nat))
    (c : List Nat) : canon m S ≠ .blinded c := by
  rcases S with _ | ⟨e1, _ | ⟨e2, S2⟩⟩
  · rw [canon_nil]
    intro h
    cases h
  · rw [canon_singleton]
    intro h
    cases h
  · cases m with
    | zero =>
        rw [canon]
        intro h
        cases h
    | succ m0 =>
        rw [canon_ge2 m0 _ (by simp)]
        split
        · rw [canonB_def]
          intro h
          cases h
        · intro h
          cases h

theorem canon_empty_iff (m : Nat) (S : List (List Nat × List Nat))
    (hU : UKeys m S) (hS : SKeys S) :
    canon m S = .empty ↔ S = [] := by
  constructor
  · intro h
    rcases S with _ | ⟨e1, _ | ⟨e2, S2⟩⟩
    · rfl
    · rw [canon_singleton] at h
      cases h
    · have hm := ukeys_pos m _ hU hS (by simp)
      obtain ⟨m0, rfl⟩ : ∃ m0, m = m0 + 1 := ⟨m - 1, by omega⟩
      rw [canon_ge2 m0 _ (by simp)] at h
      split at h
      · rw [canonB_def] at h
        cases h
      · cases h
  · intro h
    subst h
    exact canon_nil m

theorem getElem?_range_map (f : Nat → TrieNode) (j : Nat) (hj : j < 17) :
    ((List.range 17).map f)[j]? = some (f j) := by
  rw [List.getElem?_map, List.getElem?_range hj]
  rfl

theorem map_range_set (f : Nat → TrieNode) (j : Nat) (c : TrieNode)
    (hj : j < 17) :
    ((List.range 17).map f).set j c =
      (List.range 17).map (fun i => if i = j then c else f i) := by
  apply List.ext_getElem?
  intro i
  by_cases hi : i < 17
  · by_cases hij : i = j
    · subst hij
      rw [List.getElem?_set_eq (by simp; omega), getElem?_range_map _ _ hi,
        if_pos rfl]
    · rw [List.getElem?_set_ne (fun h => hij h.symm),
        getElem?_range_map _ _ hi, getElem?_range_map _ _ hi]
      rw [if_neg hij]
  · rw [List.getElem?_eq_none (by simp; omega),
      List.getElem?_eq_none (by simp; omega)]

theorem map_range_congr (f g : Nat → TrieNode)
    (h : ∀ i < 17, f i = g i) :
    (List.range 17).map f = (List.range 17).map g := by
  apply List.map_congr_left
  intro i hi
  exact h i (List.mem_range.1 hi)

theorem enumFrom_succ_map : ∀ (l : List TrieNode) (n : Nat),
    List.enumFrom (n + 1) l =
      (List.enumFrom n l).map (fun p => (p.1 + 1, p.2))
  | [], _ => rfl
  | t :: rest, n => by
      rw [List.enumFrom_cons, List.enumFrom_cons, List.map_cons,
        enumFrom_succ_map rest (n + 1)]

theorem nonEmptyIdx_cons (t : TrieNode) (rest : List TrieNode) :
    nonEmptyIdx (t :: rest) =
      (if t.isEmptyN then [] else [(0, t)]) ++
        (nonEmptyIdx rest).map (fun p => (p.1 + 1, p.2)) := by
  unfold nonEmptyIdx
  rw [List.enum_cons, List.filter_cons]
  have hshift : List.filter (fun p => !p.2.isEmptyN)
      (List.enumFrom 1 rest) =
      (List.filter (fun p => !p.2.isEmptyN) rest.enum).map
        (fun p => (p.1 + 1, p.2)) := by
    rw [show (1 : Nat) = 0 + 1 from rfl, enumFrom_succ_map]
    rw [List.filter_map]
    rfl
  by_cases ht : t.isEmptyN
  · rw [if_neg (by simp [ht]), if_pos ht, List.nil_append, hshift]
  · rw [if_pos (by simp [ht]), if_neg ht, List.cons_append,
      List.nil_append, hshift]

theorem nonEmptyIdx_nil_of_all_empty : ∀ (stack : List TrieNode),
    (∀ j, j < stack.length → stack[j]? = some .empty) →
    nonEmptyIdx stack = []
  | [], _ => rfl
  | t :: rest, h => by
      have h0 : t = .empty := by
        have := h 0 (by simp)
        simpa using this
      subst h0
      rw [nonEmptyIdx_cons,
        if_pos (show TrieNode.isEmptyN .empty = true from rfl),
        List.nil_append,
        nonEmptyIdx_nil_of_all_empty rest (fun j hj => by
          have := h (j + 1) (by simp; omega)
          simpa using this)]
      rfl

theorem nonEmptyIdx_of_unique : ∀ (stack : List TrieNode) (i0 : Nat)
    (c : TrieNode), stack[i0]? = some c → c ≠ .empty →
    (∀ j, j < stack.length → j ≠ i0 → stack[j]? = some .empty) →
    nonEmptyIdx stack = [(i0, c)]
  | [], i0, c, hc, _, _ => by simp at hc
  | t :: rest, 0, c, hc, hcne, hothers => by
      have ht : t = c := by simpa using hc
      subst ht
      rw [nonEmptyIdx_cons,
        if_neg (by
          rw [Bool.not_eq_true, isEmptyN_eq_false_iff]
          exact hcne)]
      rw [nonEmptyIdx_nil_of_all_empty rest (fun j hj => by
        have := hothers (j + 1) (by simp; omega) (by omega)
        simpa using this)]
      rfl
  | t :: rest, i0 + 1, c, hc, hcne, hothers => by
      have ht : t = .empty := by
        have := hothers 0 (by simp) (by omega)
        simpa using this
      subst ht
      rw [nonEmptyIdx_cons,
        if_pos (show TrieNode.isEmptyN .empty = true from rfl),
        List.nil_append]
      rw [nonEmptyIdx_of_unique rest i0 c (by simpa using hc) hcne
        (fun j hj hji => by
          have := hothers (j + 1) (by simp; omega) (by omega)
          simpa using this)]
      rfl

theorem collapse_branch_catchall (f : Fetcher) (fuel : Nat)
    (stack : List TrieNode)
    (h : ∀ i c, nonEmptyIdx stack ≠ [(i, c)]) :
    collapseIfPossible f fuel (.branch stack) = .ok (.branch stack, []) := by
  rw [collapseIfPossible]
  split
  · rename_i i c heq
    exact absurd heq (h i c)
  · rfl

theorem collapse_branch_single_leaf (f : Fetcher) (fuel : Nat)
    (stack : List TrieNode) (i : Nat) (cpfx cv : List Nat)
    (heq : nonEmptyIdx stack = [(i, .leaf cpfx cv)]) :
    collapseIfPossible f fuel (.branch stack) =
      .ok (.leaf (i :: cpfx) cv, []) := by
  rw [collapseIfPossible]
  split
  · rename_i i2 c2 heq2
    rw [heq] at heq2
    simp only [List.cons.injEq, Prod.mk.injEq] at heq2
    obtain ⟨⟨rfl, rfl⟩, _⟩ := heq2
    rfl
  · rename_i hne
    exact absurd heq (hne i _)

theorem collapse_branch_single_ext (f : Fetcher) (fuel : Nat)
    (stack : List TrieNode) (i : Nat) (cpfx : List Nat) (cnode : TrieNode)
    (heq : nonEmptyIdx stack = [(i, .ext cpfx cnode)]) :
    collapseIfPossible f fuel (.branch stack) =
      .ok (.ext (i :: cpfx) cnode, []) := by
  rw [collapseIfPossible]
  split
  · rename_i i2 c2 heq2
    rw [heq] at heq2
    simp only [List.cons.injEq, Prod.mk.injEq] at heq2
    obtain ⟨⟨rfl, rfl⟩, _⟩ := heq2
    rfl
  · rename_i hne
    exact absurd heq (hne i _)

theorem collapse_branch_single_branch (f : Fetcher) (fuel : Nat)
    (stack : List TrieNode) (i : Nat) (bs : List TrieNode)
    (heq : nonEmptyIdx stack = [(i, .branch bs)]) :
    collapseIfPossible f fuel (.branch stack) =
      .ok (.ext [i] (.branch bs), []) := by
  rw [collapseIfPossible]
  split
  · rename_i i2 c2 heq2
    rw [heq] at heq2
    simp only [List.cons.injEq, Prod.mk.injEq] at heq2
    obtain ⟨⟨rfl, rfl⟩, _⟩ := heq2
    rfl
  · rename_i hne
    exact absurd heq (hne i _)

theorem commonPfxLen_comm : ∀ a b : List Nat,
    commonPfxLen a b = commonPfxLen b a
  | [], [] => rfl
  | [], _ :: _ => rfl
  | _ :: _, [] => rfl
  | a :: as', b :: bs => by
      by_cases h : a = b
      · subst h
        simp [commonPfxLen, commonPfxLen_comm as' bs]
      · simp only [commonPfxLen, if_neg h,
          if_neg (show ¬ b = a from fun he => h he.symm)]

theorem keysNe (m : Nat) (S : List (List Nat × List Nat))
    (hU : UKeys m S) (hm : 1 ≤ m) : ∀ e ∈ S, e.1 ≠ [] := by
  intro e he hnil
  have h2 := (hU e he).1
  rw [hnil] at h2
  simp at h2
  omega

theorem getElem?_of_take_eq {k u : List Nat} {j i : Nat}
    (h : k.take j = u) (hi : i < j) : k[i]? = u[i]? := by
  rw [← h, List.getElem?_take, if_pos hi]

theorem keys_stripKeys_eq (j : Nat) (S : List (List Nat × List Nat)) :
    (stripKeys j S).map Prod.fst = (S.map Prod.fst).map (List.drop j) := by
  simp only [stripKeys, List.map_map]
  rfl

theorem lcp_of_strip (S : List (List Nat × List Nat)) (j : Nat)
    (hne : S ≠ []) (hj : j ≤ (lcpList (S.map Prod.fst)).length) :
    lcpList ((stripKeys j S).map Prod.fst) =
      (lcpList (S.map Prod.fst)).drop j := by
  have hkne : S.map Prod.fst ≠ [] := by simpa using hne
  set cp := lcpList (S.map Prod.fst) with hcp
  have hlen : (cp.take j).length = j := by
    rw [List.length_take]
    omega
  have hfact := lcpList_shared (S.map Prod.fst) (cp.take j) hkne (by
    intro k hk
    have hpre := lcpList_isPref (S.map Prod.fst) k hk
    rw [← hcp] at hpre
    rw [hlen, ← hpre, List.take_take, Nat.min_eq_left (by omega)])
  rw [hlen] at hfact
  rw [keys_stripKeys_eq]
  calc lcpList ((S.map Prod.fst).map (List.drop j)) =
      (cp.take j ++ lcpList ((S.map Prod.fst).map (List.drop j))).drop j := by
        conv_lhs => rw [← List.drop_left (cp.take j)
          (lcpList ((S.map Prod.fst).map (List.drop j)))]
        rw [hlen]
    _ = cp.drop j := by rw [← hfact]

theorem head_ne_of_lcp_nil (S : List (List Nat × List Nat))
    (hkne : ∀ e ∈ S, e.1 ≠ []) (h2 : 2 ≤ S.length)
    (hl : lcpList (S.map Prod.fst) = []) :
    ∃ k1 k2, k1 ∈ S.map Prod.fst ∧ k2 ∈ S.map Prod.fst ∧
      k1.headD 17 ≠ k2.headD 17 := by
  by_contra h
  push_neg at h
  rcases S with _ | ⟨e0, S1⟩
  · simp at h2
  have hxe : ∀ k ∈ (e0 :: S1).map Prod.fst, k.take 1 = [e0.1.headD 17] := by
    intro k hk
    have hkh : k.headD 17 = e0.1.headD 17 :=
      h k e0.1 hk (by simp)
    cases hknil : k with
    | nil =>
        rw [List.mem_map] at hk
        obtain ⟨e, he, rfl⟩ := hk
        exact absurd hknil (hkne e he)
    | cons x xs =>
        rw [hknil] at hkh
        simp only [List.headD_cons] at hkh
        simp [hkh]
  have hmax := lcpList_maximal ((e0 :: S1).map Prod.fst)
    [e0.1.headD 17] (by simp) (by simpa using hxe)
  rw [hl] at hmax
  simp at hmax

theorem lcp_length_lt (m : Nat) (S : List (List Nat × List Nat))
    (hU : UKeys m S) (hS : SKeys S) (h2 : 2 ≤ S.length) :
    (lcpList (S.map Prod.fst)).length < m := by
  obtain ⟨k1, k2, h1m, h2m, hne⟩ := two_keys_of_ge2 S hS h2
  have hp1 := lcpList_isPref (S.map Prod.fst) k1 h1m
  have hp2 := lcpList_isPref (S.map Prod.fst) k2 h2m
  rw [List.mem_map] at h1m h2m
  obtain ⟨e1, he1, rfl⟩ := h1m
  obtain ⟨e2, he2, rfl⟩ := h2m
  have hl1 := (hU e1 he1).1
  have hl2 := (hU e2 he2).1
  by_contra h
  push_neg at h
  have hle1 : (lcpList (S.map Prod.fst)).length ≤ e1.1.length :=
    length_le_of_take_eq hp1
  have hmeq : (lcpList (S.map Prod.fst)).length = m := by omega
  have he1eq : lcpList (S.map Prod.fst) = e1.1 := by
    rw [← hp1, hmeq, ← hl1, List.take_length]
  have he2eq : lcpList (S.map Prod.fst) = e2.1 := by
    rw [← hp2, hmeq, ← hl2, List.take_length]
  exact hne (by rw [← he1eq, ← he2eq])

theorem nibbles_lcp (m : Nat) (S : List (List Nat × List Nat))
    (hU : UKeys m S) (hne : S ≠ []) :
    ∀ x ∈ lcpList (S.map Prod.fst), x < 16 := by
  obtain ⟨e0, he0⟩ := List.exists_mem_of_ne_nil S hne
  have hp := lcpList_isPref (S.map Prod.fst) e0.1
    (List.mem_map_of_mem Prod.fst he0)
  intro x hx
  rw [← hp] at hx
  exact (hU e0 he0).2 x (List.mem_of_mem_take hx)

theorem insertSorted_length : ∀ (S : List (List Nat × List Nat))
    (p v : List Nat), S.length ≤ (insertSorted S p v).length
  | [], _, _ => by simp [insertSorted]
  | (k, w) :: rest, p, v => by
      rw [insertSorted]
      by_cases hpk : p = k
      · rw [if_pos hpk]
        simp
      · rw [if_neg hpk]
        by_cases hlt : lexLt p k = true
        · rw [if_pos hlt]
          simp only [List.length_cons]
          omega
        · rw [if_neg hlt]
          have := insertSorted_length rest p v
          simp only [List.length_cons]
          omega

theorem canonB_two_slot (mc : Nat) (S : List (List Nat × List Nat))
    (en bn : Nat) (A B : TrieNode) (hen : en < 17) (hbn : bn < 17)
    (hne : en ≠ bn) (hA : canon mc (group S en) = A)
    (hB : canon mc (group S bn) = B)
    (hothers : ∀ i, i < 17 → i ≠ en → i ≠ bn → group S i = []) :
    canonB mc S = .branch ((emptyStack.set en A).set bn B) := by
  rw [canonB_def]
  have hes : emptyStack = (List.range 17).map (fun _ => .empty) := rfl
  rw [hes, map_range_set _ en A hen, map_range_set _ bn B hbn]
  congr 1
  apply map_range_congr
  intro i hi
  by_cases hib : i = bn
  · subst hib
    rw [if_pos rfl, hB]
  · rw [if_neg hib]
    by_cases hie : i = en
    · subst hie
      rw [if_pos rfl, hA]
    · rw [if_neg hie, hothers i hi hie hib, canon_nil]

theorem canon_strip_shared (mS : Nat) (S : List (List Nat × List Nat))
    (j : Nat) (hU : UKeys mS S) (hS : SKeys S) (h2 : 2 ≤ S.length)
    (hj : j ≤ (lcpList (S.map Prod.fst)).length) :
    canon (mS - j) (stripKeys j S) =
      if j = (lcpList (S.map Prod.fst)).length then
        canonB (mS - (lcpList (S.map Prod.fst)).length - 1)
          (stripKeys (lcpList (S.map Prod.fst)).length S)
      else
        .ext ((lcpList (S.map Prod.fst)).drop j)
          (canonB (mS - (lcpList (S.map Prod.fst)).length - 1)
            (stripKeys (lcpList (S.map Prod.fst)).length S)) := by
  have hne : S ≠ [] := by
    intro h
    rw [h] at h2
    simp at h2
  set cp := lcpList (S.map Prod.fst) with hcp
  have hcplt : cp.length < mS := lcp_length_lt mS S hU hS h2
  have hlen2 : (stripKeys j S).length = S.length := by simp [stripKeys]
  have hstrip2 : 2 ≤ (stripKeys j S).length := by omega
  obtain ⟨md, hmd⟩ : ∃ md, mS - j = md + 1 := ⟨mS - j - 1, by omega⟩
  rw [hmd]
  rw [canon_ge2 md _ hstrip2]
  have hlcpstrip : lcpList ((stripKeys j S).map Prod.fst) = cp.drop j :=
    lcp_of_strip S j hne (by rw [← hcp]; omega)
  rw [hlcpstrip]
  by_cases hjcp : j = cp.length
  · rw [if_pos hjcp]
    subst hjcp
    rw [if_pos (by simp)]
    congr 1
    omega
  · rw [if_neg hjcp]
    rw [if_neg (by
      intro h
      have h2 := congrArg List.length h
      simp at h2
      omega)]
    rw [stripKeys_stripKeys,
      show md - (cp.drop j).length = mS - cp.length - 1 by
        simp only [List.length_drop]
        omega,
      show j + (cp.drop j).length = cp.length by
        simp only [List.length_drop]
        omega]

theorem insertNode_branch_some (f : Fetcher) (fuel : Nat)
    (stack : List TrieNode) (n : Nat) (rest v : List Nat)
    (child : TrieNode) (h : stack[n]? = some child) :
    insertNode f fuel (.branch stack) (n :: rest) v =
      (insertNode f fuel child rest v).map
        (fun c2 => .branch (stack.set n c2)) := by
  rw [insertNode]
  split
  · rename_i heq
    rw [heq] at h
    cases h
  · rename_i c2 heq
    rw [heq] at h
    cases h
    rfl

theorem canon_two (m0 : Nat) (p v k w : List Nat)
    (hp : p.length = m0 + 1) (hk : k.length = m0 + 1) (hne : p ≠ k)
    (hpn : ∀ x ∈ p, x < 16) (hkn : ∀ x ∈ k, x < 16)
    (en bn : Nat) (hen : k[commonPfxLen p k]? = some en)
    (hbn : p[commonPfxLen p k]? = some bn)
    (S2 : List (List Nat × List Nat))
    (hS2 : S2 = [(p, v), (k, w)] ∨ S2 = [(k, w), (p, v)]) :
    canon (m0 + 1) S2 =
      if commonPfxLen p k = 0 then
        .branch ((emptyStack.set en
          (.leaf (k.drop (commonPfxLen p k + 1)) w)).set bn
          (.leaf (p.drop (commonPfxLen p k + 1)) v))
      else
        .ext (p.take (commonPfxLen p k))
          (.branch ((emptyStack.set en
            (.leaf (k.drop (commonPfxLen p k + 1)) w)).set bn
            (.leaf (p.drop (commonPfxLen p k + 1)) v))) := by
  set sh := commonPfxLen p k with hsh
  have hshlt : sh < p.length := commonPfxLen_lt_of_ne p k (by omega) hne
  have hshk : sh < k.length := by omega
  obtain ⟨hbl, hbv⟩ := List.getElem?_eq_some_iff.1 hbn
  obtain ⟨hel, hev⟩ := List.getElem?_eq_some_iff.1 hen
  have hpd : p.drop sh = bn :: p.drop (sh + 1) := by
    rw [List.drop_eq_getElem_cons hshlt, hbv]
  have hkd : k.drop sh = en :: k.drop (sh + 1) := by
    rw [List.drop_eq_getElem_cons hshk, hev]
  have henbn : bn ≠ en := getElem?_ne_of_commonPfxLen p k bn en hbn hen
  have hen16 : en < 16 := hkn en (List.getElem?_mem hen)
  have hbn16 : bn < 16 := hpn bn (List.getElem?_mem hbn)
  have htake : p.take sh = k.take sh := take_commonPfxLen_eq p k
  have hlcp : lcpList (S2.map Prod.fst) = p.take sh := by
    rcases hS2 with rfl | rfl
    · simp only [List.map_cons, List.map_nil]
      rw [lcpList, lcpList]
    · simp only [List.map_cons, List.map_nil]
      rw [lcpList, lcpList, commonPfxLen_comm k p, ← hsh, htake]
  have hW : stripKeys sh S2 = [(p.drop sh, v), (k.drop sh, w)] ∨
      stripKeys sh S2 = [(k.drop sh, w), (p.drop sh, v)] := by
    rcases hS2 with rfl | rfl
    · left
      rfl
    · right
      rfl
  have hgen : group (stripKeys sh S2) en = [(k.drop (sh + 1), w)] := by
    rcases hW with hw | hw <;>
      rw [hw, hpd, hkd, group_cons, group_cons, group_nil]
    · rw [if_neg (by simpa using henbn), if_pos (by simp)]
      simp
    · rw [if_pos (by simp), if_neg (by simpa using henbn)]
      simp
  have hgbn : group (stripKeys sh S2) bn = [(p.drop (sh + 1), v)] := by
    rcases hW with hw | hw <;>
      rw [hw, hpd, hkd, group_cons, group_cons, group_nil]
    · rw [if_pos (by simp), if_neg (by
        simpa using fun h => henbn h.symm)]
      simp
    · rw [if_neg (by simpa using fun h => henbn h.symm), if_pos (by simp)]
      simp
  have hgo : ∀ i, i ≠ en → i ≠ bn → group (stripKeys sh S2) i = [] := by
    intro i hie hib
    rw [group_eq_nil]
    intro e he
    rcases hW with hw | hw <;> rw [hw] at he <;>
      simp only [List.mem_cons, List.not_mem_nil, or_false] at he <;>
      rcases he with rfl | rfl <;>
      simp only [hpd, hkd, List.headD_cons]
    · exact fun h => hib h.symm
    · exact fun h => hie h.symm
    · exact fun h => hie h.symm
    · exact fun h => hib h.symm
  have h2 : 2 ≤ S2.length := by
    rcases hS2 with rfl | rfl <;> simp
  rw [canon_ge2 m0 S2 h2, hlcp]
  have hcb : canonB (m0 - sh) (stripKeys sh S2) =
      .branch ((emptyStack.set en (.leaf (k.drop (sh + 1)) w)).set bn
        (.leaf (p.drop (sh + 1)) v)) :=
    canonB_two_slot (m0 - sh) _ en bn _ _ (by omega) (by omega)
      (fun h => henbn h.symm)
      (by rw [hgen, canon_singleton]) (by rw [hgbn, canon_singleton])
      (fun i hi hie hib => hgo i hie hib)
  by_cases hz : sh = 0
  · rw [if_pos (show p.take sh = [] by rw [hz]; simp), if_pos hz]
    rw [hz]
    rw [hz, Nat.sub_zero, stripKeys_zero] at hcb
    exact hcb
  · rw [if_neg (by
      intro h
      have h3 := congrArg List.length h
      rw [List.length_take] at h3
      simp only [List.length_nil] at h3
      exact hz (by omega)), if_neg hz]
    have hlensh : (p.take sh).length = sh := by
      rw [List.length_take]
      omega
    rw [hlensh, hcb]

theorem insertNode_canon (f : Fetcher) :
    ∀ (m : Nat) (S : List (List Nat × List Nat)) (fuel : Nat)
      (p v : List Nat), UKeys m S → SKeys S → p.length = m →
      (∀ x ∈ p, x < 16) →
      insertNode f fuel (canon m S) p v =
        .ok (canon m (insertSorted S p v)) := by
  intro m
  induction m using Nat.strong_induction_on with
  | _ m IH =>
  intro S fuel p v hU hS hp hpn
  rcases S with _ | ⟨⟨k, w⟩, S1⟩
  · rw [canon_nil, insertNode, insertSorted, canon_singleton]
  rcases S1 with _ | ⟨e1, S2⟩
  · -- singleton leaf
    rw [canon_singleton]
    have hkl : k.length = m := (hU (k, w) (by simp)).1
    have hkn : ∀ x ∈ k, x < 16 := (hU (k, w) (by simp)).2
    by_cases hpk : p = k
    · rw [insertNode, if_pos hpk, insertSorted, if_pos hpk, canon_singleton]
      subst hpk
      rfl
    · have hm1 : 1 ≤ m := by
        by_contra h
        have hz : m = 0 := by omega
        rw [hz, List.length_eq_zero] at hp
        have hkz : k.length = 0 := by omega
        rw [List.length_eq_zero] at hkz
        rw [hp, hkz] at hpk
        exact hpk rfl
      obtain ⟨m0, rfl⟩ : ∃ m0, m = m0 + 1 := ⟨m - 1, by omega⟩
      set sh := commonPfxLen p k with hshdef
      have hshlt : sh < p.length := commonPfxLen_lt_of_ne p k (by omega) hpk
      have hshk : sh < k.length := by omega
      obtain ⟨en, hen⟩ : ∃ x, k[sh]? = some x :=
        ⟨_, List.getElem?_eq_getElem hshk⟩
      obtain ⟨bn, hbn⟩ : ∃ x, p[sh]? = some x :=
        ⟨_, List.getElem?_eq_getElem hshlt⟩
      have hen16 : en < 16 := hkn _ (List.getElem?_mem hen)
      have hbn16 : bn < 16 := hpn _ (List.getElem?_mem hbn)
      have hres : insertNode f fuel (.leaf k w) p v =
          .ok (if sh = 0 then
            .branch ((emptyStack.set en (.leaf (k.drop (sh + 1)) w)).set
              bn (.leaf (p.drop (sh + 1)) v))
          else
            .ext (p.take sh)
              (.branch ((emptyStack.set en
                (.leaf (k.drop (sh + 1)) w)).set bn
                (.leaf (p.drop (sh + 1)) v)))) := by
        rw [insertNode]
        simp only [if_neg hpk, ← hshdef, hen, hbn]
        rw [if_pos ⟨by omega, by omega⟩]
        split <;> simp
      rw [hres]
      have hins : insertSorted [(k, w)] p v = [(p, v), (k, w)] ∨
          insertSorted [(k, w)] p v = [(k, w), (p, v)] := by
        rw [insertSorted, if_neg hpk]
        by_cases hlt : lexLt p k = true
        · rw [if_pos hlt]
          left
          rfl
        · rw [if_neg hlt]
          right
          rfl
      have hc2 := canon_two m0 p v k w hp hkl hpk hpn hkn en bn
        (by rw [← hshdef]; exact hen) (by rw [← hshdef]; exact hbn)
        _ hins
      rw [← hshdef] at hc2
      rw [hc2]
  · -- at least two entries
    have h2 : 2 ≤ ((k, w) :: e1 :: S2).length := by simp
    generalize hSS : (k, w) :: e1 :: S2 = S0 at hU hS h2 ⊢
    have hm1 : 1 ≤ m := ukeys_pos m S0 hU hS h2
    obtain ⟨m0, rfl⟩ : ∃ m0, m = m0 + 1 := ⟨m - 1, by omega⟩
    have hS0ne : S0 ≠ [] := by
      intro h
      rw [h] at h2
      simp at h2
    set cp := lcpList (S0.map Prod.fst) with hcp
    have hcplt : cp.length < m0 + 1 := by
      rw [hcp]
      exact lcp_length_lt _ _ hU hS h2
    have hkne : ∀ e ∈ S0, e.1 ≠ [] := keysNe _ _ hU (by omega)
    have hpre : ∀ e ∈ S0, e.1.take cp.length = cp := by
      intro e he
      rw [hcp]
      exact lcpList_isPref _ _ (List.mem_map_of_mem Prod.fst he)
    have h2i : 2 ≤ (insertSorted S0 p v).length :=
      le_trans h2 (insertSorted_length S0 p v)
    rw [canon_ge2 m0 S0 h2, ← hcp]
    by_cases hcpnil : cp = []
    · -- branch at root
      rw [if_pos hcpnil]
      obtain ⟨p0, ptail, rfl⟩ : ∃ p0 ptail, p = p0 :: ptail := by
        cases p with
        | nil => simp at hp
        | cons a b => exact ⟨a, b, rfl⟩
      have hp016 : p0 < 16 := hpn p0 (by simp)
      rw [canonB_def]
      rw [insertNode_branch_some f fuel _ p0 ptail v _
        (getElem?_range_map _ p0 (by omega))]
      rw [IH m0 (by omega) (group S0 p0) fuel ptail v
        (ukeys_group m0 S0 p0 hU) (skeys_group S0 p0 hkne hS)
        (by simpa using hp) (fun x hx => hpn x (by simp [hx]))]
      simp only [Except.map]
      obtain ⟨q1, q2, hq1, hq2, hqne⟩ :=
        head_ne_of_lcp_nil S0 hkne h2 (by rw [← hcp]; exact hcpnil)
      have hlcpi : lcpList ((insertSorted S0 (p0 :: ptail) v).map
          Prod.fst) = [] :=
        lcpList_nil_of_head_ne _ q1 q2
          ((keys_insertSorted S0 (p0 :: ptail) v q1).2 (Or.inr hq1))
          ((keys_insertSorted S0 (p0 :: ptail) v q2).2 (Or.inr hq2)) hqne
      rw [canon_ge2 m0 _ h2i, if_pos hlcpi, canonB_def]
      congr 1
      rw [map_range_set _ p0 _ (by omega)]
      congr 1
      apply map_range_congr
      intro i hi
      rw [group_insertSorted S0 (p0 :: ptail) v i hkne (by simp) hS]
      by_cases hip : i = p0
      · subst hip
        rw [if_pos rfl, if_pos (by simp)]
        rfl
      · rw [if_neg hip, if_neg (by
          simp only [List.headD_cons]
          exact fun h => hip h.symm)]
    · rw [if_neg hcpnil]
      set sh := commonPfxLen p cp with hshdef
      -- stripped old set facts
      have hT2 : 2 ≤ (stripKeys cp.length S0).length := by
        have hl3 : (stripKeys cp.length S0).length = S0.length := by
          simp [stripKeys]
        omega
      have hlcpT : lcpList ((stripKeys cp.length S0).map Prod.fst) = [] := by
        have hls := lcp_of_strip S0 cp.length hS0ne (by rw [← hcp])
        rw [← hcp] at hls
        rw [hls]
        simp
      have hnodeeq : canonB (m0 - cp.length) (stripKeys cp.length S0) =
          canon (m0 - cp.length + 1) (stripKeys cp.length S0) := by
        rw [canon_ge2 _ _ hT2, if_pos hlcpT]
      by_cases hfull : sh = cp.length
      · -- descend through extension
        have htakecp : p.take cp.length = cp :=
          take_eq_of_commonPfxLen_right p cp (hshdef ▸ hfull)
        have hstripcommon : ∀ e ∈ S0, e.1.take cp.length = p.take cp.length := by
          intro e he
          rw [htakecp]
          exact hpre e he
        have hU' : UKeys (m0 - cp.length + 1) (stripKeys cp.length S0) := by
          have h3 := ukeys_stripKeys (m0 + 1) cp.length S0 hU
          rwa [show m0 + 1 - cp.length = m0 - cp.length + 1 by omega] at h3
        rw [insertNode]
        simp only [← hshdef, hfull, eq_self_iff_true, if_true]
        rw [hnodeeq]
        rw [IH (m0 - cp.length + 1) (by
            have hcl : 1 ≤ cp.length := by
              cases hcq : cp with
              | nil => exact absurd hcq hcpnil
              | cons a b => simp
            omega)
          (stripKeys cp.length S0) fuel (p.drop cp.length) v hU'
          (skeys_stripKeys S0 cp.length p hstripcommon hS)
          (by rw [List.length_drop]; omega)
          (fun x hx => hpn x (List.mem_of_mem_drop hx))]
        simp only [Except.map]
        -- right-hand side
        have hlcpi : lcpList ((insertSorted S0 p v).map Prod.fst) = cp := by
          apply lcpList_eq
          · simp only [ne_eq, List.map_eq_nil]
            intro h
            have h4 := congrArg List.length h
            simp only [List.length_nil] at h4
            omega
          · intro q hq
            rcases (keys_insertSorted S0 p v q).1 hq with rfl | hqS
            · exact htakecp
            · rw [List.mem_map] at hqS
              obtain ⟨e, he, rfl⟩ := hqS
              exact hpre e he
          · intro c2 hc2
            have hc2S : ∀ q ∈ S0.map Prod.fst, q.take c2.length = c2 := by
              intro q hq
              exact hc2 q ((keys_insertSorted S0 p v q).2 (Or.inr hq))
            have := lcpList_maximal (S0.map Prod.fst) c2
              (by simpa using hS0ne) (by simpa using hc2S)
            rw [← hcp] at this
            exact this
        rw [canon_ge2 m0 _ h2i, hlcpi, if_neg hcpnil]
        rw [strip_insertSorted S0 p v cp.length hstripcommon]
        have hT2i : 2 ≤ (insertSorted (stripKeys cp.length S0)
            (p.drop cp.length) v).length :=
          le_trans hT2 (insertSorted_length _ _ _)
        obtain ⟨q1, q2, hq1, hq2, hqne⟩ :=
          head_ne_of_lcp_nil (stripKeys cp.length S0)
            (by
              intro e he
              obtain ⟨e0, he0, rfl⟩ := (mem_stripKeys cp.length S0 e).1 he
              intro h3
              have h4 := congrArg List.length h3
              simp only [List.length_drop, List.length_nil] at h4
              have := (hU e0 he0).1
              omega) hT2 hlcpT
        have hlcpTi : lcpList ((insertSorted (stripKeys cp.length S0)
            (p.drop cp.length) v).map Prod.fst) = [] :=
          lcpList_nil_of_head_ne _ q1 q2
            ((keys_insertSorted _ _ _ q1).2 (Or.inr hq1))
            ((keys_insertSorted _ _ _ q2).2 (Or.inr hq2)) hqne
        rw [canon_ge2 _ _ hT2i, if_pos hlcpTi]
      · -- split the extension
        have hshle : sh ≤ cp.length := hshdef ▸ commonPfxLen_le_right p cp
        have hshlt2 : sh < cp.length := lt_of_le_of_ne hshle hfull
        have hshp : sh < p.length := by omega
        obtain ⟨en, hen⟩ : ∃ x, cp[sh]? = some x :=
          ⟨_, List.getElem?_eq_getElem hshlt2⟩
        obtain ⟨bn, hbn⟩ : ∃ x, p[sh]? = some x :=
          ⟨_, List.getElem?_eq_getElem hshp⟩
        have henbn : bn ≠ en := getElem?_ne_of_commonPfxLen p cp bn en hbn hen
        have hen16 : en < 16 := by
          have hmem : en ∈ cp := List.getElem?_mem hen
          have h3 := nibbles_lcp (m0 + 1) S0 hU hS0ne
          rw [← hcp] at h3
          exact h3 en hmem
        have hbn16 : bn < 16 := hpn _ (List.getElem?_mem hbn)
        obtain ⟨hbl, hbv⟩ := List.getElem?_eq_some_iff.1 hbn
        obtain ⟨hel, hev⟩ := List.getElem?_eq_some_iff.1 hen
        have hpd : p.drop sh = bn :: p.drop (sh + 1) := by
          rw [List.drop_eq_getElem_cons hshp, hbv]
        have hptake : p.take sh = cp.take sh := take_commonPfxLen_eq p cp
        have htakesh : ∀ e ∈ S0, e.1.take sh = p.take sh := by
          intro e he
          rw [hptake]
          have h3 := hpre e he
          rw [← h3, List.take_take, Nat.min_eq_left (by omega)]
        have hkeysh : ∀ e ∈ S0, (e.1.drop sh).headD 17 = en := by
          intro e he
          have hgse : e.1[sh]? = cp[sh]? := getElem?_of_take_eq (hpre e he) hshlt2
          rw [hen] at hgse
          obtain ⟨hgl, hgv⟩ := List.getElem?_eq_some_iff.1 hgse
          rw [List.drop_eq_getElem_cons hgl, hgv]
          simp
        -- left side
        have hres : insertNode f fuel
            (.ext cp (canonB (m0 - cp.length) (stripKeys cp.length S0))) p v =
            .ok (if sh = 0 then
              .branch ((emptyStack.set en
                (if (cp.drop (sh + 1)).isEmpty then
                  canonB (m0 - cp.length) (stripKeys cp.length S0)
                else .ext (cp.drop (sh + 1))
                  (canonB (m0 - cp.length) (stripKeys cp.length S0)))).set bn
                (.leaf (p.drop (sh + 1)) v))
            else
              .ext (p.take sh)
                (.branch ((emptyStack.set en
                  (if (cp.drop (sh + 1)).isEmpty then
                    canonB (m0 - cp.length) (stripKeys cp.length S0)
                  else .ext (cp.drop (sh + 1))
                    (canonB (m0 - cp.length) (stripKeys cp.length S0)))).set bn
                  (.leaf (p.drop (sh + 1)) v)))) := by
          rw [insertNode]
          simp only [← hshdef, if_neg hfull, hen, hbn]
          rw [if_pos ⟨by omega, by omega⟩]
          split <;> simp
        rw [hres]
        -- right side
        have hlcpi : lcpList ((insertSorted S0 p v).map Prod.fst) =
            p.take sh := by
          apply lcpList_eq
          · simp only [ne_eq, List.map_eq_nil]
            intro h
            have h4 := congrArg List.length h
            simp only [List.length_nil] at h4
            omega
          · intro q hq
            have hlen : (p.take sh).length = sh := by
              rw [List.length_take]
              omega
            rcases (keys_insertSorted S0 p v q).1 hq with rfl | hqS
            · rw [hlen]
            · rw [List.mem_map] at hqS
              obtain ⟨e, he, rfl⟩ := hqS
              rw [hlen]
              exact htakesh e he
          · intro c2 hc2
            by_contra hlong
            push_neg at hlong
            rw [List.length_take, Nat.min_eq_left (by omega)] at hlong
            have hc2p : p.take c2.length = c2 := hc2 p
              ((keys_insertSorted S0 p v p).2 (Or.inl rfl))
            obtain ⟨e0, he0⟩ := List.exists_mem_of_ne_nil S0 hS0ne
            have hc2e : e0.1.take c2.length = c2 := hc2 e0.1
              ((keys_insertSorted S0 p v e0.1).2
                (Or.inr (List.mem_map_of_mem Prod.fst he0)))
            have hb2 : p[sh]? = c2[sh]? := getElem?_of_take_eq hc2p hlong
            have he2 : e0.1[sh]? = c2[sh]? := getElem?_of_take_eq hc2e hlong
            have he3 : e0.1[sh]? = cp[sh]? :=
              getElem?_of_take_eq (hpre e0 he0) hshlt2
            rw [hbn] at hb2
            rw [hen] at he3
            rw [he3] at he2
            rw [← hb2] at he2
            cases he2
            exact henbn rfl
        rw [canon_ge2 m0 _ h2i, hlcpi]
        -- stripped inserted set
        have hW : stripKeys sh (insertSorted S0 p v) =
            insertSorted (stripKeys sh S0) (p.drop sh) v :=
          strip_insertSorted S0 p v sh htakesh
        have hkneT : ∀ e ∈ stripKeys sh S0, e.1 ≠ [] := by
          intro e he
          obtain ⟨e0, he0, rfl⟩ := (mem_stripKeys sh S0 e).1 he
          intro h3
          have h4 := congrArg List.length h3
          simp only [List.length_drop, List.length_nil] at h4
          have := (hU e0 he0).1
          omega
        have hST : SKeys (stripKeys sh S0) :=
          skeys_stripKeys S0 sh p htakesh hS
        have hgbn : group (stripKeys sh (insertSorted S0 p v)) bn =
            [(p.drop (sh + 1), v)] := by
          rw [hW, group_insertSorted (stripKeys sh S0) (p.drop sh) v bn
            hkneT (by
              intro h3
              have h4 := congrArg List.length h3
              simp only [List.length_drop, List.length_nil] at h4
              omega) hST]
          rw [if_pos (by rw [hpd]; simp)]
          rw [show group (stripKeys sh S0) bn = [] by
            rw [group_eq_nil]
            intro e he
            obtain ⟨e0, he0, rfl⟩ := (mem_stripKeys sh S0 e).1 he
            rw [hkeysh e0 he0]
            exact fun h3 => henbn h3.symm]
          rw [insertSorted, hpd]
          simp
        have hgen : group (stripKeys sh (insertSorted S0 p v)) en =
            stripKeys (sh + 1) S0 := by
          rw [hW, group_insertSorted (stripKeys sh S0) (p.drop sh) v en
            hkneT (by
              intro h3
              have h4 := congrArg List.length h3
              simp only [List.length_drop, List.length_nil] at h4
              omega) hST]
          rw [if_neg (by
            rw [hpd]
            simp only [List.headD_cons]
            exact henbn)]
          rw [group_of_all_head (stripKeys sh S0) en (by
            intro e he
            obtain ⟨e0, he0, rfl⟩ := (mem_stripKeys sh S0 e).1 he
            exact hkeysh e0 he0)]
          rw [stripKeys_stripKeys]
        have hgo : ∀ i, i ≠ en → i ≠ bn →
            group (stripKeys sh (insertSorted S0 p v)) i = [] := by
          intro i hie hib
          rw [hW, group_insertSorted (stripKeys sh S0) (p.drop sh) v i
            hkneT (by
              intro h3
              have h4 := congrArg List.length h3
              simp only [List.length_drop, List.length_nil] at h4
              omega) hST]
          rw [if_neg (by
            rw [hpd]
            simp only [List.headD_cons]
            exact fun h3 => hib h3.symm)]
          rw [group_eq_nil]
          intro e he
          obtain ⟨e0, he0, rfl⟩ := (mem_stripKeys sh S0 e).1 he
          rw [hkeysh e0 he0]
          exact fun h3 => hie h3.symm
        have hchild : canon (m0 - sh) (stripKeys (sh + 1) S0) =
            (if (cp.drop (sh + 1)).isEmpty then
              canonB (m0 - cp.length) (stripKeys cp.length S0)
            else .ext (cp.drop (sh + 1))
              (canonB (m0 - cp.length) (stripKeys cp.length S0))) := by
          have hcs := canon_strip_shared (m0 + 1) S0 (sh + 1) hU hS h2
            (by rw [← hcp]; omega)
          rw [← hcp] at hcs
          rw [show m0 + 1 - (sh + 1) = m0 - sh by omega] at hcs
          rw [show m0 + 1 - cp.length - 1 = m0 - cp.length by omega] at hcs
          rw [hcs]
          by_cases hce : sh + 1 = cp.length
          · rw [if_pos hce, if_pos (by
              rw [List.isEmpty_iff, List.drop_eq_nil_iff_le]
              omega)]
          · rw [if_neg hce, if_neg (by
              rw [List.isEmpty_iff, List.drop_eq_nil_iff_le]
              omega)]
        have hcbW : canonB (m0 - sh) (stripKeys sh (insertSorted S0 p v)) =
            .branch ((emptyStack.set en
              (if (cp.drop (sh + 1)).isEmpty then
                canonB (m0 - cp.length) (stripKeys cp.length S0)
              else .ext (cp.drop (sh + 1))
                (canonB (m0 - cp.length) (stripKeys cp.length S0)))).set bn
              (.leaf (p.drop (sh + 1)) v)) :=
          canonB_two_slot (m0 - sh) _ en bn _ _ (by omega) (by omega)
            (fun h3 => henbn h3.symm)
            (by rw [hgen, hchild]) (by rw [hgbn, canon_singleton])
            (fun i hi hie hib => hgo i hie hib)
        by_cases hz : sh = 0
        · rw [if_pos (show p.take sh = [] by simp [hz]), if_pos hz]
          rw [hz] at hcbW ⊢
          rw [Nat.sub_zero, stripKeys_zero] at hcbW
          rw [hcbW]
        · rw [if_neg (show ¬ p.take sh = [] from by
            intro h3
            have h4 := congrArg List.length h3
            rw [List.length_take] at h4
            simp only [List.length_nil] at h4
            exact hz (by omega)), if_neg hz]
          rw [show (p.take sh).length = sh by
            rw [List.length_take]
            omega]
          rw [hcbW]

theorem collapse_ext_leaf (f : Fetcher) (fuel : Nat) (pfx cpfx cv : List Nat) :
    collapseIfPossible f fuel (.ext pfx (.leaf cpfx cv)) =
      .ok (.leaf (pfx ++ cpfx) cv, []) := by
  simp [collapseIfPossible]

theorem collapse_ext_ext (f : Fetcher) (fuel : Nat) (pfx cpfx : List Nat)
    (cnode : TrieNode) :
    collapseIfPossible f fuel (.ext pfx (.ext cpfx cnode)) =
      .ok (.ext (pfx ++ cpfx) cnode, []) := by
  simp [collapseIfPossible]

theorem headD_lt_16 (m : Nat) (S : List (List Nat × List Nat))
    (hU : UKeys (m + 1) S) (e : List Nat × List Nat) (he : e ∈ S) :
    e.1.headD 17 < 16 := by
  obtain ⟨hlen, hnib⟩ := hU e he
  cases he1 : e.1 with
  | nil => rw [he1] at hlen; simp at hlen
  | cons a b =>
      simp only [List.headD_cons]
      exact hnib a (by rw [he1]; simp)

theorem stripKeys_ne_nil (j : Nat) (S : List (List Nat × List Nat))
    (h : S ≠ []) : stripKeys j S ≠ [] := by
  cases S with
  | nil => exact absurd rfl h
  | cons e rest =>
      rw [stripKeys_cons]
      intro h2
      cases h2

theorem canonB_collapse (f : Fetcher) (fuel m : Nat)
    (S : List (List Nat × List Nat)) (hU : UKeys (m + 1) S) (hS : SKeys S)
    (hne : S ≠ []) :
    collapseIfPossible f fuel
      (.branch ((List.range 17).map (fun i => canon m (group S i)))) =
      .ok (canon (m + 1) S, []) := by
  have hkne : ∀ e ∈ S, e.1 ≠ [] := keysNe (m + 1) S hU (by omega)
  rcases S with _ | ⟨⟨k, w⟩, S1⟩
  · exact absurd rfl hne
  rcases S1 with _ | ⟨e1, S2⟩
  · -- singleton
    obtain ⟨k0, ktail, rfl⟩ : ∃ k0 kt, k = k0 :: kt := by
      cases k with
      | nil => exact absurd rfl (hkne ([], w) (by simp))
      | cons a b => exact ⟨a, b, rfl⟩
    have hk016 : k0 < 16 := (hU (k0 :: ktail, w) (by simp)).2 k0 (by simp)
    have hg0 : group [(k0 :: ktail, w)] k0 = [(ktail, w)] := by
      rw [group_cons, group_nil, if_pos (by simp)]
      rfl
    have hgo : ∀ i, i ≠ k0 → group [(k0 :: ktail, w)] i = [] := by
      intro i hik
      rw [group_eq_nil]
      intro e he
      simp only [List.mem_singleton] at he
      subst he
      simp only [List.headD_cons]
      exact fun h => hik h.symm
    have hidx : nonEmptyIdx ((List.range 17).map
        (fun i => canon m (group [(k0 :: ktail, w)] i))) =
        [(k0, .leaf ktail w)] :=
      nonEmptyIdx_of_unique _ k0 (.leaf ktail w)
        (by rw [getElem?_range_map _ k0 (by omega), hg0, canon_singleton])
        (by intro h; cases h)
        (fun j hj hjk => by
          rw [List.length_map, List.length_range] at hj
          rw [getElem?_range_map _ j hj, hgo j hjk, canon_nil])
    rw [collapse_branch_single_leaf f fuel _ k0 ktail w hidx]
    rw [canon_singleton]
  · -- at least two entries
    generalize hSS : (k, w) :: e1 :: S2 = S0 at hU hS hkne ⊢
    have h2 : 2 ≤ S0.length := by rw [← hSS]; simp
    have hS0ne : S0 ≠ [] := by rw [← hSS]; intro h; cases h
    set cp := lcpList (S0.map Prod.fst) with hcp
    have hcplt : cp.length < m + 1 := by
      rw [hcp]
      exact lcp_length_lt _ _ hU hS h2
    rw [canon_ge2 m S0 h2, ← hcp]
    by_cases hcpnil : cp = []
    · rw [if_pos hcpnil]
      obtain ⟨q1, q2, hq1, hq2, hqne⟩ :=
        head_ne_of_lcp_nil S0 hkne h2 (by rw [← hcp]; exact hcpnil)
      obtain ⟨f1, hf1, rfl⟩ := List.mem_map.1 hq1
      obtain ⟨f2, hf2, rfl⟩ := List.mem_map.1 hq2
      have hi116 : f1.1.headD 17 < 16 := headD_lt_16 m S0 hU f1 hf1
      have hi216 : f2.1.headD 17 < 16 := headD_lt_16 m S0 hU f2 hf2
      have hg1ne : group S0 (f1.1.headD 17) ≠ [] := by
        rw [Ne, group_eq_nil]
        push_neg
        exact ⟨f1, hf1, rfl⟩
      have hg2ne : group S0 (f2.1.headD 17) ≠ [] := by
        rw [Ne, group_eq_nil]
        push_neg
        exact ⟨f2, hf2, rfl⟩
      rw [collapse_branch_catchall]
      · rw [canonB_def]
      · intro i c hidx
        obtain ⟨hci, hcne2, hothers⟩ := nonEmptyIdx_singleton _ i c hidx
        have hslot : ∀ j, j < 16 → group S0 j ≠ [] → j = i := by
          intro j hj hgj
          by_contra hji
          have hje := hothers j (canon m (group S0 j))
            (by rw [getElem?_range_map _ j (by omega)]) hji
          rw [canon_empty_iff m _ (ukeys_group m S0 j hU)
            (skeys_group S0 j hkne hS)] at hje
          exact hgj hje
        have hii1 := hslot _ hi116 hg1ne
        have hii2 := hslot _ hi216 hg2ne
        rw [← hii2] at hii1
        exact hqne hii1
    · rw [if_neg hcpnil]
      obtain ⟨i0, cpt, hcq⟩ := List.exists_cons_of_ne_nil hcpnil
      have hi016 : i0 < 16 := by
        have h3 := nibbles_lcp (m + 1) S0 hU hS0ne
        rw [← hcp] at h3
        exact h3 i0 (by rw [hcq]; simp)
      have hhead : ∀ e ∈ S0, e.1.headD 17 = i0 := by
        intro e he
        have hpre := lcpList_isPref (S0.map Prod.fst) e.1
          (List.mem_map_of_mem Prod.fst he)
        rw [← hcp, hcq] at hpre
        cases he1 : e.1 with
        | nil => exact absurd he1 (hkne e he)
        | cons a b =>
            rw [he1] at hpre
            rw [List.length_cons, List.take_succ_cons] at hpre
            injection hpre with ha hb
      have hg0 : group S0 i0 = stripKeys 1 S0 := group_of_all_head S0 i0 hhead
      have hgo : ∀ i, i ≠ i0 → group S0 i = [] := by
        intro i hi
        rw [group_eq_nil]
        intro e he
        rw [hhead e he]
        exact fun h => hi h.symm
      have hg0ne : group S0 i0 ≠ [] := by
        rw [hg0]
        exact stripKeys_ne_nil 1 S0 hS0ne
      have hcs := canon_strip_shared (m + 1) S0 1 hU hS h2
        (by rw [← hcp, hcq]; simp)
      rw [← hcp] at hcs
      rw [show m + 1 - 1 = m from rfl] at hcs
      have hidx : nonEmptyIdx ((List.range 17).map
          (fun i => canon m (group S0 i))) =
          [(i0, canon m (group S0 i0))] :=
        nonEmptyIdx_of_unique _ i0 (canon m (group S0 i0))
          (by rw [getElem?_range_map _ i0 (by omega)])
          (by
            rw [Ne, canon_empty_iff m _ (ukeys_group m S0 i0 hU)
              (skeys_group S0 i0 hkne hS)]
            exact hg0ne)
          (fun j hj hji => by
            rw [List.length_map, List.length_range] at hj
            rw [getElem?_range_map _ j hj, hgo j hji, canon_nil])
      by_cases h1cp : 1 = cp.length
      · rw [if_pos h1cp] at hcs
        have hcpt : cpt = [] := by
          have h3 := congrArg List.length hcq
          rw [← h1cp] at h3
          simp only [List.length_cons] at h3
          have h4 : cpt.length = 0 := by omega
          rwa [List.length_eq_zero] at h4
        have hcs2 : canon m (group S0 i0) =
            .branch ((List.range 17).map (fun i =>
              canon (m + 1 - cp.length - 1)
                (group (stripKeys cp.length S0) i))) := by
          rw [hg0, hcs, canonB_def]
        rw [collapse_branch_single_branch f fuel _ i0 _ (by
          rw [hidx, hcs2])]
        rw [canonB_def]
        rw [show m + 1 - cp.length - 1 = m - cp.length by omega]
        rw [hcq, hcpt]
      · rw [if_neg h1cp] at hcs
        have hcs2 : canon m (group S0 i0) =
            .ext (cp.drop 1)
              (canonB (m + 1 - cp.length - 1) (stripKeys cp.length S0)) := by
          rw [hg0, hcs]
        rw [collapse_branch_single_ext f fuel _ i0 _ _ (by
          rw [hidx, hcs2])]
        rw [show m + 1 - cp.length - 1 = m - cp.length by omega]
        rw [show i0 :: cp.drop 1 = cp by rw [hcq]; simp]

theorem deleteNode_canonB_step (f : Fetcher) (fuel m : Nat)
    (S : List (List Nat × List Nat)) (p0 : Nat) (ptail : List Nat)
    (hU : UKeys (m + 1) S) (hS : SKeys S)
    (hp : (p0 :: ptail) ∈ S.map Prod.fst)
    (hrne : removeKey S (p0 :: ptail) ≠ [])
    (hIH : deleteNode f fuel (canon m (group S p0)) ptail =
      .ok (canon m (removeKey (group S p0) ptail), [])) :
    deleteNode f fuel
      (.branch ((List.range 17).map (fun i => canon m (group S i))))
      (p0 :: ptail) =
      .ok (canon (m + 1) (removeKey S (p0 :: ptail)), []) := by
  have hkne : ∀ e ∈ S, e.1 ≠ [] := keysNe (m + 1) S hU (by omega)
  have hp016 : p0 < 16 := by
    rw [List.mem_map] at hp
    obtain ⟨e, he, heq⟩ := hp
    have h3 := headD_lt_16 m S hU e he
    rw [heq] at h3
    simpa using h3
  rw [deleteNode_branch_some f fuel _ p0 ptail _
    (getElem?_range_map _ p0 (by omega))]
  rw [hIH]
  simp only [bind, Except.bind]
  have hset : ((List.range 17).map (fun i => canon m (group S i))).set p0
      (canon m (removeKey (group S p0) ptail)) =
      (List.range 17).map
        (fun i => canon m (group (removeKey S (p0 :: ptail)) i)) := by
    rw [map_range_set _ p0 _ (by omega)]
    apply map_range_congr
    intro i hi
    rw [group_removeKey S (p0 :: ptail) i hkne (by intro h; cases h)]
    by_cases hip : i = p0
    · subst hip
      rw [if_pos rfl, if_pos (by simp)]
      rfl
    · rw [if_neg hip, if_neg (by
        simp only [List.headD_cons]
        exact fun h => hip h.symm)]
  rw [hset]
  rw [canonB_collapse f fuel m (removeKey S (p0 :: ptail))
    (ukeys_removeKey _ _ _ hU) (skeys_removeKey _ _ hS) hrne]
  simp

theorem deleteNode_canon (f : Fetcher) :
    ∀ (m : Nat) (S : List (List Nat × List Nat)) (fuel : Nat) (p : List Nat),
      UKeys m S → SKeys S → p ∈ S.map Prod.fst →
      deleteNode f fuel (canon m S) p =
        .ok (canon m (removeKey S p), []) := by
  intro m
  induction m using Nat.strong_induction_on with
  | _ m IH =>
  intro S fuel p hU hS hp
  rcases S with _ | ⟨⟨k, w⟩, S1⟩
  · simp at hp
  rcases S1 with _ | ⟨e1, S2⟩
  · have hpk : p = k := by simpa using hp
    subst hpk
    rw [canon_singleton, deleteNode, if_pos rfl]
    rw [removeKey_cons, if_pos rfl, removeKey_nil, canon_nil]
  · generalize hSS : (k, w) :: e1 :: S2 = S0 at hU hS hp ⊢
    have h2 : 2 ≤ S0.length := by rw [← hSS]; simp
    have hS0ne : S0 ≠ [] := by rw [← hSS]; intro h; cases h
    have hm1 : 1 ≤ m := ukeys_pos m S0 hU hS h2
    obtain ⟨m0, rfl⟩ : ∃ m0, m = m0 + 1 := ⟨m - 1, by omega⟩
    have hkne : ∀ e ∈ S0, e.1 ≠ [] := keysNe _ _ hU (by omega)
    set cp := lcpList (S0.map Prod.fst) with hcp
    have hcplt : cp.length < m0 + 1 := by
      rw [hcp]
      exact lcp_length_lt _ _ hU hS h2
    have hpre : ∀ e ∈ S0, e.1.take cp.length = cp := by
      intro e he
      rw [hcp]
      exact lcpList_isPref _ _ (List.mem_map_of_mem Prod.fst he)
    have hplen : p.length = m0 + 1 := by
      rw [List.mem_map] at hp
      obtain ⟨e, he, heq⟩ := hp
      rw [← heq]
      exact (hU e he).1
    have hrne : removeKey S0 p ≠ [] := by
      obtain ⟨k1, k2, hk1, hk2, hkk⟩ := two_keys_of_ge2 S0 hS h2
      have hone : k1 ≠ p ∨ k2 ≠ p := by
        by_contra h3
        push_neg at h3
        rw [h3.1, ← h3.2] at hkk
        exact hkk rfl
      rcases hone with h3 | h3
      · intro hconc
        have h4 := (keys_removeKey S0 p k1).2 ⟨hk1, h3⟩
        rw [hconc] at h4
        simp at h4
      · intro hconc
        have h4 := (keys_removeKey S0 p k2).2 ⟨hk2, h3⟩
        rw [hconc] at h4
        simp at h4
    obtain ⟨p0, ptail, rfl⟩ : ∃ p0 pt, p = p0 :: pt := by
      cases p with
      | nil => simp at hplen
      | cons a b => exact ⟨a, b, rfl⟩
    rw [canon_ge2 m0 S0 h2, ← hcp]
    by_cases hcpnil : cp = []
    · rw [if_pos hcpnil, canonB_def]
      have hIH := IH m0 (by omega) (group S0 p0) fuel ptail
        (ukeys_group m0 S0 p0 hU) (skeys_group S0 p0 hkne hS)
        ((keys_group S0 p0 ptail).2 ⟨p0 :: ptail, hp, by simp, rfl⟩)
      exact deleteNode_canonB_step f fuel m0 S0 p0 ptail hU hS hp hrne hIH
    · rw [if_neg hcpnil]
      have hcppos : 1 ≤ cp.length := by
        cases hcq : cp with
        | nil => exact absurd hcq hcpnil
        | cons a b => simp
      have hptake : (p0 :: ptail).take cp.length = cp := by
        rw [List.mem_map] at hp
        obtain ⟨e, he, heq⟩ := hp
        rw [← heq]
        exact hpre e he
      have hshfull : commonPfxLen (p0 :: ptail) cp = cp.length :=
        commonPfxLen_eq_of_take _ _ (by
          have h3 : (p0 :: ptail).length = m0 + 1 := hplen
          omega) hptake
      have hcommon : ∀ e ∈ S0, e.1.take cp.length =
          (p0 :: ptail).take cp.length := by
        intro e he
        rw [hptake]
        exact hpre e he
      rw [deleteNode_ext_step f fuel cp _ _
        (by rw [hshfull]; omega)
        (by
          rw [hshfull]
          have h3 : (p0 :: ptail).length = m0 + 1 := hplen
          omega)]
      have hUT : UKeys (m0 - cp.length + 1) (stripKeys cp.length S0) := by
        have h3 := ukeys_stripKeys (m0 + 1) cp.length S0 hU
        rwa [show m0 + 1 - cp.length = m0 - cp.length + 1 by omega] at h3
      have hST : SKeys (stripKeys cp.length S0) :=
        skeys_stripKeys S0 cp.length (p0 :: ptail) hcommon hS
      have hqT : (p0 :: ptail).drop cp.length ∈
          (stripKeys cp.length S0).map Prod.fst := by
        rw [keys_stripKeys_eq]
        exact List.mem_map_of_mem (List.drop cp.length) hp
      obtain ⟨q0, qtail, hq0⟩ : ∃ q0 qt,
          (p0 :: ptail).drop cp.length = q0 :: qt := by
        have h3 : ((p0 :: ptail).drop cp.length).length =
            m0 + 1 - cp.length := by
          rw [List.length_drop, hplen]
        cases hqq : (p0 :: ptail).drop cp.length with
        | nil =>
            rw [hqq] at h3
            simp only [List.length_nil] at h3
            omega
        | cons a b => exact ⟨a, b, rfl⟩
      have hqT2 : (q0 :: qtail) ∈ (stripKeys cp.length S0).map Prod.fst := by
        rw [← hq0]
        exact hqT
      have hIH := IH (m0 - cp.length) (by omega)
        (group (stripKeys cp.length S0) q0) fuel qtail
        (ukeys_group _ _ q0 hUT)
        (skeys_group _ q0 (keysNe _ _ hUT (by omega)) hST)
        ((keys_group _ q0 qtail).2 ⟨q0 :: qtail, hqT2, by simp, rfl⟩)
      have hrel : removeKey (stripKeys cp.length S0) (q0 :: qtail) =
          stripKeys cp.length (removeKey S0 (p0 :: ptail)) := by
        rw [← hq0]
        exact (strip_removeKey S0 (p0 :: ptail) cp.length hcommon).symm
      have hTrne : removeKey (stripKeys cp.length S0) (q0 :: qtail) ≠ [] := by
        rw [hrel]
        exact stripKeys_ne_nil _ _ hrne
      have hdel := deleteNode_canonB_step f fuel (m0 - cp.length)
        (stripKeys cp.length S0) q0 qtail hUT hST hqT2 hTrne hIH
      rw [canonB_def, hq0, hdel]
      simp only [bind, Except.bind]
      have hS'pre : ∀ e ∈ removeKey S0 (p0 :: ptail),
          e.1.take cp.length = cp := fun e he =>
        hpre e (mem_removeKey S0 (p0 :: ptail) e he).1
      rw [hrel]
      by_cases hlen1 : (removeKey S0 (p0 :: ptail)).length = 1
      · obtain ⟨g1, hS'c⟩ := List.length_eq_one.1 hlen1
        rw [hS'c, stripKeys_cons, stripKeys_nil, canon_singleton]
        rw [collapse_ext_leaf]
        simp only [bind, Except.bind]
        rw [canon_singleton]
        have hg1 : cp ++ g1.1.drop cp.length = g1.1 :=
          (drop_of_take_eq (hS'pre g1 (by rw [hS'c]; simp))).symm
        rw [hg1]
        simp
      · have h2r : 2 ≤ (removeKey S0 (p0 :: ptail)).length := by
          have h3 : removeKey S0 (p0 :: ptail) ≠ [] := hrne
          have h4 : 1 ≤ (removeKey S0 (p0 :: ptail)).length :=
            List.length_pos.2 h3
          omega
        set cp2 := lcpList ((stripKeys cp.length
          (removeKey S0 (p0 :: ptail))).map Prod.fst) with hcp2
        have hfact : lcpList ((removeKey S0 (p0 :: ptail)).map Prod.fst) =
            cp ++ cp2 := by
          rw [hcp2, keys_stripKeys_eq]
          apply lcpList_shared
          · simpa using hrne
          · intro k2 hk2
            rw [List.mem_map] at hk2
            obtain ⟨e, he, rfl⟩ := hk2
            exact hS'pre e he
        have h2rs : 2 ≤ (stripKeys cp.length
            (removeKey S0 (p0 :: ptail))).length := by
          have h3 : (stripKeys cp.length
              (removeKey S0 (p0 :: ptail))).length =
              (removeKey S0 (p0 :: ptail)).length := by
            simp [stripKeys]
          omega
        obtain ⟨mq, hmq⟩ : ∃ mq, m0 - cp.length = mq := ⟨_, rfl⟩
        rw [hmq]
        rw [canon_ge2 mq _ h2rs, ← hcp2]
        by_cases hcp2nil : cp2 = []
        · rw [if_pos hcp2nil]
          rw [canonB_def]
          rw [collapse_ext_branch]
          simp only [bind, Except.bind]
          rw [canon_ge2 m0 _ h2r, hfact, hcp2nil]
          simp only [List.append_nil]
          rw [if_neg hcpnil]
          rw [canonB_def]
          rw [← hmq]
        · rw [if_neg hcp2nil]
          rw [collapse_ext_ext]
          simp only [bind, Except.bind]
          rw [canon_ge2 m0 _ h2r, hfact]
          rw [if_neg (by
            intro h3
            rw [List.append_eq_nil] at h3
            exact hcpnil h3.1)]
          rw [stripKeys_stripKeys, List.length_append]
          rw [show mq - cp2.length = m0 - (cp.length + cp2.length) by omega]
          simp

theorem canon_isBlindedN_false (m : Nat) (S : List (List Nat × List Nat)) :
    (canon m S).isBlindedN = false := by
  rcases S with _ | ⟨e1, S1⟩
  · rw [canon_nil]
    rfl
  rcases S1 with _ | ⟨e2, S2⟩
  · rw [canon_singleton]
    rfl
  cases m with
  | zero =>
      rw [canon]
      rfl
  | succ m0 =>
      rw [canon_ge2 m0 _ (by simp)]
      split
      · rw [canonB_def]
        rfl
      · rfl

theorem ukeys_foldl_insert (L : Nat) :
    ∀ (ins S : List (List Nat × List Nat)), UKeys L S →
      (∀ e ∈ ins, e.1.length = L ∧ ∀ x ∈ e.1, x < 16) →
      UKeys L (ins.foldl (fun s e => insertSorted s e.1 e.2) S)
  | [], _, hU, _ => hU
  | e :: rest, S, hU, hins => by
      rw [List.foldl_cons]
      exact ukeys_foldl_insert L rest _
        (ukeys_insertSorted L S e.1 e.2 hU (hins e (by simp)).1
          (hins e (by simp)).2)
        (fun x hx => hins x (by simp [hx]))

theorem skeys_foldl_insert :
    ∀ (ins S : List (List Nat × List Nat)), SKeys S →
      SKeys (ins.foldl (fun s e => insertSorted s e.1 e.2) S)
  | [], _, hS => hS
  | e :: rest, S, hS => by
      rw [List.foldl_cons]
      exact skeys_foldl_insert rest _ (skeys_insertSorted S e.1 e.2 hS)

theorem runInserts_canon (f : Fetcher) (L fuel : Nat) :
    ∀ (ins S : List (List Nat × List Nat)), UKeys L S → SKeys S →
      (∀ e ∈ ins, e.1.length = L ∧ ∀ x ∈ e.1, x < 16) →
      runInserts f fuel (canon L S) ins =
        .ok (canon L (ins.foldl (fun s e => insertSorted s e.1 e.2) S))
  | [], S, _, _, _ => by simp [runInserts]
  | (p, v) :: rest, S, hU, hS, hins => by
      have hp := hins (p, v) (by simp)
      simp only [runInserts]
      rw [insertNode_canon f L S fuel p v hU hS hp.1 hp.2]
      simp only [bind, Except.bind]
      rw [List.foldl_cons]
      exact runInserts_canon f L fuel rest (insertSorted S p v)
        (ukeys_insertSorted L S p v hU hp.1 hp.2)
        (skeys_insertSorted S p v hS)
        (fun e he => hins e (by simp [he]))

theorem runDeletes_canon (f : Fetcher) (L fuel : Nat) :
    ∀ (dels : List (List Nat)) (S : List (List Nat × List Nat)),
      UKeys L S → SKeys S → dels.Nodup →
      (∀ d ∈ dels, d ∈ S.map Prod.fst) →
      runDeletes f fuel (canon L S) dels =
        .ok (canon L (dels.foldl removeKey S))
  | [], S, _, _, _, _ => by simp [runDeletes]
  | d :: rest, S, hU, hS, hnd, hmem => by
      simp only [runDeletes]
      rw [deleteNode_canon f L S fuel d hU hS (hmem d (by simp))]
      simp only [bind, Except.bind]
      rw [List.foldl_cons]
      exact runDeletes_canon f L fuel rest (removeKey S d)
        (ukeys_removeKey L S d hU) (skeys_removeKey S d hS)
        (List.Nodup.of_cons hnd)
        (fun q hq => (keys_removeKey S d q).2
          ⟨hmem q (by simp [hq]), by
            intro h3
            subst h3
            exact (List.nodup_cons.1 hnd).1 hq⟩)

end KonaMpt

/-! ## Claim theorems -/

/-- C4: for every uniform-key-length, fully revealed trie state `t`, path
`P` of the key length and value `V`, `insert(P, V)` succeeds and a
subsequent `open(P)` returns exactly `V`; in particular, when a leaf
already exists at `P`, the insertion overwrites its previous value. -/
theorem C4_insert_then_open (fetcher : KonaMpt.Fetcher) (L : Nat)
    (t : KonaMpt.TrieNode) (p v : List Nat) (fuel : Nat)
    (hwf : KonaMpt.Wf L t) (hnb : KonaMpt.NB t)
    (hnib : ∀ x ∈ p, x < 16) (hlen : p.length = L) :
    (∃ t', KonaMpt.insertNode fetcher fuel t p v = .ok t' ∧
      ∀ fl, KonaMpt.openNode fetcher fl t' p = .ok (some v)) ∧
    ∀ w fuel2, KonaMpt.insertNode fetcher fuel2 (.leaf p w) p v =
      .ok (.leaf p v) := by
  constructor
  · obtain ⟨t', h1, _, _, h4⟩ :=
      KonaMpt.insert_ok fetcher L t p v fuel hwf hnb hnib hlen
    exact ⟨t', h1, h4⟩
  · intro w fuel2
    simp [KonaMpt.insertNode]

/-- C4 witness: inserting value `[7]` at path `[0, 1]` over an existing
leaf with value `[5]`. -/
theorem C4_insert_then_open_witness :
    (∃ t', KonaMpt.insertNode KonaMpt.noopFetcher 0
        (.leaf [0, 1] [5]) [0, 1] [7] = .ok t' ∧
      ∀ fl, KonaMpt.openNode KonaMpt.noopFetcher fl t' [0, 1] =
        .ok (some [7])) ∧
    ∀ w fuel2, KonaMpt.insertNode KonaMpt.noopFetcher fuel2
      (.leaf [0, 1] w) [0, 1] [7] = .ok (.leaf [0, 1] [7]) :=
  C4_insert_then_open KonaMpt.noopFetcher 2 (.leaf [0, 1] [5]) [0, 1] [7] 0
    (KonaMpt.Wf.leaf rfl (by decide)) KonaMpt.NB.leaf (by decide) rfl

/-- C5: for every uniform-key-length, fully revealed trie state `t`, path
`P` of the key length and value `V`, the sequence `insert(P, V);
delete(P); open(P)` succeeds at the delete step and the final `open(P)`
returns `NotFound` (`None`). -/
theorem C5_insert_delete_open (fetcher : KonaMpt.Fetcher) (L : Nat)
    (t : KonaMpt.TrieNode) (p v : List Nat) (fuel : Nat)
    (hwf : KonaMpt.Wf L t) (hnb : KonaMpt.NB t)
    (hnib : ∀ x ∈ p, x < 16) (hlen : p.length = L) :
    ∃ t1 t2, KonaMpt.insertNode fetcher fuel t p v = .ok t1 ∧
      KonaMpt.deleteNode fetcher fuel t1 p = .ok (t2, []) ∧
      ∀ fl, KonaMpt.openNode fetcher fl t2 p = .ok none := by
  obtain ⟨t1, h1, hwf1, hnb1, hopen1⟩ :=
    KonaMpt.insert_ok fetcher L t p v fuel hwf hnb hnib hlen
  obtain ⟨t2, h2, _, _, h4⟩ :=
    KonaMpt.delete_spec fetcher L t1 p v fuel 0 hwf1 hnb1 hnib hlen
      (hopen1 0)
  exact ⟨t1, t2, h1, h2, h4⟩

/-- C5 witness: insert then delete at path `[0, 1]` starting from a
two-leaf trie. -/
theorem C5_insert_delete_open_witness :
    ∃ t1 t2, KonaMpt.insertNode KonaMpt.noopFetcher 0
        (.leaf [3, 4] [9]) [0, 1] [7] = .ok t1 ∧
      KonaMpt.deleteNode KonaMpt.noopFetcher 0 t1 [0, 1] = .ok (t2, []) ∧
      ∀ fl, KonaMpt.openNode KonaMpt.noopFetcher fl t2 [0, 1] = .ok none :=
  C5_insert_delete_open KonaMpt.noopFetcher 2 (.leaf [3, 4] [9]) [0, 1] [7]
    0 (KonaMpt.Wf.leaf rfl (by decide)) KonaMpt.NB.leaf (by decide) rfl

/-- C6: after every successful delete on a uniform-key-length, fully
revealed trie whose branches all have zero or at least two non-empty
slots, the resulting trie again has no branch with exactly one non-empty
slot; and when a branch's single remaining child is blinded,
`collapse_if_possible` first emits a hint for its commitment and unblinds
it through the provider, so the collapse is performed on the revealed
node. -/
theorem C6_delete_no_single_branch (fetcher : KonaMpt.Fetcher) :
    (∀ L (t : KonaMpt.TrieNode) (p : List Nat) (t' : KonaMpt.TrieNode)
        (hs : List (List Nat)) (fuel : Nat),
        KonaMpt.Wf L t → KonaMpt.NB t → KonaMpt.NoSingle t →
        KonaMpt.deleteNode fetcher fuel t p = .ok (t', hs) →
        KonaMpt.NoSingle t') ∧
    (∀ (stack : List KonaMpt.TrieNode) (i : Nat) (cm : List Nat)
        (n : KonaMpt.TrieNode) (fuel : Nat),
        KonaMpt.nonEmptyIdx stack = [(i, .blinded cm)] →
        cm ≠ KonaMpt.emptyRootHash → fetcher cm = .ok n →
        KonaMpt.collapseIfPossible fetcher (fuel + 1) (.branch stack) =
          (KonaMpt.collapseIfPossible fetcher fuel
            (.branch (stack.set i n))).map
              (fun rh => (rh.1, cm :: rh.2))) := by
  constructor
  · intro L t p t' hs fuel hwf hnb hns hdel
    exact (KonaMpt.delete_ns fetcher L t p t' hs fuel hwf hnb hns hdel).1
  · intro stack i cm n fuel hne hcm hf
    rw [KonaMpt.collapseIfPossible, hne]
    simp only [KonaMpt.unblind, if_neg hcm, hf]
    rcases h : KonaMpt.collapseIfPossible fetcher fuel
      (.branch (stack.set i n)) with e | ⟨r, hs⟩ <;>
      simp [h, bind, Except.bind, Except.map]

/-- C6 witness: the invariant-preservation half applied to deleting the
only key of a one-extension trie, and the hint half applied to a branch
whose single non-empty slot holds the blinded commitment `[1]`. -/
theorem C6_delete_no_single_branch_witness :
    KonaMpt.NoSingle .empty ∧
    KonaMpt.collapseIfPossible KonaMpt.okEmptyFetcher 1
        (.branch (KonaMpt.emptyStack.set 3 (.blinded [1]))) =
      (KonaMpt.collapseIfPossible KonaMpt.okEmptyFetcher 0
          (.branch ((KonaMpt.emptyStack.set 3 (.blinded [1])).set 3
            .empty))).map (fun rh => (rh.1, [1] :: rh.2)) :=
  ⟨(C6_delete_no_single_branch KonaMpt.okEmptyFetcher).1 1
      (.ext [0] (.leaf [] [5])) [0] .empty [] 0
      (KonaMpt.Wf.ext (by decide) (by decide) (by decide)
        (KonaMpt.Wf.leaf rfl (by decide)))
      (KonaMpt.NB.ext KonaMpt.NB.leaf)
      (KonaMpt.NoSingle.ext KonaMpt.NoSingle.leaf)
      (by simp [KonaMpt.deleteNode, KonaMpt.commonPfxLen]),
    (C6_delete_no_single_branch KonaMpt.okEmptyFetcher).2 _ 3 [1] .empty 0
      rfl (by decide) rfl⟩

/-- C10: if `delete(path)` reaches an extension node and the remaining path
is exactly the extension's prefix, the entire extension - including its
unexamined child subtree - is replaced by `Empty` and the delete reports
success, even though the path does not address a leaf. -/
theorem C10_delete_extension_whole_path (fetcher : KonaMpt.Fetcher)
    (fuel : Nat) (p : List Nat) (c : KonaMpt.TrieNode) :
    KonaMpt.deleteNode fetcher fuel (.ext p c) p = .ok (.empty, []) := by
  simp [KonaMpt.deleteNode, KonaMpt.commonPfxLen_self]

/-- C2: counter-evidence for the claim that `InMemoryOracle::verify` fails
when a Precompile-typed entry has no companion Keccak entry.  For a table
holding a single Precompile-keyed entry whose companion Keccak key is
absent, the §3 constraint is violated, yet `verify` returns `Ok(())`: the
`anyhow!` error in the missing-companion arm is constructed and discarded
without being returned. -/
theorem C2_verify_accepts_missing_precompile_companion :
    KonaOracle.lookupKey
        [(⟨.precompile, List.replicate 31 0⟩, [1])]
        ⟨.keccak256, List.replicate 31 0⟩ = none ∧
    KonaOracle.verify (fun _ => List.replicate 32 0)
        (fun _ => List.replicate 32 0)
        [(⟨.precompile, List.replicate 31 0⟩, [1])] = .ok := by
  exact ⟨rfl, rfl⟩

/-- C3 counterexample: a run whose computed block number (1) differs from
the claimed block number (2) terminates through the `assert_eq!` panic with
exit status 2 - exactly `panicExitCode`, the status of every crash path -
so the exit status is not distinct from a crash. -/
theorem C3_counterexample_mismatch_status_equals_crash :
    KonaClient.epilogueExitCode 1 2 [] [] ≠ 0 ∧
    KonaClient.epilogueExitCode 1 2 [] [] = KonaClient.panicExitCode := by
  decide

/-- C3 (amended): a mismatch of the computed block number or output root
against the boot-loaded claim terminates with a non-zero exit status, but
that status is the panic handler's status 2, the same as every crash path:
a validated-false outcome is not distinguishable from a crash by exit
status. -/
theorem C3_mismatch_exits_nonzero_via_panic (n b : Nat) (r c : List Nat)
    (h : n ≠ b ∨ r ≠ c) :
    KonaClient.epilogueExitCode n b r c ≠ 0 ∧
    KonaClient.epilogueExitCode n b r c = KonaClient.panicExitCode := by
  rcases h with h | h <;>
    simp [KonaClient.epilogueExitCode, KonaClient.panicExitCode, h]

/-- C3 witness: the amended theorem applied at block numbers 1 and 2. -/
theorem C3_mismatch_exits_nonzero_via_panic_witness :
    KonaClient.epilogueExitCode 1 2 [] [] ≠ 0 ∧
    KonaClient.epilogueExitCode 1 2 [] [] = KonaClient.panicExitCode :=
  C3_mismatch_exits_nonzero_via_panic 1 2 [] [] (Or.inl (by decide))

/-- C8 counterexample: with a stored preimage of length 3 and a
caller-supplied buffer of length 2, `InMemoryOracle::get_exact` panics in
`copy_from_slice` instead of returning an error. -/
theorem C8_counterexample_get_exact_length_mismatch_panics :
    KonaOracle.getExact [(⟨.localType, []⟩, [1, 2, 3])] ⟨.localType, []⟩
        [0, 0] = .panic ∧
    KonaOracle.GetExactOutcome.panic ≠ .errKeyNotFound := by
  decide

/-- C8 (amended): `get_exact` fills the caller's buffer with the stored
preimage exactly when the key is present and the lengths match; a missing
key returns an error; a present key whose preimage length differs from the
buffer length panics (`copy_from_slice`), aborting the program rather than
returning an error result. -/
theorem C8_get_exact_characterization :
    (∀ cache k buf v, KonaOracle.lookupKey cache k = some v →
        v.length = buf.length → KonaOracle.getExact cache k buf = .filled v) ∧
    (∀ cache k buf v, KonaOracle.lookupKey cache k = some v →
        v.length ≠ buf.length → KonaOracle.getExact cache k buf = .panic) ∧
    (∀ cache k buf, KonaOracle.lookupKey cache k = none →
        KonaOracle.getExact cache k buf = .errKeyNotFound) := by
  refine ⟨?_, ?_, ?_⟩ <;> intros <;> simp_all [KonaOracle.getExact]

/-- C8 witness: the characterization applied to a one-entry cache with a
matching buffer length. -/
theorem C8_get_exact_characterization_witness :
    KonaOracle.lookupKey [(⟨.localType, []⟩, [5])] ⟨.localType, []⟩ = some [5] ∧
    KonaOracle.getExact [(⟨.localType, []⟩, [5])] ⟨.localType, []⟩ [9] =
      .filled [5] :=
  ⟨by decide, C8_get_exact_characterization.1 _ _ [9] _ (by decide) (by decide)⟩

/-- C9 counterexample: a boot whose five local preimages are well-formed
(32, 32, 32, 8, 8 bytes) but whose chain id is 99 - an id for which no
rollup config is derivable - succeeds; `try_boot` performs no chain-id
check and derives no rollup config. -/
theorem C9_counterexample_boot_accepts_unknown_chain_id :
    KonaClient.rollupConfigFromChainId 99 = none ∧
    KonaClient.tryBoot KonaClient.bootOracle99 =
      .ok ⟨List.replicate 32 0, List.replicate 32 0, List.replicate 32 0,
        99, 99⟩ := by
  exact ⟨rfl, rfl⟩

/-- C9 (amended): the boot loader reads exactly the five local-key
preimages with indices 1 through 5; on success the three hash fields come
from 32-byte values and the two integer fields are decoded as 8-byte
big-endian; the first wrong-length value among the five reads fails with
that field's typed boot error (conjuncts 3-7, one per index).  The
`l2_chain_id` is not checked: no rollup config is derived in
`bin/client/src/boot.rs`. -/
theorem C9_try_boot_characterization :
    (∀ o o' : Nat → Except String (List Nat),
        (∀ i, 1 ≤ i → i ≤ 5 → o i = o' i) →
        KonaClient.tryBoot o = KonaClient.tryBoot o') ∧
    (∀ o v1 v2 v3 v4 v5, o 1 = .ok v1 → o 2 = .ok v2 → o 3 = .ok v3 →
        o 4 = .ok v4 → o 5 = .ok v5 → v1.length = 32 → v2.length = 32 →
        v3.length = 32 → v4.length = 8 → v5.length = 8 →
        KonaClient.tryBoot o =
          .ok ⟨v1, v2, v3, KonaClient.u64be v4, KonaClient.u64be v5⟩) ∧
    (∀ o v1, o 1 = .ok v1 → v1.length ≠ 32 →
        KonaClient.tryBoot o = .error (.badLength "l1 head")) ∧
    (∀ o v1 v2, o 1 = .ok v1 → v1.length = 32 →
        o 2 = .ok v2 → v2.length ≠ 32 →
        KonaClient.tryBoot o =
          .error (.badLength "starting L2 output root")) ∧
    (∀ o v1 v2 v3, o 1 = .ok v1 → v1.length = 32 →
        o 2 = .ok v2 → v2.length = 32 → o 3 = .ok v3 → v3.length ≠ 32 →
        KonaClient.tryBoot o =
          .error (.badLength "claimed L2 output root")) ∧
    (∀ o v1 v2 v3 v4, o 1 = .ok v1 → v1.length = 32 →
        o 2 = .ok v2 → v2.length = 32 → o 3 = .ok v3 → v3.length = 32 →
        o 4 = .ok v4 → v4.length ≠ 8 →
        KonaClient.tryBoot o =
          .error (.badLength "claimed L2 output root block number")) ∧
    (∀ o v1 v2 v3 v4 v5, o 1 = .ok v1 → v1.length = 32 →
        o 2 = .ok v2 → v2.length = 32 → o 3 = .ok v3 → v3.length = 32 →
        o 4 = .ok v4 → v4.length = 8 → o 5 = .ok v5 → v5.length ≠ 8 →
        KonaClient.tryBoot o = .error (.badLength "L2 chain ID")) := by
  refine ⟨?_, ?_, ?_, ?_, ?_, ?_, ?_⟩
  · intro o o' h
    simp only [KonaClient.tryBoot]
    rw [h 1 (by omega) (by omega), h 2 (by omega) (by omega),
      h 3 (by omega) (by omega), h 4 (by omega) (by omega),
      h 5 (by omega) (by omega)]
  · intro o v1 v2 v3 v4 v5 h1 h2 h3 h4 h5 l1 l2 l3 l4 l5
    simp [KonaClient.tryBoot, h1, h2, h3, h4, h5, l1, l2, l3, l4, l5,
      Except.mapError, bind, Except.bind, pure, Except.pure]
  · intro o v1 h1 l1
    simp [KonaClient.tryBoot, h1, l1, Except.mapError, bind, Except.bind,
      pure, Except.pure, Except.map]
  · intro o v1 v2 h1 l1 h2 l2
    simp [KonaClient.tryBoot, h1, l1, h2, l2, Except.mapError, bind,
      Except.bind, pure, Except.pure, Except.map]
  · intro o v1 v2 v3 h1 l1 h2 l2 h3 l3
    simp [KonaClient.tryBoot, h1, l1, h2, l2, h3, l3, Except.mapError,
      bind, Except.bind, pure, Except.pure, Except.map]
  · intro o v1 v2 v3 v4 h1 l1 h2 l2 h3 l3 h4 l4
    simp [KonaClient.tryBoot, h1, l1, h2, l2, h3, l3, h4, l4,
      Except.mapError, bind, Except.bind, pure, Except.pure, Except.map]
  · intro o v1 v2 v3 v4 v5 h1 l1 h2 l2 h3 l3 h4 l4 h5 l5
    simp [KonaClient.tryBoot, h1, l1, h2, l2, h3, l3, h4, l4, h5, l5,
      Except.mapError, bind, Except.bind, pure, Except.pure, Except.map]

/-- C9 witness: the success characterization applied to the concrete
oracle assignment with chain id 99, and the wrong-length failure conjunct
applied to the oracle whose index-5 value is a single byte. -/
theorem C9_try_boot_characterization_witness :
    KonaClient.bootOracle99 1 = .ok (List.replicate 32 0) ∧
    KonaClient.tryBoot KonaClient.bootOracle99 =
      .ok ⟨List.replicate 32 0, List.replicate 32 0, List.replicate 32 0,
        KonaClient.u64be (List.replicate 7 0 ++ [99]),
        KonaClient.u64be (List.replicate 7 0 ++ [99])⟩ ∧
    KonaClient.tryBoot KonaClient.bootOracleShort5 =
      .error (.badLength "L2 chain ID") :=
  ⟨rfl, C9_try_boot_characterization.2.1 _ _ _ _ _ _ rfl rfl rfl rfl rfl
    rfl rfl rfl rfl rfl,
   C9_try_boot_characterization.2.2.2.2.2.2 KonaClient.bootOracleShort5
    _ _ _ _ _ rfl (by decide) rfl (by decide) rfl (by decide) rfl
    (by decide) rfl (by decide)⟩

/-- C7: `TrieNode` RLP decoding maps inputs to variants exactly as
claimed.  (a) A 33-byte RLP string whose payload is 32 bytes decodes to
`Blinded`.  (b) The single empty-string byte `0x80` decodes to `Empty`.
(c) Conversely, any successful decode constrains its input: a `Branch`
comes from a 17-item list, a `Leaf` or `Extension` from a 2-item list, a
`Blinded` from a 32-byte string headed by `0xa0`, and `Empty` from the
byte `0x80`.  (d) In the 2-item case the high nibble of the first path
byte is below 4 and dispatches the variant: 0 or 1 yields an extension,
2 or 3 a leaf, with the decoded prefix's parity (even/odd nibble count)
matching the nibble's parity.  (e) A high nibble of 4 or more is the
`InvalidNodeType` decode error.  (f) Any other string shape -- a
single-byte string, or a string header other than `0xa0` -- is a decode
error as well. -/
theorem C7_decode_variant_mapping :
    (∀ c rest : List Nat, c.length = 32 →
      KonaMpt.decodeTN (0xa0 :: (c ++ rest)) =
        .ok (.blinded c, rest)) ∧
    (∀ rest : List Nat,
      KonaMpt.decodeTN (0x80 :: rest) = .ok (.empty, rest)) ∧
    (∀ (buf : List Nat) (node : KonaMpt.TrieNode) (rest2 : List Nat),
      KonaMpt.decodeTN buf = .ok (node, rest2) →
      (match node with
       | .branch _ => KonaMpt.rlpListElementLength buf = .ok 17
       | .leaf _ _ => KonaMpt.rlpListElementLength buf = .ok 2
       | .ext _ _ => KonaMpt.rlpListElementLength buf = .ok 2
       | .blinded c => c.length = 32 ∧ buf.take 33 = 0xa0 :: c
       | .empty => buf.take 1 = [0x80])) ∧
    (∀ (fuel : Nat) (buf : List Nat) (p0 : Nat) (ptail buf1 : List Nat)
       (node : KonaMpt.TrieNode) (rest2 : List Nat),
      KonaMpt.bytesDecode buf = .ok (p0 :: ptail, buf1) →
      KonaMpt.decodeLeafExt fuel buf = .ok (node, rest2) →
      p0 / 16 < 4 ∧
      ((p0 / 16 = 0 ∨ p0 / 16 = 1) ↔ ∃ pfx child, node = .ext pfx child) ∧
      ((p0 / 16 = 2 ∨ p0 / 16 = 3) ↔ ∃ pfx value, node = .leaf pfx value) ∧
      (∀ pfx child, node = .ext pfx child →
        List.length pfx % 2 = p0 / 16 % 2) ∧
      (∀ pfx value, node = .leaf pfx value →
        List.length pfx % 2 = p0 / 16 % 2)) ∧
    (∀ (fuel : Nat) (buf : List Nat) (p0 : Nat) (ptail buf1 : List Nat),
      KonaMpt.bytesDecode buf = .ok (p0 :: ptail, buf1) → 4 ≤ p0 / 16 →
      KonaMpt.decodeLeafExt fuel buf = .error .invalidNodeType) ∧
    (∀ (b : Nat) (rest : List Nat), b < 0x80 →
      KonaMpt.decodeTN (b :: rest) = .error .unexpectedLength) ∧
    (∀ (b : Nat) (rest : List Nat), 0x80 < b → b ≤ 0xbf → b ≠ 0xa0 →
      ∃ e, KonaMpt.decodeTN (b :: rest) = .error e ∧
        e ≠ KonaMpt.RlpErr.panic) :=
  by
  refine ⟨KonaMpt.decode_blinded_32, KonaMpt.decode_empty_byte, ?_,
    fun fuel buf p0 ptail buf1 node rest2 hbd hde =>
      KonaMpt.decodeLeafExt_dispatch fuel buf p0 ptail buf1 node rest2
        hbd hde,
    fun fuel buf p0 ptail buf1 hbd h4 =>
      KonaMpt.decodeLeafExt_bad_nibble fuel buf p0 ptail buf1 hbd h4,
    KonaMpt.decode_single_byte, KonaMpt.decode_other_string⟩
  intro buf node rest2 h
  have hi := KonaMpt.decodeTN_inv buf node rest2 h
  cases node <;> exact hi

/-- C7 witness: the blinded conjunct applied at a concrete 32-byte
commitment, and the empty conjunct applied at the bare `0x80` byte. -/
theorem C7_decode_variant_mapping_witness :
    KonaMpt.decodeTN (0xa0 :: (List.replicate 32 7 ++ [5])) =
      .ok (.blinded (List.replicate 32 7), [5]) ∧
    KonaMpt.decodeTN [0x80] = .ok (.empty, []) :=
  ⟨C7_decode_variant_mapping.1 (List.replicate 32 7) [5] (by simp),
   C7_decode_variant_mapping.2.1 []⟩

/-- C1 counterexample to the original claim: after inserting one small
key-value pair into an empty trie (and deleting nothing), the surviving
root is a leaf whose RLP encoding is 5 bytes, below 32; `blind()` leaves
such a root unhashed, so `blinded_commitment` is `none` and equals no
reference hash-builder root. -/
theorem C1_counterexample_small_root_commitment_none :
    KonaMpt.runInserts KonaMpt.noopFetcher 1 .empty [([0, 0], [1])] =
      .ok (.leaf [0, 0] [1]) ∧
    KonaMpt.runDeletes KonaMpt.noopFetcher 1 (.leaf [0, 0] [1]) [] =
      .ok (.leaf [0, 0] [1]) ∧
    KonaMpt.encLength (.leaf [0, 0] [1]) = 5 ∧
    KonaMpt.blindedCommitment
      (KonaMpt.blindNode KonaMpt.keccakZero (.leaf [0, 0] [1])) = none := by
  have h5 : KonaMpt.encLength (.leaf [0, 0] [1]) = 5 := by
    simp [KonaMpt.encLength, KonaMpt.payloadLength, KonaMpt.keyEncLen,
      KonaMpt.rlpStrLen, KonaMpt.lengthOfLength]
  have hb : KonaMpt.blindNode KonaMpt.keccakZero (.leaf [0, 0] [1]) =
      .leaf [0, 0] [1] := by
    simp [KonaMpt.blindNode, h5]
  refine ⟨?_, rfl, h5, ?_⟩
  · simp [KonaMpt.runInserts, KonaMpt.insertNode, bind, Except.bind]
  · rw [hb]
    rfl

/-- C1 (amended): for every sequence of uniform-length in-range insertions
into an initially empty trie followed by deletions of a duplicate-free
subset of the inserted keys, all inserts and deletes succeed, and whenever
the surviving key-value set is empty or the canonical encoding of its trie
is at least 32 bytes, `blind()` on the resulting root yields a commitment
equal to the root a reference Merkle-Patricia hash-builder computes from
the surviving set in sorted order.  (The original, unconditional claim
fails when a non-empty surviving root encodes below 32 bytes: `blind`
leaves it unhashed and `blinded_commitment` returns `none`.) -/
theorem C1_blind_root_matches_reference
    (kec : List Nat → List Nat) (f : KonaMpt.Fetcher) (L fuel : Nat)
    (ins : List (List Nat × List Nat)) (dels : List (List Nat))
    (hins : ∀ e ∈ ins, e.1.length = L ∧ ∀ x ∈ e.1, x < 16)
    (hnd : dels.Nodup)
    (hdm : ∀ d ∈ dels, d ∈ (KonaMpt.insMap ins).map Prod.fst)
    (hok : KonaMpt.survivors ins dels = [] ∨
      32 ≤ KonaMpt.encLength
        (KonaMpt.canon L (KonaMpt.survivors ins dels))) :
    ∃ t1 t2, KonaMpt.runInserts f fuel .empty ins = .ok t1 ∧
      KonaMpt.runDeletes f fuel t1 dels = .ok t2 ∧
      KonaMpt.blindedCommitment (KonaMpt.blindNode kec t2) =
        some (KonaMpt.refRoot kec L (KonaMpt.survivors ins dels)) := by
  have hU0 : KonaMpt.UKeys L [] := by
    intro e he
    cases he
  have hS0 : KonaMpt.SKeys [] := List.Pairwise.nil
  have h1 := KonaMpt.runInserts_canon f L fuel ins [] hU0 hS0 hins
  rw [KonaMpt.canon_nil] at h1
  have hUm : KonaMpt.UKeys L (KonaMpt.insMap ins) :=
    KonaMpt.ukeys_foldl_insert L ins [] hU0 hins
  have hSm : KonaMpt.SKeys (KonaMpt.insMap ins) :=
    KonaMpt.skeys_foldl_insert ins [] hS0
  have h2 := KonaMpt.runDeletes_canon f L fuel dels (KonaMpt.insMap ins)
    hUm hSm hnd hdm
  refine ⟨KonaMpt.canon L (KonaMpt.insMap ins),
    KonaMpt.canon L (KonaMpt.survivors ins dels), h1, h2, ?_⟩
  rcases hok with hnil | hge
  · rw [hnil, KonaMpt.canon_nil]
    simp [KonaMpt.blindNode, KonaMpt.blindedCommitment, KonaMpt.refRoot,
      KonaMpt.encLength, KonaMpt.TrieNode.isBlindedN]
  · have hne : KonaMpt.survivors ins dels ≠ [] := by
      intro h3
      rw [h3, KonaMpt.canon_nil] at hge
      simp [KonaMpt.encLength] at hge
    simp only [KonaMpt.blindNode]
    rw [if_pos ⟨hge, by rw [KonaMpt.canon_isBlindedN_false]; simp⟩]
    simp only [KonaMpt.blindedCommitment, KonaMpt.refRoot]
    rw [if_neg hne]

/-- Witness for C1 at a concrete input: insert the key `[0, 0]` with value
`[1]` into the empty trie, then delete it; the surviving set is empty and
both sides yield the empty-root hash. -/
theorem C1_blind_root_matches_reference_witness :
    ∃ t1 t2, KonaMpt.runInserts KonaMpt.noopFetcher 1 .empty
        [([0, 0], [1])] = .ok t1 ∧
      KonaMpt.runDeletes KonaMpt.noopFetcher 1 t1 [[0, 0]] = .ok t2 ∧
      KonaMpt.blindedCommitment
        (KonaMpt.blindNode KonaMpt.keccakZero t2) =
        some (KonaMpt.refRoot KonaMpt.keccakZero 2
          (KonaMpt.survivors [([0, 0], [1])] [[0, 0]])) :=
  C1_blind_root_matches_reference KonaMpt.keccakZero KonaMpt.noopFetcher 2 1
    [([0, 0], [1])] [[0, 0]] (by decide) (by decide) (by decide)
    (Or.inl (by decide))
